import Mathlib

/-!
Shallow embedding of the multiway search-tree container from `src/btree.h` and
`src/btree_iterator.h`.

Modelling conventions:

* A C++ `Node` (`btree<T>::Node`) is `BNode T`: its sorted element buffer `val`
  (a `std::vector<T>`) becomes a `List T`, and its `maxNodeElems + 1` child
  slots (`std::vector<std::shared_ptr<Node>>`, null = absent) become a
  `List (Option (BNode T))`.  The per-tree capacity `maxNodeElems` is passed
  around as an explicit parameter `cap`.
* The non-owning `parent` / `root` back-references are not stored: a node is
  identified by its path from the root (the list of child-slot indices), so
  `ptr->parent` is "drop the last step of the path" and `ptr->root` is the
  root node itself.  `changeRoot` / `changeParent` keep those raw pointers
  consistent with exactly this path structure, which is what justifies the
  encoding.
* An iterator holds a node pointer and a `std::vector` iterator into that
  node's buffer; we model it as a pair `(path, index)`.  A `std::vector<T>`
  iterator is a raw pointer into the vector's heap buffer; distinct nodes own
  distinct buffers, and a never-filled buffer (only possible for an empty
  node) has a null begin/end pointer.  `iterPtr` reproduces exactly this
  pointer value: `none` for an iterator into an empty buffer (null pointer),
  `some (path, index)` otherwise.  The iterators' `operator==` compares only
  these pointer values (`this->pos == other.pos`), which `iterPtrEq` models.
* Operations whose C++ source performs an out-of-bounds access or a null
  dereference (undefined behavior) return `none` at exactly those program
  points; each such point is marked with a comment.
* The element type is any `LinearOrder` (the source requires a strict total
  order `operator<` and a matching `operator==`).
-/

/-- A tree node: element buffer and child slots (`none` = null `shared_ptr`). -/
inductive BNode (T : Type) : Type where
  | mk : List T → List (Option (BNode T)) → BNode T

/-- The element buffer `val` of a node. -/
def BNode.val {T : Type} : BNode T → List T
  | .mk v _ => v

/-- The child-slot vector `children` of a node. -/
def BNode.children {T : Type} : BNode T → List (Option (BNode T))
  | .mk _ c => c

/-- `std::lower_bound(val.begin(), val.end(), e) - val.begin()`: on a sorted
buffer this is the index of the first element that is not less than `e`
(`l.length` when every element is less than `e`). -/
def lowerBound {T : Type} [LinearOrder T] (l : List T) (e : T) : Nat :=
  match l with
  | [] => 0
  | x :: xs => if x < e then lowerBound xs e + 1 else 0

/-- `Node(btree*, Node*, size)`: a fresh node has an empty buffer and
`size + 1` null child slots.  This is both the root made by the `btree`
constructor and the node made on the child-creation path of `nodeInsert`. -/
def mkNode (T : Type) (cap : Nat) : BNode T :=
  .mk [] (List.replicate (cap + 1) none)

/-- `btree::Node::nodeInsert`.  Returns the new subtree, the position of the
element (path of child-slot indices relative to this node, index in that
node's buffer), and the `inserted` flag.  The source's child branches read
`children[pos]`; the helper `insChild` walks to that slot structurally.  When
the slot is absent the source allocates an empty node and recurses into it;
that recursive call immediately takes the empty-buffer branch (append `e`,
index 0), which is inlined here. -/
def nodeInsert {T : Type} [LinearOrder T] (cap : Nat) : BNode T → T → BNode T × (List Nat × Nat) × Bool
  | .mk vs cs, e =>
    if vs = [] then (.mk [e] cs, ([], 0), true)
    else
      let pos := lowerBound vs e
      if pos < vs.length ∧ vs.get? pos = some e then (.mk vs cs, ([], pos), false)
      else if vs.length < cap then (.mk (vs.insertIdx pos e) cs, ([], pos), true)
      else
        let r := insChild cap e pos cs
        (.mk vs r.1, (pos :: r.2.1.1, r.2.1.2), r.2.2)
where
  /-- Walks `children` to slot `pos` and performs the full-node child step. -/
  insChild (cap : Nat) (e : T) : Nat → List (Option (BNode T)) → List (Option (BNode T)) × (List Nat × Nat) × Bool
  | _, [] => ([], ([], 0), false)
    -- `children[pos]` past the end of the child vector: cannot happen, the
    -- buffer is full so `pos ≤ maxSize` and there are `maxSize + 1` slots.
  | 0, none :: cs => (some (.mk [e] (List.replicate (cap + 1) none)) :: cs, ([], 0), true)
  | 0, some c :: cs =>
      let r := nodeInsert cap c e
      (some r.1 :: cs, r.2)
  | k + 1, c :: cs =>
      let r := insChild cap e k cs
      (c :: r.1, r.2)

/-- `btree::insert` delegates to the root node's `nodeInsert`; building a tree
is folding insertions over the fresh root made by `btree(maxNodeElems)`. -/
def buildTree (T : Type) [LinearOrder T] (cap : Nat) (es : List T) : BNode T :=
  es.foldl (fun t e => (nodeInsert cap t e).1) (mkNode T cap)

/-- In-order contents of a subtree: child 0, element 0, child 1, element 1,
…, last element, last child.  (Specification-side notion; the source realises
it through the iterators.) -/
def inorder {T : Type} : BNode T → List T
  | .mk vs cs => inorderGo vs cs
where
  inorderGo : List T → List (Option (BNode T)) → List T
  | vs, [] => vs
  | vs, c :: cs =>
      (match c with | none => [] | some n => inorder n) ++
      (match vs with | [] => [] | v :: vs2 => v :: inorderGo vs2 cs)

/-- The in-order contents of an optional child. -/
def optInorder {T : Type} : Option (BNode T) → List T
  | none => []
  | some n => inorder n

/-- Lower bound applying to child slot `i` of a node with buffer `vs` and
subtree bounds `(lo, hi)`: element `i - 1`, or `lo` for the first slot. -/
def slotLo {T : Type} (lo : Option T) (vs : List T) : Nat → Option T
  | 0 => lo
  | k + 1 => vs.get? k

/-- Upper bound for child slot `i`: element `i`, or `hi` for the last slot. -/
def slotHi {T : Type} (hi : Option T) (vs : List T) (i : Nat) : Option T :=
  match vs.get? i with
  | some v => some v
  | none => hi

/-- Number of elements stored in the tree. -/
def count {T : Type} (t : BNode T) : Nat :=
  (inorder t).length

/-- Child slot `i` of a child vector (absent and out-of-range both `none`). -/
def childAt {T : Type} (cs : List (Option (BNode T))) (i : Nat) : Option (BNode T) :=
  (cs.get? i).join

/-- Follow a path of child-slot indices down from a node. -/
def nodeAt {T : Type} : List Nat → BNode T → Option (BNode T)
  | [], n => some n
  | i :: p, .mk _ cs =>
    match childAt cs i with
    | some c => nodeAt p c
    | none => none

/-- The element an iterator `(path, index)` refers to, if any. -/
def elemAt {T : Type} (root : BNode T) (p : List Nat) (i : Nat) : Option T :=
  (nodeAt p root).bind fun n => n.val.get? i

/-- The leftmost descent `while (ptr->children[0] != nullptr) ptr = ptr->children[0]`
(shared by `nodeBegin`, `cNodeBegin` and the right-child case of `operator++`). -/
def descendLeft {T : Type} : BNode T → List Nat
  | .mk _ [] => []
  | .mk _ (none :: _) => []
  | .mk _ (some c :: _) => 0 :: descendLeft c

/-- The rightmost descent through `children[val.size()]` (shared by `nodeEnd`,
`cNodeEnd` and the left-child case of `operator--`).  `endGo` walks the child
vector to slot `val.size()`. -/
def endPath {T : Type} : BNode T → List Nat
  | .mk vs cs => endGo vs.length vs.length cs
where
  endGo (orig : Nat) : Nat → List (Option (BNode T)) → List Nat
  | _, [] => []
  | 0, none :: _ => []
  | 0, some c :: _ => orig :: endPath c
  | k + 1, _ :: cs => endGo orig k cs

/-- Buffer length of the node at a path (0 if the path is invalid). -/
def lenAt {T : Type} (root : BNode T) (p : List Nat) : Nat :=
  match nodeAt p root with
  | some n => n.val.length
  | none => 0

/-- `btree::Node::nodeBegin` (and `btree::begin`): leftmost node, index 0. -/
def beginPos {T : Type} (root : BNode T) : List Nat × Nat :=
  (descendLeft root, 0)

/-- `btree::Node::cNodeBegin` (and `btree::cbegin`): same descent as
`nodeBegin`, returning the read-only variant. -/
def cBeginPos {T : Type} (root : BNode T) : List Nat × Nat :=
  (descendLeft root, 0)

/-- `btree::Node::nodeEnd` (and `btree::end`): rightmost node through the
`children[val.size()]` slots, position `val.end()`. -/
def endPos {T : Type} (root : BNode T) : List Nat × Nat :=
  (endPath root, lenAt root (endPath root))

/-- `btree::Node::cNodeEnd` (and `btree::cend`): same as `nodeEnd`. -/
def cEndPos {T : Type} (root : BNode T) : List Nat × Nat :=
  (endPath root, lenAt root (endPath root))

/-- The raw pointer value of the `std::vector` iterator held by a tree
iterator: null (`none`) when the node's buffer is empty (a never-filled
vector has null begin/end), otherwise determined by the owning buffer (the
node, identified by its path) and the offset. -/
def iterPtr {T : Type} (root : BNode T) (pq : List Nat × Nat) : Option (List Nat × Nat) :=
  match nodeAt pq.1 root with
  | none => none
  | some n => if n.val.isEmpty then none else some pq

/-- `operator==` of the iterators (all four variant pairings have the same
body `this->pos == other.pos`): comparison of the two vector-iterator
pointer values. -/
def iterPtrEq {T : Type} (root : BNode T) (p q : List Nat × Nat) : Bool :=
  iterPtr root p == iterPtr root q

/-- `btree_iterator::operator==(const btree_iterator&)`. -/
def iterEqMM {T : Type} (root : BNode T) (p q : List Nat × Nat) : Bool :=
  iterPtrEq root p q

/-- `btree_iterator::operator==(const const_btree_iterator&)`. -/
def iterEqMC {T : Type} (root : BNode T) (p q : List Nat × Nat) : Bool :=
  iterPtrEq root p q

/-- `const_btree_iterator::operator==(const btree_iterator&)`. -/
def iterEqCM {T : Type} (root : BNode T) (p q : List Nat × Nat) : Bool :=
  iterPtrEq root p q

/-- `const_btree_iterator::operator==(const const_btree_iterator&)`. -/
def iterEqCC {T : Type} (root : BNode T) (p q : List Nat × Nat) : Bool :=
  iterPtrEq root p q

/-- `btree_iterator::operator!=(const const_btree_iterator&)`:
`!operator==(other)`. -/
def iterNeMC {T : Type} (root : BNode T) (p q : List Nat × Nat) : Bool :=
  !iterEqMC root p q

/-- `const_btree_iterator::operator!=(const btree_iterator&)`:
`!operator==(other)`. -/
def iterNeCM {T : Type} (root : BNode T) (p q : List Nat × Nat) : Bool :=
  !iterEqCM root p q

/-- The ascent loop of `operator++`: `while (*this != ptr->root->end()) {
ptr = ptr->parent; pos = lower_bound(ptr->val, temp); if (pos != ptr->val.end()) break; }`.
The argument is the current node's path *reversed* (so popping to the parent
is structural); on entry and on every re-test the held vector iterator is the
current node's `val.end()`. -/
def ascendEnd {T : Type} [LinearOrder T] (root : BNode T) (temp : T) : List Nat → Option (List Nat × Nat)
  | [] =>
    if iterPtrEq root ([], lenAt root []) (endPos root) then
      some ([], lenAt root [])
    else none
      -- `ptr = ptr->parent` at the root: `ptr` becomes null and the
      -- following `ptr->val` access is a null dereference.
  | i :: rp2 =>
    if iterPtrEq root ((i :: rp2).reverse, lenAt root ((i :: rp2).reverse)) (endPos root) then
      some ((i :: rp2).reverse, lenAt root ((i :: rp2).reverse))
    else
      match nodeAt rp2.reverse root with
      | none => none
      | some n2 =>
        let j := lowerBound n2.val temp
        if j < n2.val.length then some (rp2.reverse, j)
        else ascendEnd root temp rp2

/-- `btree_iterator::operator++` / `const_btree_iterator::operator++`
(identical bodies).  `none` marks the undefined-behavior program points. -/
def incIter {T : Type} [LinearOrder T] (root : BNode T) (pq : List Nat × Nat) : Option (List Nat × Nat) :=
  match nodeAt pq.1 root with
  | none => none
  | some n =>
    match n.val.get? pq.2 with
    | none => none
      -- `T temp = (*pos)`: dereference outside the element buffer
      -- (in particular, advancing the end iterator).
    | some temp =>
      match n.children.get? (pq.2 + 1) with
      | none => none -- `children[offset]` out of range (offset ≤ maxSize always holds here)
      | some (some c) => some (pq.1 ++ (pq.2 + 1) :: descendLeft c, 0)
      | some none =>
        if pq.2 + 1 < n.val.length then some (pq.1, pq.2 + 1)
        else ascendEnd root temp pq.1.reverse

/-- The ascent loop of `operator--`: `while (*this != ptr->root->begin()) {
ptr = ptr->parent; pos = lower_bound(ptr->val, temp); if (pos != ptr->val.begin()) { --pos; break; } }`.
On entry and on every re-test the held vector iterator is the current node's
`val.begin()` (offset 0). -/
def ascendBegin {T : Type} [LinearOrder T] (root : BNode T) (temp : T) : List Nat → Option (List Nat × Nat)
  | [] =>
    if iterPtrEq root ([], 0) (beginPos root) then
      some ([], 0)
    else none -- ascend past the root: null `ptr` dereference
  | i :: rp2 =>
    if iterPtrEq root ((i :: rp2).reverse, 0) (beginPos root) then
      some ((i :: rp2).reverse, 0)
    else
      match nodeAt rp2.reverse root with
      | none => none
      | some n2 =>
        let j := lowerBound n2.val temp
        if j ≠ 0 then some (rp2.reverse, j - 1)
        else ascendBegin root temp rp2

/-- `btree_iterator::operator--` / `const_btree_iterator::operator--`
(identical bodies).  Note the source reads `T temp = (*pos)` before any
branch, so decrementing the end iterator dereferences one past the last
element; that is the `none` on the second match. -/
def decIter {T : Type} [LinearOrder T] (root : BNode T) (pq : List Nat × Nat) : Option (List Nat × Nat) :=
  match nodeAt pq.1 root with
  | none => none
  | some n =>
    match n.val.get? pq.2 with
    | none => none
      -- `T temp = (*pos)`: for the end iterator `pos == val.end()`, a read
      -- one past the last element of the buffer (undefined behavior).
    | some temp =>
      match n.children.get? pq.2 with
      | none => none -- `children[offset]` out of range (offset ≤ maxSize always holds here)
      | some (some c) =>
        let q := pq.1 ++ pq.2 :: endPath c
        some (q, lenAt root q - 1)
      | some none =>
        if pq.2 = 0 then ascendBegin root temp pq.1.reverse
        else some (pq.1, pq.2 - 1)

/-- `k` successive applications of `operator++` (`none` if any step is
undefined). -/
def incIterN {T : Type} [LinearOrder T] (root : BNode T) :
    Nat → (List Nat × Nat) → Option (List Nat × Nat)
  | 0, pq => some pq
  | k + 1, pq => (incIter root pq).bind (incIterN root k)

/-- `btree::Node::nodeFind` (mutable overload).  Result: `none` when the
source performs an out-of-bounds read, `some none` when it returns
`root->end()`, `some (some (path, index))` when it returns an iterator to a
matching element.  The source compares `(*itPos) == elem` *before* checking
`itPos != val.end()`, hence the first `none`. -/
def nodeFind {T : Type} [LinearOrder T] : BNode T → T → Option (Option (List Nat × Nat))
  | .mk vs cs, e =>
    let pos := lowerBound vs e
    match vs.get? pos with
    | none => none
      -- `(*itPos) == elem` with `itPos == val.end()`: reads one past the
      -- last element of the buffer (undefined behavior).
    | some v =>
      if v = e then some (some ([], pos))
      else
        match nfChild e pos cs with
        | some (some r) => some (some (pos :: r.1, r.2))
        | r => r
where
  /-- Walks `children` to slot `pos`: recurse if present, else `root->end()`. -/
  nfChild (e : T) : Nat → List (Option (BNode T)) → Option (Option (List Nat × Nat))
  | _, [] => none -- `children[pos]` out of range: cannot happen (`pos ≤ maxSize`)
  | 0, none :: _ => some none
  | 0, some c :: _ => nodeFind c e
  | k + 1, _ :: cs => nfChild e k cs

/-- `btree::Node::cNodeFind` (read-only overload): textually the same search
as `nodeFind`, returning `root->cend()` instead of `root->end()`. -/
def cNodeFind {T : Type} [LinearOrder T] : BNode T → T → Option (Option (List Nat × Nat))
  | .mk vs cs, e =>
    let pos := lowerBound vs e
    match vs.get? pos with
    | none => none -- `(*itPos)` at `val.end()`: one-past-the-end read (undefined behavior)
    | some v =>
      if v = e then some (some ([], pos))
      else
        match cnfChild e pos cs with
        | some (some r) => some (some (pos :: r.1, r.2))
        | r => r
where
  /-- Walks `children` to slot `pos`: recurse if present, else `root->cend()`. -/
  cnfChild (e : T) : Nat → List (Option (BNode T)) → Option (Option (List Nat × Nat))
  | _, [] => none -- `children[pos]` out of range: cannot happen (`pos ≤ maxSize`)
  | 0, none :: _ => some none
  | 0, some c :: _ => cNodeFind c e
  | k + 1, _ :: cs => cnfChild e k cs

/-- The element sequence produced by the loop
`for (; it != tree.cend(); ++it) os << " " << (*it);` of `operator<<`,
started at `pq`, with explicit fuel (`count` steps suffice). -/
def iterElemsFrom {T : Type} [LinearOrder T] (root : BNode T) : Nat → (List Nat × Nat) → List T
  | 0, _ => []
  | fuel + 1, pq =>
    if iterPtrEq root pq (cEndPos root) then []
    else
      match elemAt root pq.1 pq.2 with
      | none => [] -- `(*it)` out of bounds: unreachable while the guard holds on a well-formed tree
      | some v =>
        v :: (match incIter root pq with
              | some pq2 => iterElemsFrom root fuel pq2
              | none => [])

/-- Stepping forward from `begin`, the element sequence an iterator visits
before reaching `cend` (the traversal named by the specification). -/
def iterTraverse {T : Type} [LinearOrder T] (root : BNode T) : List T :=
  iterElemsFrom root (count root) (beginPos root)

/-- `operator<<(std::ostream&, const btree<T>&)`: prints `*it` for
`it = cbegin()` when the tree is non-empty, then, *without advancing `it`*,
runs `for (; it != tree.cend(); ++it) os << " " << (*it);` — so the loop
starts again at `cbegin()`. -/
def dump {T : Type} [LinearOrder T] [ToString T] (root : BNode T) : String :=
  (if iterPtrEq root (cBeginPos root) (cEndPos root) then ""
   else
     match elemAt root (cBeginPos root).1 (cBeginPos root).2 with
     | some v => toString v
     | none => "") ++
  String.join ((iterElemsFrom root (count root) (cBeginPos root)).map fun v => " " ++ toString v)

/-- Size of a subtree in nodes (used for the induction principle). -/
def BNode.size {T : Type} : BNode T → Nat
  | .mk _ cs => 1 + sizeGo cs
where
  sizeGo : List (Option (BNode T)) → Nat
  | [] => 0
  | none :: cs => sizeGo cs
  | some c :: cs => c.size + sizeGo cs

/-- Lower bound constraint on an element (`none` = unbounded). -/
def inLo {T : Type} [LinearOrder T] : Option T → T → Prop
  | none, _ => True
  | some a, x => a < x

/-- Upper bound constraint on an element (`none` = unbounded). -/
def inHi {T : Type} [LinearOrder T] : Option T → T → Prop
  | none, _ => True
  | some b, x => x < b

/-- All child slots absent. -/
def allNone {T : Type} (cs : List (Option (BNode T))) : Prop :=
  ∀ c ∈ cs, c = none

/-- Well-formedness of a subtree within open bounds `(lo, hi)`:
the structural invariants the container maintains.  `isRoot = true` only for
the tree's root (the only node allowed to be empty).  `WFGo` walks the
buffer and the child slots together, threading the generalized-BST bounds:
slot `i`'s subtree lies strictly between elements `i - 1` and `i`.
The fill-policy clause says a node that is not full has no children. -/
def WF {T : Type} [LinearOrder T] (cap : Nat) : Option T → Option T → Bool → BNode T → Prop
  | lo, hi, isRoot, .mk vs cs =>
    cs.length = cap + 1 ∧ vs.length ≤ cap ∧ (isRoot = false → vs ≠ []) ∧
    (vs.length < cap → allNone cs) ∧ WFGo cap lo hi vs cs
where
  WFGo (cap : Nat) : Option T → Option T → List T → List (Option (BNode T)) → Prop
  | _, _, vs, [] => vs = []
  | lo, hi, [], c :: rest =>
      (match c with | none => True | some n => WF cap lo hi false n) ∧ allNone rest
  | lo, hi, v :: vs2, c :: rest =>
      (match c with | none => True | some n => WF cap lo (some v) false n) ∧
      inLo lo v ∧ inHi hi v ∧ WFGo cap (some v) hi vs2 rest

/-- All positions of the elements of a subtree at absolute path `p`, in
in-order order (mirrors `inorder`). -/
def posList {T : Type} : BNode T → List Nat → List (List Nat × Nat)
  | .mk vs cs, p => posGo vs cs p 0
where
  posGo : List T → List (Option (BNode T)) → List Nat → Nat → List (List Nat × Nat)
  | vs, [], p, i => (List.range vs.length).map fun k => (p, i + k)
  | vs, c :: cs, p, i =>
      (match c with | none => [] | some n => posList n (p ++ [i])) ++
      (match vs with | [] => [] | _ :: vs2 => (p, i) :: posGo vs2 cs p (i + 1))

/-- The positions contributed by an optional child at absolute path `p`. -/
def optPosList {T : Type} : Option (BNode T) → List Nat → List (List Nat × Nat)
  | none, _ => []
  | some n, p => posList n p

/-! ### Heap model for copy semantics

`btree`'s copy constructor duplicates the node graph through
`std::make_shared<Node>(*original.rootNode)`, and `insert` mutates nodes in
place through pointers.  Sharing and in-place mutation are invisible to the
value-level `BNode` model, so copy independence is stated over an explicit
heap: addresses are `Nat`, a node record holds the element buffer and the
child pointer slots, and allocation hands out the next fresh address. -/

/-- A heap-allocated `Node`: element buffer `val` and child pointer slots
(`none` = null `shared_ptr`, `some b` = pointer to address `b`).  The
back-references `root` and `parent` are omitted: neither the copy recursion
nor `nodeInsert` reads them. -/
structure NodeRec (T : Type) where
  val : List T
  kids : List (Option Nat)

/-- The heap: memory contents and the next fresh address. -/
structure Heap (T : Type) where
  mem : Nat → NodeRec T
  next : Nat

/-- Overwrite the record at address `a`. -/
def hWrite {T : Type} (h : Heap T) (a : Nat) (r : NodeRec T) : Heap T :=
  ⟨fun b => if b = a then r else h.mem b, h.next⟩

/-- `std::make_shared<Node>(...)`: allocate a fresh record, return the new
heap and the fresh address. -/
def hAlloc {T : Type} (h : Heap T) (r : NodeRec T) : Heap T × Nat :=
  (⟨fun b => if b = h.next then r else h.mem b, h.next + 1⟩, h.next)

/-- Address `a` holds a representation of the value tree `s`: the buffer
matches and the child slots align, null with absent and pointer with present
(recursively). -/
def reprAt {T : Type} (h : Heap T) : Nat → BNode T → Prop
  | a, .mk vs cs => (h.mem a).val = vs ∧ reprKids h (h.mem a).kids cs
where
  reprKids (h : Heap T) : List (Option Nat) → List (Option (BNode T)) → Prop
  | [], [] => True
  | [], _ :: _ => False
  | _ :: _, [] => False
  | none :: ks, none :: cs => reprKids h ks cs
  | none :: _, some _ :: _ => False
  | some _ :: _, none :: _ => False
  | some b :: ks, some c :: cs => reprAt h b c ∧ reprKids h ks cs

/-- The addresses of the node graph representing `s` from address `a`
(shape-directed). -/
def addrsAt {T : Type} (h : Heap T) : Nat → BNode T → List Nat
  | a, .mk _ cs => a :: addrsKids h (h.mem a).kids cs
where
  addrsKids (h : Heap T) : List (Option Nat) → List (Option (BNode T)) → List Nat
  | some b :: ks, some c :: cs => addrsAt h b c ++ addrsKids h ks cs
  | _ :: ks, _ :: cs => addrsKids h ks cs
  | _, _ => []

/-- `Node`'s copy constructor: build a fresh record with the same buffer and
all-null child slots (`children{n.maxSize+1, nullptr}`), then copy each
non-null child recursively and plant the fresh pointer
(`children[i] = std::make_shared<Node>(*n.children[i])`).  The recursion is
directed by the value tree `s` that `a` represents. -/
def copyH {T : Type} (h : Heap T) : Nat → BNode T → Heap T × Nat
  | a, .mk _ cs =>
    let src := h.mem a
    let al := hAlloc h ⟨src.val, List.replicate src.kids.length none⟩
    copyKids al.1 al.2 0 src.kids cs
where
  /-- The child-copy loop `for (i = 0; i < n.children.size(); ++i)`. -/
  copyKids (h : Heap T) (a2 : Nat) (i : Nat) :
      List (Option Nat) → List (Option (BNode T)) → Heap T × Nat
  | [], _ => (h, a2)
  | _ :: _, [] => (h, a2)
  | none :: ks, _ :: cs => copyKids h a2 (i + 1) ks cs
  | some _ :: _, none :: _ => (h, a2)
  | some b :: ks, some c :: cs =>
      let r := copyH h b c
      let h3 := hWrite r.1 a2 ⟨(r.1.mem a2).val, (r.1.mem a2).kids.set i (some r.2)⟩
      copyKids h3 a2 (i + 1) ks cs

/-- `btree::Node::nodeInsert` acting on the heap: mutation happens in place at
the visited addresses; a missing child slot allocates a fresh node
(`children[pos] = std::make_shared<Node>(root, this, maxSize)`) whose
immediately following recursive insert takes the empty-buffer branch.  The
recursion is directed by the value tree `s` that `a` represents. -/
def insertH {T : Type} [LinearOrder T] (cap : Nat) (h : Heap T) :
    Nat → BNode T → T → Heap T
  | a, .mk _ cs, e =>
    let cur := h.mem a
    if cur.val = [] then hWrite h a ⟨[e], cur.kids⟩
    else
      let pos := lowerBound cur.val e
      if pos < cur.val.length ∧ cur.val.get? pos = some e then h
      else if cur.val.length < cap then hWrite h a ⟨cur.val.insertIdx pos e, cur.kids⟩
      else insKid cap h a e pos pos cur.kids cs
where
  /-- Walk `children` to slot `pos` (`k` counts down) and do the full-node
  child step. -/
  insKid (cap : Nat) (h : Heap T) (a : Nat) (e : T) (pos : Nat) :
      Nat → List (Option Nat) → List (Option (BNode T)) → Heap T
  | _, [], _ => h
  | 0, some b :: _, some c :: _ => insertH cap h b c e
  | 0, some _ :: _, none :: _ => h
  | 0, some _ :: _, [] => h
  | 0, none :: _, _ =>
      let al := hAlloc h ⟨[e], List.replicate (cap + 1) none⟩
      hWrite al.1 a ⟨(al.1.mem a).val, (al.1.mem a).kids.set pos (some al.2)⟩
  | _ + 1, _ :: _, [] => h
  | k + 1, _ :: ks, _ :: cs => insKid cap h a e pos k ks cs

/-! ### Basic structural facts -/

theorem sizeGo_le_of_mem {T : Type} {cs : List (Option (BNode T))} {c : BNode T}
    (h : some c ∈ cs) : c.size ≤ BNode.size.sizeGo cs := by
  induction cs with
  | nil => cases h
  | cons hd tl ih =>
    cases h with
    | head => simp [BNode.size.sizeGo]
    | tail _ h2 =>
      have := ih h2
      cases hd with
      | none => simpa [BNode.size.sizeGo] using this
      | some c2 => simp only [BNode.size.sizeGo]; omega

theorem size_pos {T : Type} (n : BNode T) : 1 ≤ n.size := by
  cases n with
  | mk vs cs => simp [BNode.size]

theorem bnode_ind_aux {T : Type} {P : BNode T → Prop}
    (h : ∀ vs cs, (∀ c ∈ cs, ∀ m, c = some m → P m) → P (.mk vs cs)) :
    ∀ k n, BNode.size n ≤ k → P n := by
  intro k
  induction k with
  | zero => intro n hn; have := size_pos n; omega
  | succ k ih =>
    intro n hn
    cases n with
    | mk vs cs =>
      apply h
      intro c hc m hm
      apply ih
      subst hm
      have := sizeGo_le_of_mem hc
      simp only [BNode.size] at hn
      omega

/-- Nested induction principle for `BNode`: to prove `P` for a node it
suffices to prove it assuming it for all present children. -/
theorem bnode_ind {T : Type} {P : BNode T → Prop}
    (h : ∀ vs cs, (∀ c ∈ cs, ∀ m, c = some m → P m) → P (.mk vs cs)) :
    ∀ n, P n :=
  fun n => bnode_ind_aux h n.size n le_rfl

/-! ### `lowerBound` -/

theorem lowerBound_le_length {T : Type} [LinearOrder T] (l : List T) (e : T) :
    lowerBound l e ≤ l.length := by
  induction l with
  | nil => simp [lowerBound]
  | cons x xs ih =>
    by_cases h : x < e
    · simp only [lowerBound, if_pos h, List.length_cons]; omega
    · simp [lowerBound, h]

theorem lt_of_lt_lowerBound {T : Type} [LinearOrder T] {l : List T} {e x : T} {k : Nat}
    (hg : l.get? k = some x) (hk : k < lowerBound l e) : x < e := by
  induction l generalizing k with
  | nil => simp [lowerBound] at hk
  | cons y ys ih =>
    by_cases h : y < e
    · cases k with
      | zero =>
        simp only [List.get?_cons_zero, Option.some.injEq] at hg
        exact hg ▸ h
      | succ k =>
        simp only [lowerBound, if_pos h] at hk
        exact ih (by simpa using hg) (by omega)
    · simp [lowerBound, h] at hk

theorem le_of_lowerBound_le {T : Type} [LinearOrder T] {l : List T} {e x : T} {k : Nat}
    (hs : List.Sorted (· < ·) l) (hg : l.get? k = some x) (hk : lowerBound l e ≤ k) : e ≤ x := by
  induction l generalizing k with
  | nil => simp at hg
  | cons y ys ih =>
    by_cases h : y < e
    · cases k with
      | zero => simp [lowerBound, h] at hk
      | succ k =>
        simp only [lowerBound, h, if_pos] at hk
        exact ih hs.of_cons (by simpa using hg) (by omega)
    · push_neg at h
      cases k with
      | zero => simp at hg; subst hg; exact h
      | succ k =>
        have hmem : x ∈ ys := List.get?_mem (by simpa using hg)
        have : y < x := (List.sorted_cons.mp hs).1 x hmem
        exact le_trans h this.le

theorem inLo_mono {T : Type} [LinearOrder T] {lo : Option T} {x y : T}
    (h : inLo lo x) (hxy : x ≤ y) : inLo lo y := by
  cases lo with
  | none => trivial
  | some a => exact lt_of_lt_of_le h hxy

theorem inHi_mono {T : Type} [LinearOrder T] {hi : Option T} {x y : T}
    (hxy : y ≤ x) (h : inHi hi x) : inHi hi y := by
  cases hi with
  | none => trivial
  | some b => exact lt_of_le_of_lt hxy h

theorem wfgo_vs_bounds {T : Type} [LinearOrder T] {cap : Nat} {hi : Option T} :
    ∀ {cs : List (Option (BNode T))} {vs : List T} {lo : Option T},
      WF.WFGo cap lo hi vs cs → ∀ x ∈ vs, inLo lo x ∧ inHi hi x := by
  intro cs
  induction cs with
  | nil =>
    intro vs lo hw x hx
    cases vs with
    | nil => cases hx
    | cons v vs2 => unfold WF.WFGo at hw; simp at hw
  | cons c rest ih =>
    intro vs lo hw x hx
    cases vs with
    | nil => cases hx
    | cons v vs2 =>
      unfold WF.WFGo at hw
      obtain ⟨-, hlov, hhiv, hrec⟩ := hw
      rcases hx with _ | hx2
      · exact ⟨hlov, hhiv⟩
      · have := ih hrec x (by assumption)
        exact ⟨inLo_mono hlov this.1.le, this.2⟩

theorem wfgo_sorted {T : Type} [LinearOrder T] {cap : Nat} {hi : Option T} :
    ∀ {cs : List (Option (BNode T))} {vs : List T} {lo : Option T},
      WF.WFGo cap lo hi vs cs → List.Sorted (· < ·) vs := by
  intro cs
  induction cs with
  | nil =>
    intro vs lo hw
    cases vs with
    | nil => exact List.sorted_nil
    | cons v vs2 => unfold WF.WFGo at hw; simp at hw
  | cons c rest ih =>
    intro vs lo hw
    cases vs with
    | nil => exact List.sorted_nil
    | cons v vs2 =>
      unfold WF.WFGo at hw
      obtain ⟨-, hlov, hhiv, hrec⟩ := hw
      refine List.sorted_cons.mpr ⟨fun x hx => ?_, ih hrec⟩
      exact (wfgo_vs_bounds hrec x hx).1

theorem inorderGo_allNone {T : Type} :
    ∀ {cs : List (Option (BNode T))} {vs : List T},
      allNone cs → inorder.inorderGo vs cs = vs := by
  intro cs
  induction cs with
  | nil => intro vs _; rfl
  | cons c rest ih =>
    intro vs hall
    have hc : c = none := hall c (by simp)
    subst hc
    have hrest : allNone rest := fun x hx => hall x (by simp [hx])
    cases vs with
    | nil => rfl
    | cons v vs2 => simp [inorder.inorderGo, ih hrest]

theorem igo_nil {T : Type} (vs : List T) : inorder.inorderGo vs ([] : List (Option (BNode T))) = vs := rfl

theorem igo_none_nil {T : Type} (cs : List (Option (BNode T))) :
    inorder.inorderGo ([] : List T) (none :: cs) = [] := rfl

theorem igo_some_nil {T : Type} (m : BNode T) (cs : List (Option (BNode T))) :
    inorder.inorderGo ([] : List T) (some m :: cs) = inorder m ++ [] := rfl

theorem igo_none_cons {T : Type} (v : T) (vs2 : List T) (cs : List (Option (BNode T))) :
    inorder.inorderGo (v :: vs2) (none :: cs) = v :: inorder.inorderGo vs2 cs := rfl

theorem igo_some_cons {T : Type} (m : BNode T) (v : T) (vs2 : List T) (cs : List (Option (BNode T))) :
    inorder.inorderGo (v :: vs2) (some m :: cs) = inorder m ++ v :: inorder.inorderGo vs2 cs := rfl

/-- The in-order contents of a well-formed subtree are sorted and lie in the
subtree's bounds.  Stated over `inorderGo` with the child facts as a
hypothesis so that it can be closed by the nested induction principle. -/
theorem igo_wf {T : Type} [LinearOrder T] {cap : Nat} {hi : Option T} :
    ∀ {cs : List (Option (BNode T))} {vs : List T} {lo : Option T},
      WF.WFGo cap lo hi vs cs →
      (∀ c ∈ cs, ∀ m, c = some m → ∀ lo2 hi2 b2, WF cap lo2 hi2 b2 m →
        List.Sorted (· < ·) (inorder m) ∧ ∀ x ∈ inorder m, inLo lo2 x ∧ inHi hi2 x) →
      List.Sorted (· < ·) (inorder.inorderGo vs cs) ∧
        ∀ x ∈ inorder.inorderGo vs cs, inLo lo x ∧ inHi hi x := by
  intro cs
  induction cs with
  | nil =>
    intro vs lo hw _
    cases vs with
    | nil => exact ⟨List.sorted_nil, by simp [igo_nil]⟩
    | cons v vs2 => unfold WF.WFGo at hw; simp at hw
  | cons c rest ih =>
    intro vs lo hw hch
    have hchrest : ∀ c2 ∈ rest, ∀ m, c2 = some m → ∀ lo2 hi2 b2, WF cap lo2 hi2 b2 m →
        List.Sorted (· < ·) (inorder m) ∧ ∀ x ∈ inorder m, inLo lo2 x ∧ inHi hi2 x :=
      fun c2 h2 => hch c2 (by simp [h2])
    cases vs with
    | nil =>
      unfold WF.WFGo at hw
      obtain ⟨hc, -⟩ := hw
      cases c with
      | none => exact ⟨List.sorted_nil, by simp [igo_none_nil]⟩
      | some m =>
        have hm := hch (some m) (by simp) m rfl lo hi false hc
        rw [igo_some_nil]
        exact ⟨by simpa using hm.1, by simpa using hm.2⟩
    | cons v vs2 =>
      unfold WF.WFGo at hw
      obtain ⟨hc, hlov, hhiv, hrec⟩ := hw
      have htail := ih hrec hchrest
      cases c with
      | none =>
        rw [igo_none_cons]
        constructor
        · exact List.sorted_cons.mpr ⟨fun x hx => (htail.2 x hx).1, htail.1⟩
        · intro x hx
          rcases List.mem_cons.mp hx with hxv | hx2
          · subst hxv; exact ⟨hlov, hhiv⟩
          · have := htail.2 x hx2
            exact ⟨inLo_mono hlov this.1.le, this.2⟩
      | some m =>
        have hm := hch (some m) (by simp) m rfl lo (some v) false hc
        rw [igo_some_cons]
        constructor
        · show List.Pairwise _ _
          refine List.pairwise_append.mpr
            ⟨hm.1, List.sorted_cons.mpr ⟨fun x hx => (htail.2 x hx).1, htail.1⟩, ?_⟩
          intro x hx y hy
          have hxv : x < v := (hm.2 x hx).2
          rcases List.mem_cons.mp hy with hyv | hy2
          · subst hyv; exact hxv
          · exact lt_trans hxv (htail.2 y hy2).1
        · intro x hx
          rcases List.mem_append.mp hx with hx | hx
          · exact ⟨(hm.2 x hx).1, inHi_mono ((hm.2 x hx).2).le hhiv⟩
          · rcases List.mem_cons.mp hx with hxv | hx2
            · subst hxv; exact ⟨hlov, hhiv⟩
            · have := htail.2 x hx2
              exact ⟨inLo_mono hlov this.1.le, this.2⟩

/-- Sortedness and boundedness of `inorder` for well-formed subtrees. -/
theorem inorder_wf {T : Type} [LinearOrder T] {cap : Nat} :
    ∀ n : BNode T, ∀ lo hi b, WF cap lo hi b n →
      List.Sorted (· < ·) (inorder n) ∧ ∀ x ∈ inorder n, inLo lo x ∧ inHi hi x := by
  refine bnode_ind ?_
  intro vs cs ihc lo hi b hw
  obtain ⟨-, -, -, -, hgo⟩ := hw
  have := igo_wf hgo ihc
  have hrw : inorder (BNode.mk vs cs) = inorder.inorderGo vs cs := rfl
  rw [hrw]
  exact this

theorem inorder_sorted {T : Type} [LinearOrder T] {cap : Nat} {n : BNode T}
    {lo hi : Option T} {b : Bool} (hw : WF cap lo hi b n) :
    List.Sorted (· < ·) (inorder n) :=
  (inorder_wf n lo hi b hw).1

theorem inorder_bounds {T : Type} [LinearOrder T] {cap : Nat} {n : BNode T}
    {lo hi : Option T} {b : Bool} (hw : WF cap lo hi b n) :
    ∀ x ∈ inorder n, inLo lo x ∧ inHi hi x :=
  (inorder_wf n lo hi b hw).2

/-! ### List and `lowerBound` helpers -/

theorem list_set_same {A : Type} : ∀ {l : List A} {i : Nat} {a : A},
    l.get? i = some a → l.set i a = l := by
  intro l
  induction l with
  | nil => intro i a h; simp at h
  | cons x xs ih =>
    intro i a h
    cases i with
    | zero =>
      simp only [List.get?_cons_zero, Option.some.injEq] at h
      subst h; simp
    | succ k =>
      rw [List.get?_cons_succ] at h
      simp [ih h]

theorem lowerBound_get?_of_mem {T : Type} [LinearOrder T] {l : List T} {e : T}
    (hs : List.Sorted (· < ·) l) (hm : e ∈ l) : l.get? (lowerBound l e) = some e := by
  induction l with
  | nil => cases hm
  | cons x xs ih =>
    by_cases h : x < e
    · have hxs : e ∈ xs := by
        rcases List.mem_cons.mp hm with he | he
        · exact absurd he.symm (ne_of_lt h)
        · exact he
      simpa [lowerBound, h] using ih hs.of_cons hxs
    · have hex : e = x := by
        rcases List.mem_cons.mp hm with he | he
        · exact he
        · exact absurd ((List.sorted_cons.mp hs).1 e he) h
      simp [lowerBound, h, hex]

theorem found_iff_mem {T : Type} [LinearOrder T] {l : List T} {e : T}
    (hs : List.Sorted (· < ·) l) :
    (lowerBound l e < l.length ∧ l.get? (lowerBound l e) = some e) ↔ e ∈ l := by
  constructor
  · intro h
    exact List.get?_mem h.2
  · intro hm
    have hg := lowerBound_get?_of_mem hs hm
    exact ⟨(List.get?_eq_some.mp hg).1, hg⟩

theorem lowerBound_eq {T : Type} [LinearOrder T] {l : List T} {e : T} {i : Nat}
    (hs : List.Sorted (· < ·) l) (hle : i ≤ l.length)
    (h1 : ∀ k x, k < i → l.get? k = some x → x < e)
    (h2 : ∀ x, l.get? i = some x → e ≤ x) : lowerBound l e = i := by
  rcases Nat.lt_trichotomy (lowerBound l e) i with h | h | h
  · have hlen : lowerBound l e < l.length := lt_of_lt_of_le h hle
    have hy := List.get?_eq_get hlen
    have := le_of_lowerBound_le hs hy le_rfl
    exact absurd (h1 _ _ h hy) (not_lt.mpr this)
  · exact h
  · have hilen : i < l.length := lt_of_lt_of_le h (lowerBound_le_length l e)
    have hy := List.get?_eq_get hilen
    have := lt_of_lt_lowerBound hy h
    exact absurd (h2 _ hy) (not_le.mpr this)

theorem insertIdx_take_drop {A : Type} (a : A) :
    ∀ (l : List A) (n : Nat), n ≤ l.length →
      l.insertIdx n a = l.take n ++ a :: l.drop n := by
  intro l
  induction l with
  | nil =>
    intro n hn
    have : n = 0 := Nat.le_zero.mp (by simpa using hn)
    subst this; simp
  | cons x xs ih =>
    intro n hn
    cases n with
    | zero => simp
    | succ k =>
      simp only [List.insertIdx_succ_cons, List.take_succ_cons, List.drop_succ_cons,
        List.cons_append]
      rw [ih k (by simpa using hn)]

/-! ### `inorder` decomposition -/

theorem igo_cons_nil_opt {T : Type} (c : Option (BNode T)) (rest : List (Option (BNode T))) :
    inorder.inorderGo ([] : List T) (c :: rest) = optInorder c := by
  cases c with
  | none => rfl
  | some m => simp [igo_some_nil, optInorder]

theorem igo_cons_cons_opt {T : Type} (c : Option (BNode T)) (v : T) (vs2 : List T)
    (rest : List (Option (BNode T))) :
    inorder.inorderGo (v :: vs2) (c :: rest) = optInorder c ++ v :: inorder.inorderGo vs2 rest := by
  cases c with
  | none => rfl
  | some m => rfl

theorem igo_set {T : Type} :
    ∀ (i : Nat) (cs : List (Option (BNode T))) (vs : List T) (cOld cNew : Option (BNode T)),
      cs.get? i = some cOld → i ≤ vs.length →
      ∃ A B, inorder.inorderGo vs cs = A ++ optInorder cOld ++ B ∧
        inorder.inorderGo vs (cs.set i cNew) = A ++ optInorder cNew ++ B := by
  intro i
  induction i with
  | zero =>
    intro cs vs cOld cNew hg _
    cases cs with
    | nil => simp at hg
    | cons c rest =>
      simp only [List.get?_cons_zero, Option.some.injEq] at hg
      subst hg
      cases vs with
      | nil =>
        exact ⟨[], [], by simp [igo_cons_nil_opt], by simp [igo_cons_nil_opt]⟩
      | cons v vs2 =>
        exact ⟨[], v :: inorder.inorderGo vs2 rest,
          by simp [igo_cons_cons_opt], by simp [igo_cons_cons_opt]⟩
  | succ k ih =>
    intro cs vs cOld cNew hg hle
    cases cs with
    | nil => simp at hg
    | cons c rest =>
      rw [List.get?_cons_succ] at hg
      cases vs with
      | nil => simp at hle
      | cons v vs2 =>
        obtain ⟨A, B, h1, h2⟩ := ih rest vs2 cOld cNew hg (by simpa using hle)
        refine ⟨optInorder c ++ v :: A, B, ?_, ?_⟩
        · rw [igo_cons_cons_opt, h1]; simp
        · rw [List.set_cons_succ, igo_cons_cons_opt, h2]; simp

theorem optInorder_mem {T : Type} {c : Option (BNode T)} {x : T} :
    x ∈ optInorder c ↔ ∃ m, c = some m ∧ x ∈ inorder m := by
  cases c with
  | none => simp [optInorder]
  | some m => simp [optInorder]

theorem igo_mem {T : Type} :
    ∀ (cs : List (Option (BNode T))) (vs : List T),
      (∀ i c, cs.get? i = some (some c) → i ≤ vs.length) →
      ∀ x : T, x ∈ inorder.inorderGo vs cs ↔
        x ∈ vs ∨ ∃ i c, cs.get? i = some (some c) ∧ x ∈ inorder c := by
  intro cs
  induction cs with
  | nil =>
    intro vs _ x
    simp [igo_nil]
  | cons c rest ih =>
    intro vs hbound x
    cases vs with
    | nil =>
      rw [igo_cons_nil_opt]
      constructor
      · intro hx
        obtain ⟨m, hc, hm⟩ := optInorder_mem.mp hx
        exact Or.inr ⟨0, m, by simp [hc], hm⟩
      · rintro (h | ⟨i, c2, hg, hm⟩)
        · cases h
        · cases i with
          | zero =>
            simp only [List.get?_cons_zero, Option.some.injEq] at hg
            exact optInorder_mem.mpr ⟨c2, hg, hm⟩
          | succ k =>
            have := hbound (k + 1) c2 hg
            simp only [List.length_nil] at this
            omega
    | cons v vs2 =>
      rw [igo_cons_cons_opt]
      have hb2 : ∀ i c2, rest.get? i = some (some c2) → i ≤ vs2.length := by
        intro i c2 hg
        have := hbound (i + 1) c2 (by simpa using hg)
        simpa using this
      constructor
      · intro hx
        rcases List.mem_append.mp hx with hx | hx
        · obtain ⟨m, hc, hm⟩ := optInorder_mem.mp hx
          exact Or.inr ⟨0, m, by simp [hc], hm⟩
        · rcases List.mem_cons.mp hx with hxv | hx2
          · exact Or.inl (by simp [hxv])
          · rcases (ih vs2 hb2 x).mp hx2 with h | ⟨k, c2, hg, hm⟩
            · exact Or.inl (by simp [h])
            · exact Or.inr ⟨k + 1, c2, by simpa using hg, hm⟩
      · rintro (h | ⟨i, c2, hg, hm⟩)
        · rcases List.mem_cons.mp h with hxv | hx2
          · exact List.mem_append.mpr (Or.inr (by simp [hxv]))
          · refine List.mem_append.mpr (Or.inr ?_)
            exact List.mem_cons.mpr (Or.inr ((ih vs2 hb2 x).mpr (Or.inl hx2)))
        · cases i with
          | zero =>
            simp only [List.get?_cons_zero, Option.some.injEq] at hg
            exact List.mem_append.mpr (Or.inl (optInorder_mem.mpr ⟨c2, hg, hm⟩))
          | succ k =>
            rw [List.get?_cons_succ] at hg
            refine List.mem_append.mpr (Or.inr ?_)
            exact List.mem_cons.mpr (Or.inr ((ih vs2 hb2 x).mpr (Or.inr ⟨k, c2, hg, hm⟩)))

/-! ### `WFGo` construction and destruction -/

theorem slotLo_cons {T : Type} (lo : Option T) (v : T) (vs2 : List T) (k : Nat) :
    slotLo lo (v :: vs2) (k + 1) = slotLo (some v) vs2 k := by
  cases k with
  | zero => simp [slotLo]
  | succ j => simp [slotLo]

theorem slotHi_cons {T : Type} (hi : Option T) (v : T) (vs2 : List T) (k : Nat) :
    slotHi hi (v :: vs2) (k + 1) = slotHi hi vs2 k := by
  simp [slotHi]

theorem wfgo_allNone_nilvs {T : Type} [LinearOrder T] {cap : Nat} {lo hi : Option T}
    {cs : List (Option (BNode T))} (h : allNone cs) : WF.WFGo cap lo hi ([] : List T) cs := by
  cases cs with
  | nil => unfold WF.WFGo; rfl
  | cons c rest =>
    unfold WF.WFGo
    have hc : c = none := h c (by simp)
    subst hc
    exact ⟨trivial, fun x hx => h x (by simp [hx])⟩

theorem wfgo_of_allNone {T : Type} [LinearOrder T] {cap : Nat} {hi : Option T} :
    ∀ {vs : List T} {cs : List (Option (BNode T))} {lo : Option T},
      allNone cs → vs.length < cs.length → List.Sorted (· < ·) vs →
      (∀ x ∈ vs, inLo lo x ∧ inHi hi x) → WF.WFGo cap lo hi vs cs := by
  intro vs
  induction vs with
  | nil => intro cs lo h _ _ _; exact wfgo_allNone_nilvs h
  | cons v vs2 ih =>
    intro cs lo h hlen hs hb
    cases cs with
    | nil => simp at hlen
    | cons c rest =>
      unfold WF.WFGo
      have hc : c = none := h c (by simp)
      subst hc
      refine ⟨trivial, (hb v (by simp)).1, (hb v (by simp)).2, ?_⟩
      refine ih (fun x hx => h x (by simp [hx])) (by simpa using hlen) hs.of_cons ?_
      intro x hx
      exact ⟨(List.sorted_cons.mp hs).1 x hx, (hb x (by simp [hx])).2⟩

theorem wfgo_child {T : Type} [LinearOrder T] {cap : Nat} {hi : Option T} {c : BNode T} :
    ∀ (i : Nat) {vs : List T} {cs : List (Option (BNode T))} {lo : Option T},
      cs.get? i = some (some c) → i ≤ vs.length → WF.WFGo cap lo hi vs cs →
      WF cap (slotLo lo vs i) (slotHi hi vs i) false c := by
  intro i
  induction i with
  | zero =>
    intro vs cs lo hg _ hw
    cases cs with
    | nil => simp at hg
    | cons c0 rest =>
      simp only [List.get?_cons_zero, Option.some.injEq] at hg
      subst hg
      cases vs with
      | nil =>
        unfold WF.WFGo at hw
        exact hw.1
      | cons v vs2 =>
        unfold WF.WFGo at hw
        exact hw.1
  | succ k ih =>
    intro vs cs lo hg hle hw
    cases cs with
    | nil => simp at hg
    | cons c0 rest =>
      rw [List.get?_cons_succ] at hg
      cases vs with
      | nil => simp at hle
      | cons v vs2 =>
        unfold WF.WFGo at hw
        rw [slotLo_cons, slotHi_cons]
        exact ih hg (by simpa using hle) hw.2.2.2

theorem wfgo_set {T : Type} [LinearOrder T] {cap : Nat} {hi : Option T} {c' : BNode T} :
    ∀ (i : Nat) {vs : List T} {cs : List (Option (BNode T))} {lo : Option T}
      {cOld : Option (BNode T)},
      cs.get? i = some cOld → i ≤ vs.length → WF.WFGo cap lo hi vs cs →
      WF cap (slotLo lo vs i) (slotHi hi vs i) false c' →
      WF.WFGo cap lo hi vs (cs.set i (some c')) := by
  intro i
  induction i with
  | zero =>
    intro vs cs lo cOld hg _ hw hc
    cases cs with
    | nil => simp at hg
    | cons c0 rest =>
      cases vs with
      | nil =>
        unfold WF.WFGo at hw ⊢
        simp only [List.set_cons_zero]
        exact ⟨hc, hw.2⟩
      | cons v vs2 =>
        unfold WF.WFGo at hw ⊢
        simp only [List.set_cons_zero]
        exact ⟨hc, hw.2.1, hw.2.2.1, hw.2.2.2⟩
  | succ k ih =>
    intro vs cs lo cOld hg hle hw hc
    cases cs with
    | nil => simp at hg
    | cons c0 rest =>
      rw [List.get?_cons_succ] at hg
      cases vs with
      | nil => simp at hle
      | cons v vs2 =>
        unfold WF.WFGo at hw ⊢
        rw [List.set_cons_succ]
        rw [slotLo_cons, slotHi_cons] at hc
        exact ⟨hw.1, hw.2.1, hw.2.2.1, ih hg (by simpa using hle) hw.2.2.2 hc⟩

/-! ### `insChild` characterization -/

theorem insChild_present {T : Type} [LinearOrder T] {cap : Nat} {e : T} {c : BNode T} :
    ∀ (k : Nat) (cs : List (Option (BNode T))), cs.get? k = some (some c) →
      nodeInsert.insChild cap e k cs =
        (cs.set k (some (nodeInsert cap c e).1), (nodeInsert cap c e).2) := by
  intro k
  induction k with
  | zero =>
    intro cs hg
    cases cs with
    | nil => simp at hg
    | cons c0 rest =>
      simp only [List.get?_cons_zero, Option.some.injEq] at hg
      subst hg
      rfl
  | succ k ih =>
    intro cs hg
    cases cs with
    | nil => simp at hg
    | cons c0 rest =>
      rw [List.get?_cons_succ] at hg
      show (c0 :: (nodeInsert.insChild cap e k rest).1, (nodeInsert.insChild cap e k rest).2) = _
      rw [ih rest hg]
      rfl

theorem insChild_absent {T : Type} [LinearOrder T] {cap : Nat} {e : T} :
    ∀ (k : Nat) (cs : List (Option (BNode T))), cs.get? k = some none →
      nodeInsert.insChild cap e k cs =
        (cs.set k (some (.mk [e] (List.replicate (cap + 1) none))), ([], 0), true) := by
  intro k
  induction k with
  | zero =>
    intro cs hg
    cases cs with
    | nil => simp at hg
    | cons c0 rest =>
      simp only [List.get?_cons_zero, Option.some.injEq] at hg
      subst hg
      rfl
  | succ k ih =>
    intro cs hg
    cases cs with
    | nil => simp at hg
    | cons c0 rest =>
      rw [List.get?_cons_succ] at hg
      show (c0 :: (nodeInsert.insChild cap e k rest).1, (nodeInsert.insChild cap e k rest).2) = _
      rw [ih rest hg]
      rfl

/-! ### `nodeAt` and `elemAt` decomposition -/

theorem nodeAt_nil {T : Type} (n : BNode T) : nodeAt [] n = some n := rfl

theorem nodeAt_cons_some {T : Type} {cs : List (Option (BNode T))} {i : Nat} {c : BNode T}
    (h : childAt cs i = some c) (vs : List T) (p : List Nat) :
    nodeAt (i :: p) (BNode.mk vs cs) = nodeAt p c := by
  show (match childAt cs i with | some c => nodeAt p c | none => none) = _
  rw [h]

theorem childAt_of_get? {T : Type} {cs : List (Option (BNode T))} {i : Nat}
    {co : Option (BNode T)} (h : cs.get? i = some co) : childAt cs i = co := by
  unfold childAt
  rw [h]
  rfl

theorem elemAt_nil_idx {T : Type} (vs : List T) (cs : List (Option (BNode T))) (i : Nat) :
    elemAt (BNode.mk vs cs) [] i = vs.get? i := rfl

theorem elemAt_cons {T : Type} {cs : List (Option (BNode T))} {j : Nat} {c : BNode T}
    (h : childAt cs j = some c) (vs : List T) (p : List Nat) (i : Nat) :
    elemAt (BNode.mk vs cs) (j :: p) i = elemAt c p i := by
  unfold elemAt
  rw [nodeAt_cons_some h]

/-! ### Sorted-buffer helpers for the insert proof -/

theorem sorted_get?_lt {T : Type} [LinearOrder T] {l : List T} {a b : T} {k j : Nat}
    (hs : List.Sorted (· < ·) l) (hk : l.get? k = some a) (hj : l.get? j = some b)
    (hkj : k < j) : a < b := by
  have hk2 := List.get?_eq_some.mp hk
  have hj2 := List.get?_eq_some.mp hj
  obtain ⟨hkl, hka⟩ := hk2
  obtain ⟨hjl, hjb⟩ := hj2
  have := hs.rel_get_of_lt (a := ⟨k, hkl⟩) (b := ⟨j, hjl⟩) hkj
  rw [hka, hjb] at this
  exact this

theorem get?_insertIdx_self {T : Type} (a : T) :
    ∀ (l : List T) (n : Nat), n ≤ l.length → (l.insertIdx n a).get? n = some a := by
  intro l
  induction l with
  | nil =>
    intro n hn
    have : n = 0 := Nat.le_zero.mp (by simpa using hn)
    subst this
    rfl
  | cons x xs ih =>
    intro n hn
    cases n with
    | zero => rfl
    | succ k =>
      rw [List.insertIdx_succ_cons, List.get?_cons_succ]
      exact ih k (by simpa using hn)

theorem sorted_insertIdx {T : Type} [LinearOrder T] {l : List T} {e : T}
    (hs : List.Sorted (· < ·) l) (hne : e ∉ l) :
    List.Sorted (· < ·) (l.insertIdx (lowerBound l e) e) := by
  induction l with
  | nil => simp [lowerBound]
  | cons x xs ih =>
    by_cases h : x < e
    · have hlb : lowerBound (x :: xs) e = lowerBound xs e + 1 := by simp [lowerBound, h]
      rw [hlb, List.insertIdx_succ_cons]
      refine List.sorted_cons.mpr ⟨?_, ih hs.of_cons (fun hm => hne (by simp [hm]))⟩
      intro b hb
      have hlen := lowerBound_le_length xs e
      rcases (List.mem_insertIdx hlen).mp hb with hbe | hbx
      · exact hbe ▸ h
      · exact (List.sorted_cons.mp hs).1 b hbx
    · have hlb : lowerBound (x :: xs) e = 0 := by simp [lowerBound, h]
      rw [hlb, List.insertIdx_zero]
      refine List.sorted_cons.mpr ⟨?_, hs⟩
      intro b hb
      have hex : e ≠ x := fun hex => hne (by simp [hex])
      have hx : e < x := lt_of_le_of_ne (not_lt.mp h) hex
      rcases List.mem_cons.mp hb with hbx | hbxs
      · exact hbx ▸ hx
      · exact lt_trans hx ((List.sorted_cons.mp hs).1 b hbxs)

/-! ### Well-formedness helpers -/

theorem wf_destruct {T : Type} [LinearOrder T] {cap : Nat} {lo hi : Option T} {b : Bool}
    {vs : List T} {cs : List (Option (BNode T))} (hw : WF cap lo hi b (.mk vs cs)) :
    cs.length = cap + 1 ∧ vs.length ≤ cap ∧ (b = false → vs ≠ []) ∧
    (vs.length < cap → allNone cs) ∧ WF.WFGo cap lo hi vs cs := by
  unfold WF at hw
  exact hw

theorem wf_construct {T : Type} [LinearOrder T] {cap : Nat} {lo hi : Option T} {b : Bool}
    {vs : List T} {cs : List (Option (BNode T))}
    (h1 : cs.length = cap + 1) (h2 : vs.length ≤ cap) (h3 : b = false → vs ≠ [])
    (h4 : vs.length < cap → allNone cs) (h5 : WF.WFGo cap lo hi vs cs) :
    WF cap lo hi b (.mk vs cs) := by
  unfold WF
  exact ⟨h1, h2, h3, h4, h5⟩

theorem wf_full_of_child {T : Type} [LinearOrder T] {cap : Nat} {lo hi : Option T} {b : Bool}
    {vs : List T} {cs : List (Option (BNode T))} {i : Nat} {c : BNode T}
    (hw : WF cap lo hi b (.mk vs cs)) (hg : cs.get? i = some (some c)) :
    vs.length = cap ∧ i ≤ vs.length := by
  obtain ⟨hlen, hle, -, hfill, -⟩ := wf_destruct hw
  have hfull : vs.length = cap := by
    by_contra hne
    have hlt : vs.length < cap := lt_of_le_of_ne hle hne
    have := hfill hlt (some c) (List.get?_mem hg)
    cases this
  have hi2 : i < cs.length := (List.get?_eq_some.mp hg).1
  exact ⟨hfull, by omega⟩

theorem wf_slot_le {T : Type} [LinearOrder T] {cap : Nat} {lo hi : Option T} {b : Bool}
    {vs : List T} {cs : List (Option (BNode T))}
    (hw : WF cap lo hi b (.mk vs cs)) :
    ∀ i c, cs.get? i = some (some c) → i ≤ vs.length :=
  fun _ c hg => (wf_full_of_child hw hg).2

theorem mem_inorder_node {T : Type} [LinearOrder T] {cap : Nat} {lo hi : Option T} {b : Bool}
    {vs : List T} {cs : List (Option (BNode T))}
    (hw : WF cap lo hi b (.mk vs cs)) (x : T) :
    x ∈ inorder (.mk vs cs) ↔ x ∈ vs ∨ ∃ i c, cs.get? i = some (some c) ∧ x ∈ inorder c := by
  have hrw : inorder (BNode.mk vs cs) = inorder.inorderGo vs cs := rfl
  rw [hrw]
  exact igo_mem cs vs (wf_slot_le hw) x

theorem mkNode_wf {T : Type} [LinearOrder T] {cap : Nat} (lo hi : Option T) :
    WF cap lo hi true (mkNode T cap) := by
  refine wf_construct (by simp) (by simp) (by simp) (fun _ => ?_) ?_
  · intro c hc
    exact List.eq_of_mem_replicate hc
  · exact wfgo_allNone_nilvs fun c hc => List.eq_of_mem_replicate hc

theorem inorder_mkNode {T : Type} [LinearOrder T] {cap : Nat} :
    inorder (mkNode T cap) = ([] : List T) := by
  have hrw : inorder (mkNode T cap) = inorder.inorderGo [] (List.replicate (cap + 1) none) := rfl
  rw [hrw, inorderGo_allNone fun c hc => List.eq_of_mem_replicate hc]

/-- The bounds of child slot `lowerBound vs e` admit `e`, when `e` is not in
the buffer and lies in the node's bounds. -/
theorem slot_bounds_of_lb {T : Type} [LinearOrder T] {lo hi : Option T} {vs : List T} {e : T}
    (hs : List.Sorted (· < ·) vs) (hne : e ∉ vs) (hlo : inLo lo e) (hhi : inHi hi e) :
    inLo (slotLo lo vs (lowerBound vs e)) e ∧ inHi (slotHi hi vs (lowerBound vs e)) e := by
  constructor
  · cases hpos : lowerBound vs e with
    | zero => simpa [slotLo] using hlo
    | succ k =>
      simp only [slotLo]
      have hk : k < lowerBound vs e := by omega
      have hklen : k < vs.length := lt_of_lt_of_le hk (lowerBound_le_length vs e)
      have hg := List.get?_eq_get hklen
      rw [hg]
      exact lt_of_lt_lowerBound hg hk
  · simp only [slotHi]
    cases hg : vs.get? (lowerBound vs e) with
    | none => exact hhi
    | some v =>
      have hle : e ≤ v := le_of_lowerBound_le hs hg le_rfl
      have hne2 : e ≠ v := by
        intro h
        subst h
        exact hne (List.get?_mem hg)
      exact lt_of_le_of_ne hle hne2

/-- Any subtree element with `e` strictly inside its slot's bounds pins the
slot index to `lowerBound vs e`. -/
theorem slot_eq_lb_of_mem {T : Type} [LinearOrder T] {cap : Nat} {lo hi : Option T} {b : Bool}
    {vs : List T} {cs : List (Option (BNode T))} {i : Nat} {c : BNode T} {e : T}
    (hw : WF cap lo hi b (.mk vs cs)) (hg : cs.get? i = some (some c))
    (hm : e ∈ inorder c) : lowerBound vs e = i := by
  obtain ⟨-, -, -, -, hgo⟩ := wf_destruct hw
  have hile := (wf_full_of_child hw hg).2
  have hcwf := wfgo_child i hg hile hgo
  have hb := inorder_bounds hcwf e hm
  have hsvs := wfgo_sorted hgo
  refine lowerBound_eq hsvs hile ?_ ?_
  · intro k x hk hgk
    have hlo := hb.1
    cases i with
    | zero => omega
    | succ j =>
      simp only [slotLo] at hlo
      have hjlen : j < vs.length := by omega
      have hgj := List.get?_eq_get hjlen
      rw [hgj] at hlo
      rcases Nat.lt_or_ge k j with hkj | hkj
      · exact lt_trans (sorted_get?_lt hsvs hgk hgj hkj) hlo
      · have : k = j := by omega
        subst this
        rw [hgk] at hgj
        cases hgj
        exact hlo
  · intro x hgx
    have hhi := hb.2
    simp only [slotHi] at hhi
    rw [hgx] at hhi
    exact hhi.le

/-! ### The insert specification -/

theorem nodeInsert_mk {T : Type} [LinearOrder T] {cap : Nat} (vs : List T)
    (cs : List (Option (BNode T))) (e : T) :
    nodeInsert cap (.mk vs cs) e =
      if vs = [] then (.mk [e] cs, ([], 0), true)
      else if lowerBound vs e < vs.length ∧ vs.get? (lowerBound vs e) = some e then
        (.mk vs cs, ([], lowerBound vs e), false)
      else if vs.length < cap then
        (.mk (vs.insertIdx (lowerBound vs e) e) cs, ([], lowerBound vs e), true)
      else
        (.mk vs (nodeInsert.insChild cap e (lowerBound vs e) cs).1,
          (lowerBound vs e :: (nodeInsert.insChild cap e (lowerBound vs e) cs).2.1.1,
           (nodeInsert.insChild cap e (lowerBound vs e) cs).2.1.2),
          (nodeInsert.insChild cap e (lowerBound vs e) cs).2.2) := rfl

/-- The full functional specification of `nodeInsert` on well-formed subtrees:
well-formedness is preserved, the returned position holds the element, a
present element leaves the subtree untouched with `inserted = false`, and an
absent element is spliced into the in-order sequence at its sorted place with
`inserted = true`. -/
theorem nodeInsert_spec {T : Type} [LinearOrder T] {cap : Nat} (hcap : 1 ≤ cap) :
    ∀ n : BNode T, ∀ lo hi : Option T, ∀ b : Bool, ∀ e : T,
      WF cap lo hi b n → inLo lo e → inHi hi e →
      WF cap lo hi b (nodeInsert cap n e).1 ∧
      elemAt (nodeInsert cap n e).1 (nodeInsert cap n e).2.1.1 (nodeInsert cap n e).2.1.2
        = some e ∧
      (e ∈ inorder n → (nodeInsert cap n e).1 = n ∧ (nodeInsert cap n e).2.2 = false) ∧
      (e ∉ inorder n → (nodeInsert cap n e).2.2 = true ∧
        ∃ A B, inorder n = A ++ B ∧ inorder (nodeInsert cap n e).1 = A ++ e :: B) := by
  refine bnode_ind ?_
  intro vs cs ih lo hi b e hw hlo hhi
  obtain ⟨hcslen, hvslen, hroot, hfill, hgo⟩ := wf_destruct hw
  have hsvs : List.Sorted (· < ·) vs := wfgo_sorted hgo
  rw [nodeInsert_mk]
  by_cases hvs : vs = []
  · subst hvs
    have hall : allNone cs := hfill (by simp only [List.length_nil]; omega)
    rw [if_pos rfl]
    have hio : inorder (BNode.mk ([] : List T) cs) = [] := by
      have hrw : inorder (BNode.mk ([] : List T) cs) = inorder.inorderGo [] cs := rfl
      rw [hrw, inorderGo_allNone hall]
    have hio2 : inorder (BNode.mk [e] cs) = [e] := by
      have hrw : inorder (BNode.mk [e] cs) = inorder.inorderGo [e] cs := rfl
      rw [hrw, inorderGo_allNone hall]
    refine ⟨?_, ?_, ?_, ?_⟩
    · refine wf_construct hcslen (by simpa using hcap) (by simp) (fun _ => hall) ?_
      exact wfgo_of_allNone hall (by simp only [List.length_cons, List.length_nil, hcslen]; omega)
        (by simp) (by simp [hlo, hhi])
    · rw [elemAt_nil_idx]; rfl
    · intro hm; rw [hio] at hm; cases hm
    · intro _
      exact ⟨rfl, [], [], by rw [hio]; rfl, by rw [hio2]; rfl⟩
  · rw [if_neg hvs]
    by_cases hf : lowerBound vs e < vs.length ∧ vs.get? (lowerBound vs e) = some e
    · rw [if_pos hf]
      refine ⟨hw, by rw [elemAt_nil_idx]; exact hf.2, fun _ => ⟨rfl, rfl⟩, ?_⟩
      intro hnm
      exact absurd ((mem_inorder_node hw e).mpr (Or.inl (List.get?_mem hf.2))) hnm
    · rw [if_neg hf]
      have hnotvs : e ∉ vs := fun hm => hf ((found_iff_mem hsvs).mpr hm)
      by_cases hroom : vs.length < cap
      · rw [if_pos hroom]
        have hall : allNone cs := hfill hroom
        have hple := lowerBound_le_length vs e
        have hio : inorder (BNode.mk vs cs) = vs := by
          have hrw : inorder (BNode.mk vs cs) = inorder.inorderGo vs cs := rfl
          rw [hrw, inorderGo_allNone hall]
        have hlen2 : (vs.insertIdx (lowerBound vs e) e).length = vs.length + 1 :=
          List.length_insertIdx _ _ hple
        have hio2 : inorder (BNode.mk (vs.insertIdx (lowerBound vs e) e) cs)
            = vs.insertIdx (lowerBound vs e) e := by
          have hrw : inorder (BNode.mk (vs.insertIdx (lowerBound vs e) e) cs)
              = inorder.inorderGo (vs.insertIdx (lowerBound vs e) e) cs := rfl
          rw [hrw, inorderGo_allNone hall]
        refine ⟨?_, ?_, ?_, ?_⟩
        · refine wf_construct hcslen (by omega) ?_ (fun _ => hall) ?_
          · intro _ habs
            have := congrArg List.length habs
            simp [hlen2] at this
          · refine wfgo_of_allNone hall (by omega) (sorted_insertIdx hsvs hnotvs) ?_
            intro x hx
            rcases (List.mem_insertIdx hple).mp hx with hxe | hxv
            · subst hxe; exact ⟨hlo, hhi⟩
            · exact (wfgo_vs_bounds hgo x hxv)
        · rw [elemAt_nil_idx]
          exact get?_insertIdx_self e vs _ hple
        · intro hm
          rw [hio] at hm
          exact absurd hm hnotvs
        · intro _
          refine ⟨rfl, vs.take (lowerBound vs e), vs.drop (lowerBound vs e), ?_, ?_⟩
          · rw [hio, List.take_append_drop]
          · rw [hio2, insertIdx_take_drop e vs _ hple]
      · rw [if_neg hroom]
        have hfull : vs.length = cap := by omega
        have hple : lowerBound vs e ≤ vs.length := lowerBound_le_length vs e
        have hpcs : lowerBound vs e < cs.length := by omega
        have hgd := List.get?_eq_get hpcs
        cases hco : cs.get (⟨lowerBound vs e, hpcs⟩ : Fin cs.length) with
        | some c =>
          rw [hco] at hgd
          rw [insChild_present _ cs hgd]
          have hmemc : some c ∈ cs := List.get?_mem hgd
          have hcwf := wfgo_child (lowerBound vs e) hgd hple hgo
          have hslot := slot_bounds_of_lb hsvs hnotvs hlo hhi
          have hIH := ih (some c) hmemc c rfl (slotLo lo vs (lowerBound vs e))
            (slotHi hi vs (lowerBound vs e)) false e hcwf hslot.1 hslot.2
          have hset : (cs.set (lowerBound vs e) (some (nodeInsert cap c e).1)).get?
              (lowerBound vs e) = some (some (nodeInsert cap c e).1) :=
            List.get?_set_eq_of_lt _ hpcs
          refine ⟨?_, ?_, ?_, ?_⟩
          · refine wf_construct (by simpa using hcslen) hvslen hroot
              (fun hlt => absurd hlt (by omega)) ?_
            exact wfgo_set _ hgd hple hgo hIH.1
          · rw [elemAt_cons (childAt_of_get? hset)]
            exact hIH.2.1
          · intro hm
            rcases (mem_inorder_node hw e).mp hm with hmv | ⟨i, c2, hgi, hmi⟩
            · exact absurd hmv hnotvs
            · have hieq := slot_eq_lb_of_mem hw hgi hmi
              subst hieq
              rw [hgd] at hgi
              have hc2 : c2 = c := by
                simpa using hgi.symm
              subst hc2
              obtain ⟨heq, hflag⟩ := hIH.2.2.1 hmi
              constructor
              · rw [heq, list_set_same hgd]
              · exact hflag
          · intro hnm
            have hnmc : e ∉ inorder c := fun hmc =>
              hnm ((mem_inorder_node hw e).mpr (Or.inr ⟨_, c, hgd, hmc⟩))
            obtain ⟨hflag, A2, B2, hsp1, hsp2⟩ := hIH.2.2.2 hnmc
            obtain ⟨A0, B0, hd1, hd2⟩ :=
              igo_set (lowerBound vs e) cs vs (some c) (some (nodeInsert cap c e).1) hgd hple
            refine ⟨hflag, A0 ++ A2, B2 ++ B0, ?_, ?_⟩
            · have hrw : inorder (BNode.mk vs cs) = inorder.inorderGo vs cs := rfl
              rw [hrw, hd1]
              simp only [optInorder, hsp1]
              simp [List.append_assoc]
            · have hrw : inorder (BNode.mk vs (cs.set (lowerBound vs e)
                  (some (nodeInsert cap c e).1)))
                  = inorder.inorderGo vs (cs.set (lowerBound vs e)
                    (some (nodeInsert cap c e).1)) := rfl
              rw [hrw, hd2]
              simp only [optInorder, hsp2]
              simp [List.append_assoc]
        | none =>
          rw [hco] at hgd
          rw [insChild_absent _ cs hgd]
          have hslot := slot_bounds_of_lb hsvs hnotvs hlo hhi
          have hfreshwf : WF cap (slotLo lo vs (lowerBound vs e))
              (slotHi hi vs (lowerBound vs e)) false
              (.mk [e] (List.replicate (cap + 1) none)) := by
            refine wf_construct (by simp) (by simpa using hcap) (by simp)
              (fun _ c hc => List.eq_of_mem_replicate hc) ?_
            refine wfgo_of_allNone (fun c hc => List.eq_of_mem_replicate hc)
              (by simp; omega) (by simp) (by simp [hslot.1, hslot.2])
          have hset : (cs.set (lowerBound vs e)
              (some (.mk [e] (List.replicate (cap + 1) none)))).get? (lowerBound vs e)
              = some (some (.mk [e] (List.replicate (cap + 1) none))) :=
            List.get?_set_eq_of_lt _ hpcs
          have hiofresh : inorder (.mk [e] (List.replicate (cap + 1) (none : Option (BNode T))))
              = [e] := by
            have hrw : inorder (.mk [e] (List.replicate (cap + 1) (none : Option (BNode T))))
                = inorder.inorderGo [e] (List.replicate (cap + 1) none) := rfl
            rw [hrw, inorderGo_allNone fun c hc => List.eq_of_mem_replicate hc]
          refine ⟨?_, ?_, ?_, ?_⟩
          · refine wf_construct (by simpa using hcslen) hvslen hroot
              (fun hlt => absurd hlt (by omega)) ?_
            exact wfgo_set _ hgd hple hgo hfreshwf
          · rw [elemAt_cons (childAt_of_get? hset), elemAt_nil_idx]
            rfl
          · intro hm
            rcases (mem_inorder_node hw e).mp hm with hmv | ⟨i, c2, hgi, hmi⟩
            · exact absurd hmv hnotvs
            · have hieq := slot_eq_lb_of_mem hw hgi hmi
              subst hieq
              rw [hgd] at hgi
              cases hgi
          · intro _
            obtain ⟨A0, B0, hd1, hd2⟩ :=
              igo_set (lowerBound vs e) cs vs none
                (some (.mk [e] (List.replicate (cap + 1) none))) hgd hple
            refine ⟨rfl, A0, B0, ?_, ?_⟩
            · have hrw : inorder (BNode.mk vs cs) = inorder.inorderGo vs cs := rfl
              rw [hrw, hd1]
              simp [optInorder]
            · have hrw : inorder (BNode.mk vs (cs.set (lowerBound vs e)
                  (some (.mk [e] (List.replicate (cap + 1) none)))))
                  = inorder.inorderGo vs (cs.set (lowerBound vs e)
                    (some (.mk [e] (List.replicate (cap + 1) none)))) := rfl
              rw [hrw, hd2]
              simp [optInorder, hiofresh]

theorem mem_nodeInsert {T : Type} [LinearOrder T] {cap : Nat} (hcap : 1 ≤ cap)
    {n : BNode T} {lo hi : Option T} {b : Bool} {e : T}
    (hw : WF cap lo hi b n) (hlo : inLo lo e) (hhi : inHi hi e) (x : T) :
    x ∈ inorder (nodeInsert cap n e).1 ↔ x = e ∨ x ∈ inorder n := by
  obtain ⟨-, -, hmem, hnmem⟩ := nodeInsert_spec hcap n lo hi b e hw hlo hhi
  by_cases hm : e ∈ inorder n
  · rw [(hmem hm).1]
    constructor
    · exact Or.inr
    · rintro (hxe | hx)
      · exact hxe ▸ hm
      · exact hx
  · obtain ⟨-, A, B, h1, h2⟩ := hnmem hm
    rw [h1, h2]
    simp only [List.mem_append, List.mem_cons]
    constructor
    · rintro (h | h | h)
      · exact Or.inr (Or.inl h)
      · exact Or.inl h
      · exact Or.inr (Or.inr h)
    · rintro (h | h | h)
      · exact Or.inr (Or.inl h)
      · exact Or.inl h
      · exact Or.inr (Or.inr h)

theorem count_nodeInsert {T : Type} [LinearOrder T] {cap : Nat} (hcap : 1 ≤ cap)
    {n : BNode T} {lo hi : Option T} {b : Bool} {e : T}
    (hw : WF cap lo hi b n) (hlo : inLo lo e) (hhi : inHi hi e) :
    count (nodeInsert cap n e).1 = if e ∈ inorder n then count n else count n + 1 := by
  obtain ⟨-, -, hmem, hnmem⟩ := nodeInsert_spec hcap n lo hi b e hw hlo hhi
  by_cases hm : e ∈ inorder n
  · rw [if_pos hm, (hmem hm).1]
  · obtain ⟨-, A, B, h1, h2⟩ := hnmem hm
    rw [if_neg hm]
    unfold count
    rw [h1, h2]
    simp only [List.length_append, List.length_cons]
    omega

theorem buildTree_wf {T : Type} [LinearOrder T] {cap : Nat} (hcap : 1 ≤ cap) (es : List T) :
    WF cap none none true (buildTree T cap es) := by
  unfold buildTree
  have hgen : ∀ (l : List T) (t : BNode T), WF cap none none true t →
      WF cap none none true (l.foldl (fun t e => (nodeInsert cap t e).1) t) := by
    intro l
    induction l with
    | nil => intro t ht; exact ht
    | cons x xs ih =>
      intro t ht
      exact ih _ (nodeInsert_spec hcap t none none true x ht trivial trivial).1
  exact hgen es _ (mkNode_wf none none)

theorem buildTree_mem {T : Type} [LinearOrder T] {cap : Nat} (hcap : 1 ≤ cap) (es : List T)
    (x : T) : x ∈ inorder (buildTree T cap es) ↔ x ∈ es := by
  unfold buildTree
  have hgen : ∀ (l : List T) (t : BNode T), WF cap none none true t →
      ∀ x, x ∈ inorder (l.foldl (fun t e => (nodeInsert cap t e).1) t) ↔
        x ∈ inorder t ∨ x ∈ l := by
    intro l
    induction l with
    | nil => intro t ht x; simp
    | cons y ys ih =>
      intro t ht x
      rw [List.foldl_cons]
      rw [ih _ (nodeInsert_spec hcap t none none true y ht trivial trivial).1 x]
      rw [mem_nodeInsert hcap ht trivial trivial x]
      simp only [List.mem_cons]
      tauto
  rw [hgen es _ (mkNode_wf none none) x, inorder_mkNode]
  simp

theorem buildTree_sorted {T : Type} [LinearOrder T] {cap : Nat} (hcap : 1 ≤ cap) (es : List T) :
    List.Sorted (· < ·) (inorder (buildTree T cap es)) :=
  inorder_sorted (buildTree_wf hcap es)

/-! ### Inserting a present element is the identity -/

theorem lowerBound_singleton_self {T : Type} [LinearOrder T] (e : T) :
    lowerBound [e] e = 0 := by
  simp [lowerBound]

theorem lowerBound_insertIdx_self {T : Type} [LinearOrder T] {vs : List T} {e : T}
    (hs : List.Sorted (· < ·) vs) (hne : e ∉ vs) :
    lowerBound (vs.insertIdx (lowerBound vs e) e) e = lowerBound vs e := by
  have hple := lowerBound_le_length vs e
  refine lowerBound_eq (sorted_insertIdx hs hne) ?_ ?_ ?_
  · rw [List.length_insertIdx _ _ hple]
    omega
  · intro k x hk hgk
    have hklen : k < vs.length := lt_of_lt_of_le hk hple
    have hgk2 : vs.get? k = some x := by
      have hb : k < (vs.insertIdx (lowerBound vs e) e).length := by
        rw [List.length_insertIdx _ _ hple]; omega
      have := List.getElem_insertIdx_of_lt vs e (lowerBound vs e) k hk hklen
      rw [List.get?_eq_getElem?, List.getElem?_eq_getElem hklen]
      rw [List.get?_eq_getElem?, List.getElem?_eq_getElem hb] at hgk
      simp only [Option.some.injEq] at hgk ⊢
      rw [← hgk, this]
    exact lt_of_lt_lowerBound hgk2 hk
  · intro x hgx
    rw [get?_insertIdx_self e vs _ hple] at hgx
    cases hgx
    exact le_rfl

/-- Re-inserting the element just handled by `nodeInsert` mutates nothing,
reports `inserted = false`, and returns the same position. -/
theorem nodeInsert_idem {T : Type} [LinearOrder T] {cap : Nat} (hcap : 1 ≤ cap) :
    ∀ n : BNode T, ∀ lo hi : Option T, ∀ b : Bool, ∀ e : T,
      WF cap lo hi b n → inLo lo e → inHi hi e →
      nodeInsert cap (nodeInsert cap n e).1 e
        = ((nodeInsert cap n e).1, (nodeInsert cap n e).2.1, false) := by
  refine bnode_ind ?_
  intro vs cs ih lo hi b e hw hlo hhi
  obtain ⟨hcslen, hvslen, hroot, hfill, hgo⟩ := wf_destruct hw
  have hsvs : List.Sorted (· < ·) vs := wfgo_sorted hgo
  rw [nodeInsert_mk vs cs e]
  by_cases hvs : vs = []
  · subst hvs
    rw [if_pos rfl]
    show nodeInsert cap (.mk [e] cs) e = _
    rw [nodeInsert_mk]
    rw [if_neg (by simp)]
    rw [if_pos (by simp [lowerBound_singleton_self])]
    rw [lowerBound_singleton_self]
  · rw [if_neg hvs]
    by_cases hf : lowerBound vs e < vs.length ∧ vs.get? (lowerBound vs e) = some e
    · rw [if_pos hf]
      show nodeInsert cap (.mk vs cs) e = _
      rw [nodeInsert_mk, if_neg hvs, if_pos hf]
    · rw [if_neg hf]
      have hnotvs : e ∉ vs := fun hm => hf ((found_iff_mem hsvs).mpr hm)
      by_cases hroom : vs.length < cap
      · rw [if_pos hroom]
        have hple := lowerBound_le_length vs e
        show nodeInsert cap (.mk (vs.insertIdx (lowerBound vs e) e) cs) e = _
        rw [nodeInsert_mk]
        rw [if_neg (by
          intro habs
          have := congrArg List.length habs
          rw [List.length_insertIdx _ _ hple] at this
          simp at this)]
        rw [if_pos (by
          rw [lowerBound_insertIdx_self hsvs hnotvs]
          refine ⟨?_, get?_insertIdx_self e vs _ hple⟩
          rw [List.length_insertIdx _ _ hple]
          omega)]
        rw [lowerBound_insertIdx_self hsvs hnotvs]
      · rw [if_neg hroom]
        have hfull : vs.length = cap := by omega
        have hple : lowerBound vs e ≤ vs.length := lowerBound_le_length vs e
        have hpcs : lowerBound vs e < cs.length := by omega
        have hgd0 := List.get?_eq_get hpcs
        cases hco : cs.get (⟨lowerBound vs e, hpcs⟩ : Fin cs.length) with
        | some c =>
          rw [hco] at hgd0
          rw [insChild_present _ cs hgd0]
          have hmemc : some c ∈ cs := List.get?_mem hgd0
          have hcwf := wfgo_child (lowerBound vs e) hgd0 hple hgo
          have hslot := slot_bounds_of_lb hsvs hnotvs hlo hhi
          have hIH := ih (some c) hmemc c rfl (slotLo lo vs (lowerBound vs e))
            (slotHi hi vs (lowerBound vs e)) false e hcwf hslot.1 hslot.2
          have hset : (cs.set (lowerBound vs e) (some (nodeInsert cap c e).1)).get?
              (lowerBound vs e) = some (some (nodeInsert cap c e).1) :=
            List.get?_set_eq_of_lt _ hpcs
          show nodeInsert cap (.mk vs (cs.set (lowerBound vs e)
            (some (nodeInsert cap c e).1))) e = _
          rw [nodeInsert_mk, if_neg hvs, if_neg hf, if_neg hroom]
          rw [insChild_present _ _ hset, hIH]
          rw [list_set_same hset]
        | none =>
          rw [hco] at hgd0
          rw [insChild_absent _ cs hgd0]
          have hset : (cs.set (lowerBound vs e)
              (some (.mk [e] (List.replicate (cap + 1) none)))).get? (lowerBound vs e)
              = some (some (.mk [e] (List.replicate (cap + 1) none))) :=
            List.get?_set_eq_of_lt _ hpcs
          show nodeInsert cap (.mk vs (cs.set (lowerBound vs e)
            (some (.mk [e] (List.replicate (cap + 1) none))))) e = _
          rw [nodeInsert_mk, if_neg hvs, if_neg hf, if_neg hroom]
          rw [insChild_present _ _ hset]
          have hfr : nodeInsert cap (.mk [e] (List.replicate (cap + 1)
              (none : Option (BNode T)))) e
              = (.mk [e] (List.replicate (cap + 1) none), ([], 0), false) := by
            rw [nodeInsert_mk]
            rw [if_neg (by simp)]
            rw [if_pos (by simp [lowerBound_singleton_self])]
            rw [lowerBound_singleton_self]
          rw [hfr]
          rw [list_set_same hset]

/-! ### `endPath` characterization -/

theorem endGo_eq {T : Type} (orig : Nat) :
    ∀ (k : Nat) (cs : List (Option (BNode T))),
      endPath.endGo orig k cs =
        match childAt cs k with
        | some c => orig :: endPath c
        | none => [] := by
  intro k
  induction k with
  | zero =>
    intro cs
    cases cs with
    | nil => rfl
    | cons c rest => cases c with
      | none => rfl
      | some m => rfl
  | succ j ih =>
    intro cs
    cases cs with
    | nil => rfl
    | cons c rest =>
      show endPath.endGo orig j rest = _
      rw [ih rest]
      rfl

theorem endPath_step {T : Type} (vs : List T) (cs : List (Option (BNode T))) :
    endPath (BNode.mk vs cs) =
      match childAt cs vs.length with
      | some c => vs.length :: endPath c
      | none => [] := by
  show endPath.endGo vs.length vs.length cs = _
  rw [endGo_eq]

theorem childAt_some_get? {T : Type} {cs : List (Option (BNode T))} {i : Nat} {c : BNode T}
    (hc : childAt cs i = some c) : cs.get? i = some (some c) := by
  unfold childAt at hc
  cases hg : cs.get? i with
  | none => rw [hg] at hc; cases hc
  | some co =>
    rw [hg] at hc
    cases co with
    | none => cases hc
    | some c2 =>
      have hc2 : some c2 = some c := hc
      rw [Option.some.inj hc2]

theorem endPath_bottom {T : Type} :
    ∀ n : BNode T, ∃ m : BNode T, nodeAt (endPath n) n = some m ∧
      childAt m.children (m.val.length) = none := by
  refine bnode_ind ?_
  intro vs cs ih
  rw [endPath_step]
  cases hc : childAt cs vs.length with
  | none =>
    exact ⟨.mk vs cs, nodeAt_nil _, by simpa [BNode.children, BNode.val] using hc⟩
  | some c =>
    have hmem : some c ∈ cs := List.get?_mem (childAt_some_get? hc)
    obtain ⟨m, hm1, hm2⟩ := ih (some c) hmem c rfl
    exact ⟨m, by rw [nodeAt_cons_some hc]; exact hm1, hm2⟩

theorem prefix_endPath {T : Type} :
    ∀ (p : List Nat) (root n : BNode T) (r : List Nat),
      nodeAt p root = some n → endPath root = p ++ r → r = endPath n := by
  intro p
  induction p with
  | nil =>
    intro root n r hn he
    rw [nodeAt_nil] at hn
    cases hn
    simpa using he.symm
  | cons i p2 ih =>
    intro root n r hn he
    cases root with
    | mk vs cs =>
      rw [endPath_step] at he
      cases hc : childAt cs vs.length with
      | none => rw [hc] at he; cases he
      | some c =>
        rw [hc] at he
        have hhead : vs.length = i ∧ endPath c = p2 ++ r := by
          constructor
          · exact (List.cons.injEq _ _ _ _).mp he |>.1
          · exact (List.cons.injEq _ _ _ _).mp he |>.2
        obtain ⟨hi, he2⟩ := hhead
        subst hi
        rw [nodeAt_cons_some hc] at hn
        exact ih c n r hn he2

/-! ### Paths, subtrees, well-formedness along a path -/

theorem nodeAt_append {T : Type} :
    ∀ (p q : List Nat) (root : BNode T),
      nodeAt (p ++ q) root = (nodeAt p root).bind (fun n => nodeAt q n) := by
  intro p
  induction p with
  | nil => intro q root; rfl
  | cons i p2 ih =>
    intro q root
    cases root with
    | mk vs cs =>
      cases hc : childAt cs i with
      | none =>
        show (match childAt cs i with
          | some c => nodeAt (p2 ++ q) c | none => none) =
          (match childAt cs i with
            | some c => nodeAt p2 c | none => none).bind fun n => nodeAt q n
        rw [hc]
        rfl
      | some c =>
        rw [List.cons_append, nodeAt_cons_some hc, nodeAt_cons_some hc, ih]

theorem elemAt_of_nodeAt {T : Type} {root n : BNode T} {p : List Nat}
    (h : nodeAt p root = some n) (i : Nat) : elemAt root p i = n.val.get? i := by
  unfold elemAt
  rw [h]
  rfl

theorem wf_nodeAt {T : Type} [LinearOrder T] {cap : Nat} :
    ∀ (p : List Nat) (root n : BNode T) (lo hi : Option T) (b : Bool),
      WF cap lo hi b root → nodeAt p root = some n →
      ∃ lo2 hi2, WF cap lo2 hi2 (if p = [] then b else false) n := by
  intro p
  induction p with
  | nil =>
    intro root n lo hi b hw hn
    rw [nodeAt_nil] at hn
    cases hn
    exact ⟨lo, hi, by simpa using hw⟩
  | cons i p2 ih =>
    intro root n lo hi b hw hn
    cases root with
    | mk vs cs =>
      cases hc : childAt cs i with
      | none => rw [show nodeAt (i :: p2) (BNode.mk vs cs)
            = (match childAt cs i with | some c => nodeAt p2 c | none => none) from rfl,
          hc] at hn; cases hn
      | some c =>
        rw [nodeAt_cons_some hc] at hn
        have hg : cs.get? i = some (some c) := childAt_some_get? hc
        obtain ⟨-, -, -, -, hgo⟩ := wf_destruct hw
        have hile := (wf_full_of_child hw hg).2
        have hcwf := wfgo_child i hg hile hgo
        obtain ⟨lo2, hi2, hwc⟩ := ih c n _ _ false hcwf hn
        refine ⟨lo2, hi2, ?_⟩
        rw [if_neg (by simp)]
        simpa using hwc


/-! ### `posList` shape and alignment with `inorder` -/

theorem pgo_nil {T : Type} (vs : List T) (p : List Nat) (i : Nat) :
    posList.posGo vs ([] : List (Option (BNode T))) p i
      = (List.range vs.length).map fun k => (p, i + k) := rfl

theorem pgo_cons_nil {T : Type} (c : Option (BNode T)) (rest : List (Option (BNode T)))
    (p : List Nat) (i : Nat) :
    posList.posGo ([] : List T) (c :: rest) p i = optPosList c (p ++ [i]) := by
  cases c with
  | none => rfl
  | some m => show posList m (p ++ [i]) ++ [] = _; simp [optPosList]

theorem pgo_cons_cons {T : Type} (c : Option (BNode T)) (rest : List (Option (BNode T)))
    (v : T) (vs2 : List T) (p : List Nat) (i : Nat) :
    posList.posGo (v :: vs2) (c :: rest) p i
      = optPosList c (p ++ [i]) ++ (p, i) :: posList.posGo vs2 rest p (i + 1) := by
  cases c with
  | none => rfl
  | some m => rfl

theorem igo_length_ge {T : Type} :
    ∀ (cs : List (Option (BNode T))) (vs : List T),
      vs.length ≤ (inorder.inorderGo vs cs).length := by
  intro cs
  induction cs with
  | nil => intro vs; simp [igo_nil]
  | cons c rest ih =>
    intro vs
    cases vs with
    | nil => simp
    | cons v vs2 =>
      rw [igo_cons_cons_opt]
      simp only [List.length_append, List.length_cons]
      have := ih vs2
      omega

theorem inorder_ne_nil_of_val {T : Type} {vs : List T} {cs : List (Option (BNode T))}
    (h : vs ≠ []) : inorder (BNode.mk vs cs) ≠ [] := by
  intro habs
  have h1 : inorder (BNode.mk vs cs) = inorder.inorderGo vs cs := rfl
  rw [h1] at habs
  have := igo_length_ge cs vs
  rw [habs] at this
  simp only [List.length_nil, Nat.le_zero, List.length_eq_zero] at this
  exact h this

/-- Element-by-element alignment of `posList` with `inorder`: the iterator
position list of a subtree reads back exactly its in-order contents. -/
theorem align_go {T : Type} {root : BNode T} :
    ∀ (cs : List (Option (BNode T))) (vs : List T) (i : Nat) (p : List Nat)
      (vsfull : List T) (csfull : List (Option (BNode T))),
      nodeAt p root = some (.mk vsfull csfull) →
      (∀ k, vs.get? k = vsfull.get? (i + k)) →
      (∀ j co, cs.get? j = some co → csfull.get? (i + j) = some co) →
      (∀ c ∈ cs, ∀ m, c = some m → ∀ p2, nodeAt p2 root = some m →
        (posList m p2).map (fun q => elemAt root q.1 q.2) = (inorder m).map some) →
      (posList.posGo vs cs p i).map (fun q => elemAt root q.1 q.2)
        = (inorder.inorderGo vs cs).map some := by
  intro cs
  induction cs with
  | nil =>
    intro vs i p vsfull csfull hnode hvs _ _
    rw [pgo_nil, igo_nil, List.map_map]
    apply List.ext_get?
    intro k
    rw [List.get?_map, List.get?_map]
    by_cases hk : k < vs.length
    · rw [List.get?_range hk]
      have hg := hvs k
      cases hgk : vs.get? k with
      | none =>
        have := List.get?_eq_none.mp hgk
        omega
      | some x =>
        rw [hgk] at hg
        show some (elemAt root p (i + k)) = Option.map some (some x)
        rw [elemAt_of_nodeAt hnode]
        show some (vsfull.get? (i + k)) = Option.map some (some x)
        rw [← hg]
        rfl
    · rw [List.get?_eq_none.mpr (by rw [List.length_range]; omega),
        List.get?_eq_none.mpr (by omega)]
      rfl
  | cons c rest ih =>
    intro vs i p vsfull csfull hnode hvs hcs hch
    have hchrest : ∀ c2 ∈ rest, ∀ m, c2 = some m → ∀ p2, nodeAt p2 root = some m →
        (posList m p2).map (fun q => elemAt root q.1 q.2) = (inorder m).map some :=
      fun c2 h2 => hch c2 (by simp [h2])
    have hcsrest : ∀ j co, rest.get? j = some co → csfull.get? ((i + 1) + j) = some co := by
      intro j co hg
      have := hcs (j + 1) co (by simpa using hg)
      rw [show i + (j + 1) = (i + 1) + j by omega] at this
      exact this
    have hoptc : (optPosList c (p ++ [i])).map (fun q => elemAt root q.1 q.2)
        = (optInorder c).map some := by
      cases c with
      | none => rfl
      | some m =>
        have hg0 : csfull.get? (i + 0) = some (some m) := hcs 0 (some m) rfl
        rw [show i + 0 = i from rfl] at hg0
        have hnodem : nodeAt (p ++ [i]) root = some m := by
          rw [nodeAt_append, hnode]
          show nodeAt [i] (BNode.mk vsfull csfull) = some m
          rw [show nodeAt [i] (BNode.mk vsfull csfull)
            = (match childAt csfull i with
               | some c2 => nodeAt ([] : List Nat) c2 | none => none) from rfl]
          rw [childAt_of_get? hg0]
          rfl
        exact hch (some m) (by simp) m rfl (p ++ [i]) hnodem
    cases vs with
    | nil =>
      rw [pgo_cons_nil, igo_cons_nil_opt]
      exact hoptc
    | cons v vs2 =>
      rw [pgo_cons_cons, igo_cons_cons_opt]
      rw [List.map_append, List.map_append, hoptc]
      congr 1
      rw [List.map_cons, List.map_cons]
      congr 1
      · rw [elemAt_of_nodeAt hnode]
        show vsfull.get? (i + 0) = some v
        have := hvs 0
        rw [show i + 0 = i + 0 from rfl, ← this]
        rfl
      · refine ih vs2 (i + 1) p vsfull csfull hnode ?_ hcsrest hchrest
        intro k
        have := hvs (k + 1)
        rw [show i + (k + 1) = (i + 1) + k by omega] at this
        simpa using this

theorem posList_align {T : Type} {root : BNode T} :
    ∀ (n : BNode T) (p : List Nat), nodeAt p root = some n →
      (posList n p).map (fun q => elemAt root q.1 q.2) = (inorder n).map some := by
  refine bnode_ind ?_
  intro vs cs ih p hnode
  show (posList.posGo vs cs p 0).map _ = (inorder.inorderGo vs cs).map some
  exact align_go cs vs 0 p vs cs hnode (fun k => by simp) (fun j co h => by simpa using h)
    (fun c hc m hm p2 hn2 => ih c hc m hm p2 hn2)

theorem posList_length {T : Type} {root : BNode T} {n : BNode T} {p : List Nat}
    (hnode : nodeAt p root = some n) :
    (posList n p).length = (inorder n).length := by
  have := congrArg List.length (posList_align n p hnode)
  simpa using this

/-! ### Head and last of `posList` -/

theorem posList_ne_nil {T : Type} {root n : BNode T} {p : List Nat}
    (hnode : nodeAt p root = some n) (hne : inorder n ≠ []) : posList n p ≠ [] := by
  intro habs
  have := posList_length hnode
  rw [habs] at this
  simp only [List.length_nil] at this
  exact hne (List.length_eq_zero.mp this.symm)

theorem childAt_cons_succ {T : Type} (c : Option (BNode T)) (rest : List (Option (BNode T)))
    (k : Nat) : childAt (c :: rest) (k + 1) = childAt rest k := by
  simp [childAt]

theorem childAt_cons_zero {T : Type} (c : Option (BNode T)) (rest : List (Option (BNode T))) :
    childAt (c :: rest) 0 = c := by
  cases c <;> rfl

theorem range_map_getLast? {A : Type} (f : Nat → A) :
    ∀ (len : Nat), 0 < len → ((List.range len).map f).getLast? = some (f (len - 1)) := by
  intro len hlen
  cases len with
  | zero => omega
  | succ k =>
    rw [List.range_succ, List.map_append]
    rw [List.getLast?_append_of_ne_nil _ (by simp)]
    simp

theorem range_map_head? {A : Type} (f : Nat → A) :
    ∀ (len : Nat), 0 < len → ((List.range len).map f).head? = some (f 0) := by
  intro len hlen
  cases len with
  | zero => omega
  | succ k =>
    rw [List.range_eq_range', List.range'_succ]
    simp

/-- Last element of the position walk: the subtree's rightmost child chain, or
the node's own last element when there is no last child. -/
theorem pgo_last_char {T : Type} :
    ∀ (cs : List (Option (BNode T))) (vs : List T) (p : List Nat) (i : Nat),
      (∀ j m, cs.get? j = some (some m) → posList m (p ++ [i + j]) ≠ []) →
      (posList.posGo vs cs p i).getLast? =
        match childAt cs vs.length with
        | some c => (posList c (p ++ [i + vs.length])).getLast?
        | none => match vs with | [] => none | _ :: _ => some (p, i + vs.length - 1) := by
  intro cs
  induction cs with
  | nil =>
    intro vs p i _
    rw [pgo_nil]
    show ((List.range vs.length).map fun k => (p, i + k)).getLast? =
      match vs with | [] => none | _ :: _ => some (p, i + vs.length - 1)
    cases vs with
    | nil => rfl
    | cons v vs2 =>
      rw [range_map_getLast? _ _ (by simp)]
      have harith : i + ((v :: vs2).length - 1) = i + (v :: vs2).length - 1 := by
        simp only [List.length_cons]; omega
      rw [harith]
  | cons c rest ih =>
    intro vs p i hkid
    cases vs with
    | nil =>
      rw [pgo_cons_nil]
      rw [show childAt (c :: rest) ([] : List T).length = c from childAt_cons_zero c rest]
      cases c with
      | none => rfl
      | some m =>
        show (posList m (p ++ [i])).getLast? = (posList m (p ++ [i + 0])).getLast?
        rw [show i + 0 = i from rfl]
    | cons v vs2 =>
      rw [pgo_cons_cons]
      rw [List.getLast?_append_of_ne_nil _ (by simp)]
      have hkid2 : ∀ j m, rest.get? j = some (some m) → posList m (p ++ [(i + 1) + j]) ≠ [] := by
        intro j m hg
        have := hkid (j + 1) m (by simpa using hg)
        rw [show i + (j + 1) = (i + 1) + j by omega] at this
        exact this
      have hIH := ih vs2 p (i + 1) hkid2
      rw [show childAt (c :: rest) (v :: vs2).length = childAt rest vs2.length by
        simp only [List.length_cons]; exact childAt_cons_succ c rest vs2.length]
      cases hc2 : childAt rest vs2.length with
      | some c2 =>
        rw [hc2] at hIH
        have hne : posList.posGo vs2 rest p (i + 1) ≠ [] := by
          intro habs
          rw [habs] at hIH
          have h0 : (posList c2 (p ++ [i + 1 + vs2.length])).getLast? = none := hIH.symm
          have h1 : posList c2 (p ++ [i + 1 + vs2.length]) = [] :=
            List.getLast?_eq_none_iff.mp h0
          have hne2 := hkid (vs2.length + 1) c2 (by simpa using childAt_some_get? hc2)
          rw [show i + (vs2.length + 1) = i + 1 + vs2.length by omega] at hne2
          exact hne2 h1
        cases hz : posList.posGo vs2 rest p (i + 1) with
        | nil => exact absurd hz hne
        | cons z zs =>
          rw [List.getLast?_cons_cons, ← hz, hIH]
          show (posList c2 (p ++ [i + 1 + vs2.length])).getLast?
            = (posList c2 (p ++ [i + (vs2.length + 1)])).getLast?
          rw [show i + 1 + vs2.length = i + (vs2.length + 1) by omega]
      | none =>
        rw [hc2] at hIH
        cases vs2 with
        | nil =>
          have hz : posList.posGo ([] : List T) rest p (i + 1) = [] :=
            List.getLast?_eq_none_iff.mp hIH
          rw [hz]
          rfl
        | cons w vs3 =>
          have hz : posList.posGo (w :: vs3) rest p (i + 1) ≠ [] := by
            intro habs
            rw [habs] at hIH
            cases hIH
          cases hzz : posList.posGo (w :: vs3) rest p (i + 1) with
          | nil => exact absurd hzz hz
          | cons z zs =>
            rw [List.getLast?_cons_cons, ← hzz, hIH]
            simp only [List.length_cons]
            congr 2
            omega

theorem igo_last_char {T : Type} :
    ∀ (cs : List (Option (BNode T))) (vs : List T),
      (∀ j m, cs.get? j = some (some m) → inorder m ≠ []) →
      (inorder.inorderGo vs cs).getLast? =
        match childAt cs vs.length with
        | some c => (inorder c).getLast?
        | none => vs.getLast? := by
  intro cs
  induction cs with
  | nil =>
    intro vs _
    rw [igo_nil]
    rfl
  | cons c rest ih =>
    intro vs hkid
    cases vs with
    | nil =>
      rw [igo_cons_nil_opt]
      rw [show childAt (c :: rest) ([] : List T).length = c from childAt_cons_zero c rest]
      cases c with
      | none => rfl
      | some m => rfl
    | cons v vs2 =>
      rw [igo_cons_cons_opt]
      rw [List.getLast?_append_of_ne_nil _ (by simp)]
      have hkid2 : ∀ j m, rest.get? j = some (some m) → inorder m ≠ [] := by
        intro j m hg
        exact hkid (j + 1) m (by simpa using hg)
      have hIH := ih vs2 hkid2
      rw [show childAt (c :: rest) (v :: vs2).length = childAt rest vs2.length by
        simp only [List.length_cons]; exact childAt_cons_succ c rest vs2.length]
      cases hc2 : childAt rest vs2.length with
      | some c2 =>
        rw [hc2] at hIH
        have hne : inorder.inorderGo vs2 rest ≠ [] := by
          intro habs
          rw [habs] at hIH
          have h1 : inorder c2 = [] := List.getLast?_eq_none_iff.mp hIH.symm
          exact hkid2 vs2.length c2 (childAt_some_get? hc2) h1
        cases hz : inorder.inorderGo vs2 rest with
        | nil => exact absurd hz hne
        | cons z zs => rw [List.getLast?_cons_cons, ← hz, hIH]
      | none =>
        rw [hc2] at hIH
        cases vs2 with
        | nil =>
          have hz : inorder.inorderGo ([] : List T) rest = [] :=
            List.getLast?_eq_none_iff.mp hIH
          rw [hz]
        | cons w vs3 =>
          have hz : inorder.inorderGo (w :: vs3) rest ≠ [] := by
            intro habs
            rw [habs] at hIH
            have : (w :: vs3).getLast? = none := hIH.symm
            rw [List.getLast?_eq_none_iff] at this
            cases this
          cases hzz : inorder.inorderGo (w :: vs3) rest with
          | nil => exact absurd hzz hz
          | cons z zs =>
            rw [List.getLast?_cons_cons, ← hzz, hIH]
            rfl

/-! ### Well-formedness: buffers along paths -/

theorem wf_val_ne_nil {T : Type} [LinearOrder T] {cap : Nat} {lo hi : Option T}
    {n : BNode T} (hw : WF cap lo hi false n) : n.val ≠ [] := by
  cases n with
  | mk vs cs =>
    obtain ⟨-, -, h3, -, -⟩ := wf_destruct hw
    exact h3 rfl

theorem wf_vs_ne_nil_of_inorder {T : Type} [LinearOrder T] {cap : Nat} (hcap : 1 ≤ cap)
    {lo hi : Option T} {b : Bool} {vs : List T} {cs : List (Option (BNode T))}
    (hw : WF cap lo hi b (.mk vs cs)) (hne : inorder (BNode.mk vs cs) ≠ []) : vs ≠ [] := by
  intro habs
  subst habs
  obtain ⟨-, -, -, hfill, -⟩ := wf_destruct hw
  have hall : allNone cs := hfill (by simp only [List.length_nil]; omega)
  have : inorder (BNode.mk ([] : List T) cs) = [] := by
    have hrw : inorder (BNode.mk ([] : List T) cs) = inorder.inorderGo [] cs := rfl
    rw [hrw, inorderGo_allNone hall]
  exact hne this

theorem wf_child_inorder_ne_nil {T : Type} [LinearOrder T] {cap : Nat} {lo hi : Option T}
    {b : Bool} {vs : List T} {cs : List (Option (BNode T))} {j : Nat} {m : BNode T}
    (hw : WF cap lo hi b (.mk vs cs)) (hg : cs.get? j = some (some m)) : inorder m ≠ [] := by
  obtain ⟨-, -, -, -, hgo⟩ := wf_destruct hw
  have hcwf := wfgo_child j hg (wf_full_of_child hw hg).2 hgo
  have hvne := wf_val_ne_nil hcwf
  cases m with
  | mk vs2 cs2 => exact inorder_ne_nil_of_val (by simpa [BNode.val] using hvne)

/-- The last position of a subtree's walk is at the bottom of its `endPath`,
one before that node's buffer length. -/
theorem posList_last {T : Type} [LinearOrder T] {cap : Nat} {root : BNode T} (hcap : 1 ≤ cap) :
    ∀ (n : BNode T) (p : List Nat) (lo hi : Option T) (b : Bool),
      WF cap lo hi b n → nodeAt p root = some n → inorder n ≠ [] →
      (posList n p).getLast? = some (p ++ endPath n, lenAt n (endPath n) - 1) := by
  refine bnode_ind ?_
  intro vs cs ih p lo hi b hw hnode hne
  have hvs : vs ≠ [] := wf_vs_ne_nil_of_inorder hcap hw hne
  have hkid : ∀ j m, cs.get? j = some (some m) → posList m (p ++ [0 + j]) ≠ [] := by
    intro j m hg
    have hmne : inorder m ≠ [] := wf_child_inorder_ne_nil hw hg
    have hnodem : nodeAt (p ++ [0 + j]) root = some m := by
      rw [show (0 : Nat) + j = j by omega]
      rw [nodeAt_append, hnode]
      show nodeAt [j] (BNode.mk vs cs) = some m
      rw [show nodeAt [j] (BNode.mk vs cs)
        = (match childAt cs j with
           | some c2 => nodeAt ([] : List Nat) c2 | none => none) from rfl]
      rw [childAt_of_get? hg]
      rfl
    exact posList_ne_nil hnodem hmne
  show (posList.posGo vs cs p 0).getLast? = _
  rw [pgo_last_char cs vs p 0 hkid, endPath_step]
  cases hc : childAt cs vs.length with
  | none =>
    cases vs with
    | nil => exact absurd rfl hvs
    | cons v vs2 =>
      show some (p, 0 + (v :: vs2).length - 1)
        = some (p ++ [], lenAt (BNode.mk (v :: vs2) cs) [] - 1)
      have h1 : lenAt (BNode.mk (v :: vs2) cs) [] = (v :: vs2).length := rfl
      rw [List.append_nil, h1, Nat.zero_add]
  | some c =>
    have hg := childAt_some_get? hc
    obtain ⟨-, -, -, -, hgo⟩ := wf_destruct hw
    have hcwf := wfgo_child vs.length hg (wf_full_of_child hw hg).2 hgo
    have hmne : inorder c ≠ [] := wf_child_inorder_ne_nil hw hg
    have hnodec : nodeAt (p ++ [vs.length]) root = some c := by
      rw [nodeAt_append, hnode]
      show nodeAt [vs.length] (BNode.mk vs cs) = some c
      rw [show nodeAt [vs.length] (BNode.mk vs cs)
        = (match childAt cs vs.length with
           | some c2 => nodeAt ([] : List Nat) c2 | none => none) from rfl]
      rw [hc]
      rfl
    have hIH := ih (some c) (List.get?_mem hg) c rfl (p ++ [vs.length]) _ _ false hcwf
      hnodec hmne
    have hlen : lenAt (BNode.mk vs cs) (vs.length :: endPath c) = lenAt c (endPath c) := by
      unfold lenAt
      rw [nodeAt_cons_some hc]
    show (posList c (p ++ [0 + vs.length])).getLast?
      = some (p ++ vs.length :: endPath c, lenAt (BNode.mk vs cs) (vs.length :: endPath c) - 1)
    rw [Nat.zero_add, hIH, hlen, List.append_assoc]
    rfl

/-- The first position of a subtree's walk is at the bottom of its leftmost
descent, index 0. -/
theorem posList_head {T : Type} [LinearOrder T] {cap : Nat} {root : BNode T} (hcap : 1 ≤ cap) :
    ∀ (n : BNode T) (p : List Nat) (lo hi : Option T) (b : Bool),
      WF cap lo hi b n → nodeAt p root = some n → inorder n ≠ [] →
      (posList n p).head? = some (p ++ descendLeft n, 0) := by
  refine bnode_ind ?_
  intro vs cs ih p lo hi b hw hnode hne
  have hvs : vs ≠ [] := wf_vs_ne_nil_of_inorder hcap hw hne
  cases vs with
  | nil => exact absurd rfl hvs
  | cons v vs2 =>
    cases cs with
    | nil =>
      show ((List.range (v :: vs2).length).map fun k => (p, 0 + k)).head?
        = some (p ++ descendLeft (BNode.mk (v :: vs2) []), 0)
      rw [range_map_head? _ _ (by simp)]
      rw [show descendLeft (BNode.mk (v :: vs2) ([] : List (Option (BNode T)))) = [] from rfl,
        List.append_nil]
    | cons c rest =>
      cases c with
      | none =>
        show (posList.posGo (v :: vs2) (none :: rest) p 0).head?
          = some (p ++ descendLeft (BNode.mk (v :: vs2) (none :: rest)), 0)
        rw [pgo_cons_cons]
        show some (p, 0) = some (p ++ [], 0)
        rw [List.append_nil]
      | some c =>
        have hg : (some c :: rest).get? 0 = some (some c) := rfl
        obtain ⟨-, -, -, -, hgo⟩ := wf_destruct hw
        have hcwf := wfgo_child 0 hg (by simp) hgo
        have hmne : inorder c ≠ [] := wf_child_inorder_ne_nil hw hg
        have hnodec : nodeAt (p ++ [0]) root = some c := by
          rw [nodeAt_append, hnode]
          rfl
        have hcne : posList c (p ++ [0]) ≠ [] := posList_ne_nil hnodec hmne
        show (posList.posGo (v :: vs2) (some c :: rest) p 0).head?
          = some (p ++ descendLeft (BNode.mk (v :: vs2) (some c :: rest)), 0)
        rw [pgo_cons_cons]
        rw [List.head?_append_of_ne_nil _ (by simpa [optPosList] using hcne)]
        have hIH := ih (some c) (by simp) c rfl (p ++ [0]) _ _ false hcwf hnodec hmne
        show (posList c (p ++ [0])).head? = some (p ++ 0 :: descendLeft c, 0)
        rw [hIH, List.append_assoc]
        rfl

/-- The element at the last walk position is the subtree's in-order maximum. -/
theorem elemAt_last {T : Type} [LinearOrder T] {cap : Nat} {root : BNode T} (hcap : 1 ≤ cap)
    {n : BNode T} {p : List Nat} {lo hi : Option T} {b : Bool}
    (hw : WF cap lo hi b n) (hnode : nodeAt p root = some n) (hne : inorder n ≠ []) :
    elemAt root (p ++ endPath n) (lenAt n (endPath n) - 1) = (inorder n).getLast? := by
  have halign := posList_align n p hnode
  have hlast := posList_last hcap n p lo hi b hw hnode hne
  have h1 := congrArg List.getLast? halign
  rw [List.getLast?_map, List.getLast?_map, hlast] at h1
  cases hgl : (inorder n).getLast? with
  | none => exact absurd (List.getLast?_eq_none_iff.mp hgl) hne
  | some x =>
    rw [hgl] at h1
    simpa using h1

theorem iterPtr_some {T : Type} {root n : BNode T} {pa : List Nat} (ia : Nat)
    (hnode : nodeAt pa root = some n) (hvne : n.val ≠ []) :
    iterPtr root (pa, ia) = some (pa, ia) := by
  unfold iterPtr
  rw [hnode]
  simp [List.isEmpty_iff, hvne]

theorem endNode_facts {T : Type} [LinearOrder T] {cap : Nat} (hcap : 1 ≤ cap)
    {root : BNode T} {lo hi : Option T} (hw : WF cap lo hi true root)
    (hne : inorder root ≠ []) :
    ∃ m : BNode T, nodeAt (endPath root) root = some m ∧ m.val ≠ [] ∧
      childAt m.children m.val.length = none ∧ lenAt root (endPath root) = m.val.length := by
  obtain ⟨m, hm1, hm2⟩ := endPath_bottom root
  refine ⟨m, hm1, ?_, hm2, ?_⟩
  · by_cases hp : endPath root = []
    · rw [hp, nodeAt_nil] at hm1
      have hmr : m = root := (Option.some.inj hm1).symm
      subst hmr
      cases m with
      | mk vs cs =>
        exact fun habs => (wf_vs_ne_nil_of_inorder hcap hw hne) (by simpa [BNode.val] using habs)
    · obtain ⟨lo2, hi2, hwm⟩ := wf_nodeAt (endPath root) root m lo hi true hw hm1
      rw [if_neg hp] at hwm
      exact wf_val_ne_nil hwm
  · unfold lenAt
    rw [hm1]

theorem guard_end_false {T : Type} [LinearOrder T] {cap : Nat} (hcap : 1 ≤ cap)
    {root : BNode T} {lo hi : Option T} (hw : WF cap lo hi true root)
    (hne : inorder root ≠ []) {pa : List Nat} (ia : Nat) {na : BNode T}
    (hna : nodeAt pa root = some na) (hvne : na.val ≠ [])
    (hpa : pa ≠ endPath root) :
    iterPtrEq root (pa, ia) (endPos root) = false := by
  obtain ⟨m, hm1, hm2, -, -⟩ := endNode_facts hcap hw hne
  unfold iterPtrEq
  rw [iterPtr_some ia hna hvne]
  unfold endPos
  rw [iterPtr_some _ hm1 hm2]
  simp only [beq_eq_false_iff_ne, ne_eq, Option.some.injEq, Prod.mk.injEq, not_and]
  intro h
  exact absurd h hpa

theorem guard_end_true {T : Type} [LinearOrder T] {cap : Nat} (hcap : 1 ≤ cap)
    {root : BNode T} {lo hi : Option T} (hw : WF cap lo hi true root)
    (hne : inorder root ≠ []) :
    iterPtrEq root (endPath root, lenAt root (endPath root)) (endPos root) = true := by
  obtain ⟨m, hm1, hm2, -, -⟩ := endNode_facts hcap hw hne
  unfold iterPtrEq endPos
  rw [iterPtr_some _ hm1 hm2]
  simp

theorem ascendEnd_cons {T : Type} [LinearOrder T] (root : BNode T) (temp : T) (i : Nat)
    (rp2 : List Nat) :
    ascendEnd root temp (i :: rp2) =
      if iterPtrEq root ((i :: rp2).reverse, lenAt root ((i :: rp2).reverse)) (endPos root) then
        some ((i :: rp2).reverse, lenAt root ((i :: rp2).reverse))
      else
        match nodeAt rp2.reverse root with
        | none => none
        | some n2 =>
          if lowerBound n2.val temp < n2.val.length then some (rp2.reverse, lowerBound n2.val temp)
          else ascendEnd root temp rp2 := rfl

theorem lt_all_of_sorted_last {T : Type} [LinearOrder T] {vs : List T} {j0 : Nat} {w temp : T}
    (hs : List.Sorted (· < ·) vs) (hg : vs.get? j0 = some w) (hwt : w < temp) :
    ∀ k x, k ≤ j0 → vs.get? k = some x → x < temp := by
  intro k x hk hgk
  rcases eq_or_lt_of_le hk with hkeq | hklt
  · subst hkeq
    rw [hgk] at hg
    cases hg
    exact hwt
  · exact lt_trans (sorted_get?_lt hs hgk hg hklt) hwt

/-- Ascending out of a subtree along its rightmost spine: the loop pops every
spine node (the element being sought is above all their buffers) and resumes
at the subtree's own path. -/
theorem ascend_spine {T : Type} [LinearOrder T] {cap : Nat} (hcap : 1 ≤ cap)
    {root : BNode T} {lo hi : Option T} (hwroot : WF cap lo hi true root)
    (hneroot : inorder root ≠ []) :
    ∀ (c : BNode T) (pc : List Nat) (lo2 hi2 : Option T),
      WF cap lo2 hi2 false c → nodeAt pc root = some c →
      ∀ temp, (inorder c).getLast? = some temp →
      (∀ k, pc ++ (endPath c).take k ≠ endPath root) →
      ascendEnd root temp ((pc ++ endPath c).reverse) = ascendEnd root temp pc.reverse := by
  refine bnode_ind ?_
  intro vs cs ih pc lo2 hi2 hwc hnode temp htemp hnotend
  have hstep : endPath (BNode.mk vs cs) =
      match childAt cs vs.length with
      | some c => vs.length :: endPath c
      | none => [] := endPath_step vs cs
  cases hc : childAt cs vs.length with
  | none =>
    rw [hc] at hstep
    rw [hstep, List.append_nil]
  | some clast =>
    rw [hc] at hstep
    rw [hstep]
    have hg := childAt_some_get? hc
    obtain ⟨hcslen, hvslen, hroot3, hfill, hgo⟩ := wf_destruct hwc
    have hvs : vs ≠ [] := hroot3 rfl
    have hclwf := wfgo_child vs.length hg (wf_full_of_child hwc hg).2 hgo
    have hnodecl : nodeAt (pc ++ [vs.length]) root = some clast := by
      rw [nodeAt_append, hnode]
      show nodeAt [vs.length] (BNode.mk vs cs) = some clast
      rw [show nodeAt [vs.length] (BNode.mk vs cs)
        = (match childAt cs vs.length with
           | some c2 => nodeAt ([] : List Nat) c2 | none => none) from rfl, hc]
      rfl
    have htempcl : (inorder clast).getLast? = some temp := by
      have hchar := igo_last_char cs vs (fun j m hgm => wf_child_inorder_ne_nil hwc hgm)
      rw [hc] at hchar
      have hrw : inorder (BNode.mk vs cs) = inorder.inorderGo vs cs := rfl
      rw [hrw, hchar] at htemp
      exact htemp
    have hnotend2 : ∀ k, (pc ++ [vs.length]) ++ (endPath clast).take k ≠ endPath root := by
      intro k
      have := hnotend (k + 1)
      rw [hstep] at this
      rw [show (vs.length :: endPath clast).take (k + 1)
        = vs.length :: (endPath clast).take k from rfl] at this
      intro habs
      exact this (by rw [← habs]; simp)
    have hIH := ih (some clast) (List.get?_mem hg) clast rfl (pc ++ [vs.length]) _ _
      hclwf hnodecl temp htempcl hnotend2
    rw [show pc ++ vs.length :: endPath clast = (pc ++ [vs.length]) ++ endPath clast by simp]
    rw [hIH]
    rw [show (pc ++ [vs.length]).reverse = vs.length :: pc.reverse by simp]
    rw [ascendEnd_cons]
    have hrevrev : (vs.length :: pc.reverse).reverse = pc ++ [vs.length] := by simp
    rw [hrevrev]
    have hguard : iterPtrEq root (pc ++ [vs.length], lenAt root (pc ++ [vs.length]))
        (endPos root) = false := by
      refine guard_end_false hcap hwroot hneroot _ hnodecl (wf_val_ne_nil hclwf) ?_
      have := hnotend 1
      rw [hstep] at this
      simpa using this
    rw [hguard]
    simp only [Bool.false_eq_true, if_false, List.reverse_reverse, hnode]
    have hmem : temp ∈ inorder clast := List.mem_of_getLast?_eq_some htempcl
    have hbd := inorder_bounds hclwf temp hmem
    have hsvs := wfgo_sorted hgo
    have hlb : lowerBound (BNode.mk vs cs).val temp = vs.length := by
      show lowerBound vs temp = vs.length
      cases hvslen2 : vs.length with
      | zero => exact absurd (List.length_eq_zero.mp hvslen2) hvs
      | succ j0 =>
        refine lowerBound_eq hsvs (by omega) ?_ ?_
        · intro k x hk hgk
          have hlo2 := hbd.1
          rw [show slotLo lo2 vs vs.length = vs.get? (vs.length - 1) by
            rw [hvslen2]; rfl] at hlo2
          have hj0 : j0 < vs.length := by omega
          have hgj0 := List.get?_eq_get hj0
          rw [show vs.length - 1 = j0 by omega, hgj0] at hlo2
          exact lt_all_of_sorted_last hsvs hgj0 hlo2 k x (by omega) hgk
        · intro x hgx
          rw [List.get?_eq_none.mpr (by omega)] at hgx
          cases hgx
    rw [hlb]
    rw [if_neg (by show ¬ vs.length < (BNode.mk vs cs).val.length; simp [BNode.val])]

theorem ascendEnd_nil {T : Type} [LinearOrder T] (root : BNode T) (temp : T) :
    ascendEnd root temp [] =
      if iterPtrEq root ([], lenAt root []) (endPos root) then
        some ([], lenAt root [])
      else none := rfl

theorem node_val_ne_nil_of_inorder {T : Type} [LinearOrder T] {cap : Nat} (hcap : 1 ≤ cap)
    {lo hi : Option T} {b : Bool} {n : BNode T}
    (hw : WF cap lo hi b n) (hne : inorder n ≠ []) : n.val ≠ [] := by
  cases n with
  | mk vs cs =>
    exact fun habs => (wf_vs_ne_nil_of_inorder hcap hw hne) (by simpa [BNode.val] using habs)

theorem lenAt_of_nodeAt {T : Type} {root m : BNode T} {p : List Nat}
    (h : nodeAt p root = some m) : lenAt root p = m.val.length := by
  unfold lenAt
  rw [h]

/-- The ascent started at the very last element of the tree terminates at the
first guard test: the iterator already equals `end()`. -/
theorem ascend_at_end {T : Type} [LinearOrder T] {cap : Nat} (hcap : 1 ≤ cap)
    {root : BNode T} {lo hi : Option T} (hw : WF cap lo hi true root)
    (hne : inorder root ≠ []) (temp : T) :
    ascendEnd root temp (endPath root).reverse = some (endPos root) := by
  have hg := guard_end_true hcap hw hne
  cases hrp : (endPath root).reverse with
  | nil =>
    have hep : endPath root = [] := by
      have := congrArg List.reverse hrp
      simpa using this
    rw [ascendEnd_nil]
    rw [hep] at hg
    rw [if_pos hg]
    unfold endPos
    rw [hep]
  | cons i rp2 =>
    rw [ascendEnd_cons]
    have hrr : (i :: rp2).reverse = endPath root := by
      have := congrArg List.reverse hrp
      simp only [List.reverse_reverse] at this
      rw [this]
    rw [hrr, if_pos hg]
    rfl

/-- Ascending out of a middle child `j` (not the node's last slot) stops at
the parent with index `j`. -/
theorem ascend_exit {T : Type} [LinearOrder T] {cap : Nat} (hcap : 1 ≤ cap)
    {root : BNode T} {lo hi : Option T} (hwroot : WF cap lo hi true root)
    (hneroot : inorder root ≠ []) (p : List Nat) (vs : List T)
    (cs : List (Option (BNode T))) (hnode : nodeAt p root = some (.mk vs cs))
    (j : Nat) (c : BNode T) (hc : childAt cs j = some c) (hj : j < vs.length)
    (temp : T) (htemp : (inorder c).getLast? = some temp) :
    ascendEnd root temp ((p ++ j :: endPath c).reverse) = some (p, j) := by
  have hg := childAt_some_get? hc
  obtain ⟨lo2, hi2, hwn⟩ := wf_nodeAt p root _ lo hi true hwroot hnode
  obtain ⟨hcslen, hvslen, -, hfill, hgo⟩ := wf_destruct hwn
  have hcwf := wfgo_child j hg (by omega) hgo
  have hnodec : nodeAt (p ++ [j]) root = some c := by
    rw [nodeAt_append, hnode]
    show nodeAt [j] (BNode.mk vs cs) = some c
    rw [show nodeAt [j] (BNode.mk vs cs)
      = (match childAt cs j with
         | some c2 => nodeAt ([] : List Nat) c2 | none => none) from rfl, hc]
    rfl
  have hnotend : ∀ k, (p ++ [j]) ++ (endPath c).take k ≠ endPath root := by
    intro k habs
    have hdec := prefix_endPath p root (.mk vs cs) ([j] ++ (endPath c).take k) hnode
      (by rw [← habs]; simp)
    rw [endPath_step] at hdec
    cases hc2 : childAt cs vs.length with
    | none => rw [hc2] at hdec; cases hdec
    | some c2 =>
      rw [hc2] at hdec
      have : j = vs.length := (List.cons.injEq _ _ _ _).mp hdec.symm |>.1.symm
      omega
  rw [show p ++ j :: endPath c = (p ++ [j]) ++ endPath c by simp]
  rw [ascend_spine hcap hwroot hneroot c (p ++ [j]) _ _ hcwf hnodec temp htemp hnotend]
  rw [show (p ++ [j]).reverse = j :: p.reverse by simp]
  rw [ascendEnd_cons]
  have hrevrev : (j :: p.reverse).reverse = p ++ [j] := by simp
  rw [hrevrev]
  have hguard : iterPtrEq root (p ++ [j], lenAt root (p ++ [j])) (endPos root) = false := by
    refine guard_end_false hcap hwroot hneroot _ hnodec (wf_val_ne_nil hcwf) ?_
    have := hnotend 0
    simpa using this
  rw [hguard]
  simp only [Bool.false_eq_true, if_false, List.reverse_reverse, hnode]
  have hmem : temp ∈ inorder c := List.mem_of_getLast?_eq_some htemp
  have hbd := inorder_bounds hcwf temp hmem
  have hsvs := wfgo_sorted hgo
  have hlb : lowerBound (BNode.mk vs cs).val temp = j := by
    show lowerBound vs temp = j
    refine lowerBound_eq hsvs (by omega) ?_ ?_
    · intro k x hk hgk
      cases hjc : j with
      | zero => omega
      | succ j0 =>
        have hlo2 := hbd.1
        rw [hjc] at hlo2
        have hj0 : j0 < vs.length := by omega
        have hgj0 := List.get?_eq_get hj0
        rw [show slotLo lo2 vs (j0 + 1) = vs.get? j0 from rfl, hgj0] at hlo2
        exact lt_all_of_sorted_last hsvs hgj0 hlo2 k x (by omega) hgk
    · intro x hgx
      have hhi2 := hbd.2
      unfold slotHi at hhi2
      rw [hgx] at hhi2
      exact hhi2.le
  rw [hlb]
  rw [if_pos (by show j < (BNode.mk vs cs).val.length; simpa [BNode.val] using hj)]

theorem incIter_descend {T : Type} [LinearOrder T] {root : BNode T} {pq : List Nat × Nat}
    {m c : BNode T} {temp : T} (hm : nodeAt pq.1 root = some m)
    (ht : m.val.get? pq.2 = some temp)
    (hch : m.children.get? (pq.2 + 1) = some (some c)) :
    incIter root pq = some (pq.1 ++ (pq.2 + 1) :: descendLeft c, 0) := by
  simp only [incIter, hm, ht, hch]

theorem incIter_within {T : Type} [LinearOrder T] {root : BNode T} {pq : List Nat × Nat}
    {m : BNode T} {temp : T} (hm : nodeAt pq.1 root = some m)
    (ht : m.val.get? pq.2 = some temp)
    (hch : m.children.get? (pq.2 + 1) = some none)
    (hlt : pq.2 + 1 < m.val.length) :
    incIter root pq = some (pq.1, pq.2 + 1) := by
  simp only [incIter, hm, ht, hch, if_pos hlt]

theorem incIter_ascend {T : Type} [LinearOrder T] {root : BNode T} {pq : List Nat × Nat}
    {m : BNode T} {temp : T} (hm : nodeAt pq.1 root = some m)
    (ht : m.val.get? pq.2 = some temp)
    (hch : m.children.get? (pq.2 + 1) = some none)
    (hge : ¬ pq.2 + 1 < m.val.length) :
    incIter root pq = ascendEnd root temp pq.1.reverse := by
  simp only [incIter, hm, ht, hch, if_neg hge]

/-- `operator++` at the last element of a subtree enters the ascent loop with
the subtree's maximum as `temp`. -/
theorem incIter_last {T : Type} [LinearOrder T] {cap : Nat} (hcap : 1 ≤ cap)
    {root n : BNode T} {p : List Nat} {lo hi : Option T} {b : Bool}
    (hw : WF cap lo hi b n) (hnode : nodeAt p root = some n) (hne : inorder n ≠ [])
    {temp : T} (htemp : (inorder n).getLast? = some temp) :
    incIter root (p ++ endPath n, lenAt n (endPath n) - 1)
      = ascendEnd root temp (p ++ endPath n).reverse := by
  obtain ⟨m, hm1, hm2⟩ := endPath_bottom n
  have hma : nodeAt (p ++ endPath n) root = some m := by
    rw [nodeAt_append, hnode]
    exact hm1
  have hlen : lenAt n (endPath n) = m.val.length := lenAt_of_nodeAt hm1
  have hmvne : m.val ≠ [] := by
    by_cases hp : endPath n = []
    · rw [hp, nodeAt_nil] at hm1
      have : m = n := (Option.some.inj hm1).symm
      subst this
      exact node_val_ne_nil_of_inorder hcap hw hne
    · obtain ⟨lo2, hi2, hwm⟩ := wf_nodeAt (endPath n) n m lo hi b hw hm1
      rw [if_neg hp] at hwm
      exact wf_val_ne_nil hwm
  have hmlen : 1 ≤ m.val.length := List.length_pos.mpr hmvne
  have ht : m.val.get? (lenAt n (endPath n) - 1) = some temp := by
    have := elemAt_last hcap hw hnode hne
    rw [htemp] at this
    rw [elemAt_of_nodeAt hma] at this
    exact this
  have hch : m.children.get? ((lenAt n (endPath n) - 1) + 1) = some none := by
    obtain ⟨lo2, hi2, hwm⟩ := wf_nodeAt (endPath n) n m lo hi b hw hm1
    cases m with
    | mk mvs mcs =>
      obtain ⟨hmcs, hmvs, -, -, -⟩ := wf_destruct hwm
      have hidx : (lenAt n (endPath n) - 1) + 1 = mvs.length := by
        rw [hlen]
        show mvs.length - 1 + 1 = mvs.length
        simp only [BNode.val] at hmlen
        omega
      have hlt : mvs.length < mcs.length := by
        omega
      have hgd := List.get?_eq_get hlt
      have hco : mcs.get (⟨mvs.length, hlt⟩ : Fin mcs.length) = none := by
        have := @childAt_of_get? _ mcs mvs.length (mcs.get (⟨mvs.length, hlt⟩ : Fin mcs.length)) hgd
        simp only [BNode.children, BNode.val] at hm2
        rw [this] at hm2
        exact hm2
      rw [hidx]
      show mcs.get? mvs.length = some none
      rw [hgd, hco]
  exact incIter_ascend hma ht hch (by omega)

/-- Internal successor steps: within the position walk of any node's suffix
starting at slot `i`, consecutive positions are related by `operator++`. -/
theorem chainA_go {T : Type} [LinearOrder T] {cap : Nat} (hcap : 1 ≤ cap)
    {root : BNode T} {lo hi : Option T} (hwroot : WF cap lo hi true root)
    (hneroot : inorder root ≠ []) :
    ∀ (cs : List (Option (BNode T))) (vs : List T) (i : Nat) (p : List Nat)
      (vsfull : List T) (csfull : List (Option (BNode T))),
      nodeAt p root = some (.mk vsfull csfull) →
      (∀ k, vs.get? k = vsfull.get? (i + k)) →
      (∀ j co, cs.get? j = some co → csfull.get? (i + j) = some co) →
      vsfull.length = i + vs.length →
      vs.length < cs.length →
      (∀ co ∈ csfull, ∀ m, co = some m → ∀ p2, nodeAt p2 root = some m →
        List.Chain' (fun a b => incIter root a = some b) (posList m p2)) →
      List.Chain' (fun a b => incIter root a = some b) (posList.posGo vs cs p i) := by
  intro cs
  induction cs with
  | nil =>
    intro vs i p vsfull csfull _ _ _ _ hlt _
    simp at hlt
  | cons c rest ih =>
    intro vs i p vsfull csfull hnode hvs hcs hlenfull hlt hch
    obtain ⟨lo2, hi2, hwn⟩ := wf_nodeAt p root _ lo hi true hwroot hnode
    obtain ⟨hcslenf, hvslenf, -, -, hgo⟩ := wf_destruct hwn
    have hchildfacts : ∀ j m, csfull.get? j = some (some m) →
        WF cap (slotLo lo2 vsfull j) (slotHi hi2 vsfull j) false m ∧
        nodeAt (p ++ [j]) root = some m ∧ inorder m ≠ [] := by
      intro j m hgj
      have hjle := (wf_full_of_child hwn hgj).2
      refine ⟨wfgo_child j hgj hjle hgo, ?_, wf_child_inorder_ne_nil hwn hgj⟩
      rw [nodeAt_append, hnode]
      show nodeAt [j] (BNode.mk vsfull csfull) = some m
      rw [show nodeAt [j] (BNode.mk vsfull csfull)
        = (match childAt csfull j with
           | some c2 => nodeAt ([] : List Nat) c2 | none => none) from rfl,
        childAt_of_get? hgj]
      rfl
    have hoptchain : ∀ m, c = some m →
        List.Chain' (fun a b => incIter root a = some b) (posList m (p ++ [i])) := by
      intro m hcm
      have hg0 : csfull.get? i = some (some m) := by
        have := hcs 0 (some m) (by simp [hcm])
        simpa using this
      exact hch (some m) (List.get?_mem hg0) m rfl (p ++ [i]) (hchildfacts i m hg0).2.1
    cases vs with
    | nil =>
      rw [pgo_cons_nil]
      cases c with
      | none => exact List.chain'_nil
      | some m => exact hoptchain m rfl
    | cons v vs2 =>
      rw [pgo_cons_cons]
      have helem : (BNode.mk vsfull csfull).val.get? i = some v := by
        have := hvs 0
        show vsfull.get? i = some v
        rw [show i = i + 0 by omega, ← this]
        rfl
      have hivs : i < vsfull.length := by
        simp only [List.length_cons] at hlenfull
        omega
      rw [List.chain'_append]
      refine ⟨?_, ?_, ?_⟩
      · cases c with
        | none => exact List.chain'_nil
        | some m => exact hoptchain m rfl
      · rw [List.chain'_cons']
        constructor
        · -- step from (p, i) to the head of the remaining walk
          intro y hy
          cases rest with
          | nil =>
            simp only [List.length_cons, List.length_nil] at hlt
            omega
          | cons c2 rest2 =>
            have hg1 : csfull.get? (i + 1) = some c2 := by
              have := hcs 1 c2 (by simp)
              simpa using this
            cases hc2m : c2 with
            | some m =>
              rw [hc2m] at hg1
              obtain ⟨hwm, hnodem, hnem⟩ := hchildfacts (i + 1) m hg1
              have hhd : (posList.posGo vs2 (c2 :: rest2) p (i + 1)).head?
                  = some (p ++ (i + 1) :: descendLeft m, 0) := by
                have hphead := posList_head hcap m (p ++ [i + 1]) _ _ false hwm hnodem hnem
                cases vs2 with
                | nil =>
                  rw [pgo_cons_nil, hc2m]
                  show (posList m (p ++ [i + 1])).head? = _
                  rw [hphead, List.append_assoc]
                  rfl
                | cons w vs3 =>
                  rw [pgo_cons_cons, hc2m]
                  rw [List.head?_append_of_ne_nil _ (by
                    show posList m (p ++ [i + 1]) ≠ []
                    exact posList_ne_nil hnodem hnem)]
                  show (posList m (p ++ [i + 1])).head? = _
                  rw [hphead, List.append_assoc]
                  rfl
              rw [hhd] at hy
              have hyeq : (p ++ (i + 1) :: descendLeft m, 0) = y := by simpa using hy
              subst hyeq
              exact incIter_descend hnode helem hg1
            | none =>
              rw [hc2m] at hg1
              cases vs2 with
              | nil =>
                rw [pgo_cons_nil] at hy
                show incIter root (p, i) = some y
                rw [hc2m] at hy
                simp [optPosList] at hy
              | cons w vs3 =>
                have hhd : (posList.posGo (w :: vs3) (c2 :: rest2) p (i + 1)).head?
                    = some (p, i + 1) := by
                  rw [pgo_cons_cons, hc2m]
                  rfl
                rw [hhd] at hy
                have hyeq : (p, i + 1) = y := by simpa using hy
                subst hyeq
                refine incIter_within hnode helem hg1 ?_
                show i + 1 < vsfull.length
                simp only [List.length_cons] at hlenfull
                omega
        · -- the remaining walk chains internally
          cases rest with
          | nil =>
            simp only [List.length_cons, List.length_nil] at hlt
            omega
          | cons c2 rest2 =>
            refine ih vs2 (i + 1) p vsfull csfull hnode ?_ ?_ ?_ ?_ hch
            · intro k
              have := hvs (k + 1)
              rw [show i + (k + 1) = (i + 1) + k by omega] at this
              simpa using this
            · intro j co hg
              have := hcs (j + 1) co (by simpa using hg)
              rw [show i + (j + 1) = (i + 1) + j by omega] at this
              exact this
            · simp only [List.length_cons] at hlenfull
              omega
            · simp only [List.length_cons] at hlt ⊢
              omega
      · -- boundary: last of child block steps to (p, i)
        intro x hx y hy
        have hyeq : (p, i) = y := by simpa using hy
        subst hyeq
        cases c with
        | none => simp [optPosList] at hx
        | some m =>
          have hg0 : csfull.get? i = some (some m) := by
            have := hcs 0 (some m) (by simp)
            simpa using this
          obtain ⟨hwm, hnodem, hnem⟩ := hchildfacts i m hg0
          have hlast := posList_last hcap m (p ++ [i]) _ _ false hwm hnodem hnem
          rw [show optPosList (some m) (p ++ [i]) = posList m (p ++ [i]) from rfl] at hx
          rw [hlast] at hx
          have hxeq : ((p ++ [i]) ++ endPath m, lenAt m (endPath m) - 1) = x := by
            simpa using hx
          subst hxeq
          cases hgl : (inorder m).getLast? with
          | none => exact absurd (List.getLast?_eq_none_iff.mp hgl) hnem
          | some temp =>
            rw [incIter_last hcap hwm hnodem hnem hgl]
            rw [show (p ++ [i]) ++ endPath m = p ++ i :: endPath m by simp]
            exact ascend_exit hcap hwroot hneroot p vsfull csfull hnode i m
              (childAt_of_get? hg0) hivs temp hgl

/-- Every position list of an in-tree node is chained by `operator++`. -/
theorem chainA {T : Type} [LinearOrder T] {cap : Nat} (hcap : 1 ≤ cap)
    {root : BNode T} {lo hi : Option T}
    (hwroot : WF cap lo hi true root) (hneroot : inorder root ≠ []) :
    ∀ (n : BNode T) (p : List Nat), nodeAt p root = some n →
      List.Chain' (fun a b => incIter root a = some b) (posList n p) := by
  refine bnode_ind ?_
  intro vs cs ih p hnode
  obtain ⟨lo2, hi2, hwn⟩ := wf_nodeAt p root _ lo hi true hwroot hnode
  obtain ⟨hcslen, hvslen, -, -, -⟩ := wf_destruct hwn
  show List.Chain' _ (posList.posGo vs cs p 0)
  refine chainA_go hcap hwroot hneroot cs vs 0 p vs cs hnode (fun k => by simp)
    (fun j co h => by simpa using h) (by simp) (by omega) ?_
  intro co hco m hcom p2 hn2
  exact ih co hco m hcom p2 hn2

/-- The full iteration sequence, element positions followed by the end
position, is chained by `operator++`. -/
theorem chain_global {T : Type} [LinearOrder T] {cap : Nat} (hcap : 1 ≤ cap)
    {root : BNode T} {lo hi : Option T}
    (hwroot : WF cap lo hi true root) (hneroot : inorder root ≠ []) :
    List.Chain' (fun a b => incIter root a = some b)
      (posList root [] ++ [endPos root]) := by
  rw [List.chain'_append]
  refine ⟨chainA hcap hwroot hneroot root [] (nodeAt_nil root), List.chain'_singleton _, ?_⟩
  intro x hx y hy
  have hyeq : endPos root = y := by simpa using hy
  subst hyeq
  rw [posList_last hcap root [] lo hi true hwroot (nodeAt_nil root) hneroot] at hx
  have hxeq : (([] : List Nat) ++ endPath root, lenAt root (endPath root) - 1) = x := by
    simpa using hx
  subst hxeq
  cases hgl : (inorder root).getLast? with
  | none => exact absurd (List.getLast?_eq_none_iff.mp hgl) hneroot
  | some temp =>
    rw [incIter_last hcap hwroot (nodeAt_nil root) hneroot hgl]
    have := ascend_at_end hcap hwroot hneroot temp
    simpa using this

/-- At any position actually holding an element, the `it != cend()` guard of
the print loop is true (the iterator differs from the end iterator). -/
theorem guard_elem_false {T : Type} [LinearOrder T] {cap : Nat} (hcap : 1 ≤ cap)
    {root : BNode T} {lo hi : Option T} (hw : WF cap lo hi true root)
    (hne : inorder root ≠ []) {pa : List Nat} {ia : Nat} {v : T}
    (hv : elemAt root pa ia = some v) :
    iterPtrEq root (pa, ia) (endPos root) = false := by
  unfold elemAt at hv
  cases hna : nodeAt pa root with
  | none =>
    rw [hna] at hv
    simp at hv
  | some na =>
    rw [hna] at hv
    have hval : na.val.get? ia = some v := hv
    obtain ⟨hlt, -⟩ := List.get?_eq_some.mp hval
    have hvne : na.val ≠ [] := List.length_pos.mp (by omega)
    by_cases hpa : pa = endPath root
    · obtain ⟨m, hm1, hm2, -, hlen⟩ := endNode_facts hcap hw hne
      subst hpa
      have hnm : na = m := by
        rw [hna] at hm1
        exact Option.some.inj hm1
      subst hnm
      unfold iterPtrEq endPos
      rw [iterPtr_some ia hna hvne, iterPtr_some _ hm1 hm2]
      have hia : ia ≠ lenAt root (endPath root) := by
        rw [hlen]
        omega
      simp [hia]
    · exact guard_end_false hcap hw hne ia hna hvne hpa

/-- Collecting elements with the fueled print loop along a chained position
list yields exactly the elements at those positions. -/
theorem iter_collect {T : Type} [LinearOrder T] {cap : Nat} (hcap : 1 ≤ cap)
    {root : BNode T} {lo hi : Option T} (hw : WF cap lo hi true root)
    (hne : inorder root ≠ []) :
    ∀ (l : List (List Nat × Nat)) (x : List Nat × Nat),
      List.Chain' (fun a b => incIter root a = some b) (x :: l ++ [endPos root]) →
      (∀ q ∈ x :: l, (elemAt root q.1 q.2).isSome) →
      (iterElemsFrom root (x :: l).length x).map some
        = (x :: l).map (fun q => elemAt root q.1 q.2) := by
  intro l
  induction l with
  | nil =>
    intro x hch hv
    obtain ⟨v, hvx⟩ := Option.isSome_iff_exists.mp (hv x (by simp))
    have hg : iterPtrEq root x (cEndPos root) = false := by
      show iterPtrEq root (x.1, x.2) (endPos root) = false
      exact guard_elem_false hcap hw hne (v := v) (by simpa using hvx)
    have hstep : incIter root x = some (endPos root) := by
      have hch2 : List.Chain' (fun a b => incIter root a = some b)
          (x :: endPos root :: []) := hch
      exact (List.chain'_cons.mp hch2).1
    show (iterElemsFrom root 1 x).map some = _
    rw [show iterElemsFrom root 1 x
        = (if iterPtrEq root x (cEndPos root) then []
           else match elemAt root x.1 x.2 with
                | none => []
                | some v => v :: (match incIter root x with
                      | some pq2 => iterElemsFrom root 0 pq2
                      | none => [])) from rfl,
      hg, hvx, hstep]
    rw [if_neg Bool.false_ne_true]
    show ([some v] : List (Option T)) = [elemAt root x.1 x.2]
    rw [hvx]
  | cons y l2 ih =>
    intro x hch hv
    obtain ⟨v, hvx⟩ := Option.isSome_iff_exists.mp (hv x (by simp))
    have hg : iterPtrEq root x (cEndPos root) = false := by
      show iterPtrEq root (x.1, x.2) (endPos root) = false
      exact guard_elem_false hcap hw hne (v := v) (by simpa using hvx)
    have hch' : List.Chain' (fun a b => incIter root a = some b)
        (x :: y :: (l2 ++ [endPos root])) := by simpa using hch
    rw [List.chain'_cons] at hch'
    have hrest := ih y (by simpa using hch'.2) (fun q hq => hv q (by simp [hq]))
    show (iterElemsFrom root ((y :: l2).length + 1) x).map some = _
    rw [show iterElemsFrom root ((y :: l2).length + 1) x
        = (if iterPtrEq root x (cEndPos root) then []
           else match elemAt root x.1 x.2 with
                | none => []
                | some v => v :: (match incIter root x with
                      | some pq2 => iterElemsFrom root (y :: l2).length pq2
                      | none => [])) from rfl,
      hg, hvx, hch'.1]
    rw [if_neg Bool.false_ne_true]
    show some v :: (iterElemsFrom root (y :: l2).length y).map some
        = List.map (fun q => elemAt root q.1 q.2) (x :: y :: l2)
    rw [hrest]
    simp only [List.map_cons]
    rw [hvx]

/-- On a well-formed tree, iterating with `++` from `begin()` to `end()`
visits exactly the in-order element sequence. -/
theorem traverse_eq_inorder {T : Type} [LinearOrder T] {cap : Nat} (hcap : 1 ≤ cap)
    {root : BNode T} {lo hi : Option T} (hw : WF cap lo hi true root) :
    iterTraverse root = inorder root := by
  by_cases hne : inorder root = []
  · unfold iterTraverse count
    rw [hne]
    rfl
  · have halign := posList_align root [] (nodeAt_nil root)
    have hplen := @posList_length _ root root [] (nodeAt_nil root)
    have hpne : posList root [] ≠ [] := posList_ne_nil (nodeAt_nil root) hne
    cases hpl : posList root [] with
    | nil => exact absurd hpl hpne
    | cons x l =>
      have hhd := posList_head hcap root [] lo hi true hw (nodeAt_nil root) hne
      rw [hpl] at hhd
      have hx : x = beginPos root := by
        have : some x = some (([] : List Nat) ++ descendLeft root, 0) := hhd
        have hx2 := Option.some.inj this
        rw [hx2]
        show (([] : List Nat) ++ descendLeft root, 0) = (descendLeft root, 0)
        rw [List.nil_append]
      have hch := chain_global hcap hw hne
      rw [hpl] at hch
      rw [hpl] at halign hplen
      have hv : ∀ q ∈ x :: l, (elemAt root q.1 q.2).isSome := by
        intro q hq
        have hmem : elemAt root q.1 q.2 ∈ (x :: l).map (fun q => elemAt root q.1 q.2) :=
          List.mem_map_of_mem _ hq
        rw [halign] at hmem
        obtain ⟨a, -, ha⟩ := List.mem_map.mp hmem
        rw [← ha]
        rfl
      have hcoll := iter_collect hcap hw hne l x (by simpa using hch) hv
      have hcnt : count root = (x :: l).length := by
        unfold count
        omega
      unfold iterTraverse
      rw [hcnt, ← hx]
      have hfinal : (iterElemsFrom root (x :: l).length x).map some
          = (inorder root).map some := by
        rw [hcoll, halign]
      exact List.map_injective_iff.mpr (Option.some_injective T) hfinal

/-! ### Claim theorems -/

/-- C1: for every insertion sequence (any capacity ≥ 1), stepping an iterator
from `begin()` to `end()` with `operator++` yields a strictly increasing,
duplicate-free sequence whose members are exactly the inserted elements. -/
theorem claim_C1_traversal_sorted_distinct {T : Type} [LinearOrder T] (cap : Nat)
    (hcap : 1 ≤ cap) (es : List T) :
    List.Sorted (· < ·) (iterTraverse (buildTree T cap es)) ∧
    ∀ x : T, x ∈ iterTraverse (buildTree T cap es) ↔ x ∈ es := by
  have hw := buildTree_wf hcap es
  rw [traverse_eq_inorder hcap hw]
  exact ⟨buildTree_sorted hcap es, buildTree_mem hcap es⟩

theorem claim_C1_witness :
    List.Sorted (· < ·) (iterTraverse (buildTree Int 1 [2, 1])) ∧
    ∀ x : Int, x ∈ iterTraverse (buildTree Int 1 [2, 1]) ↔ x ∈ [2, 1] :=
  claim_C1_traversal_sorted_distinct 1 (by decide) [2, 1]

/-- C2: `insert(e)` returns a position holding an element equal to `e`; if an
equal element is already present the tree is unchanged and `inserted = false`;
otherwise `inserted = true` and the size grows by exactly one; re-inserting
the same element returns the same tree, the same position, and `false`. -/
theorem claim_C2_insert_contract {T : Type} [LinearOrder T] (cap : Nat)
    (hcap : 1 ≤ cap) (es : List T) (e : T) :
    (elemAt (nodeInsert cap (buildTree T cap es) e).1
        (nodeInsert cap (buildTree T cap es) e).2.1.1
        (nodeInsert cap (buildTree T cap es) e).2.1.2 = some e) ∧
    (e ∈ inorder (buildTree T cap es) →
      (nodeInsert cap (buildTree T cap es) e).1 = buildTree T cap es ∧
      (nodeInsert cap (buildTree T cap es) e).2.2 = false) ∧
    (e ∉ inorder (buildTree T cap es) →
      (nodeInsert cap (buildTree T cap es) e).2.2 = true ∧
      count (nodeInsert cap (buildTree T cap es) e).1
        = count (buildTree T cap es) + 1) ∧
    nodeInsert cap (nodeInsert cap (buildTree T cap es) e).1 e
      = ((nodeInsert cap (buildTree T cap es) e).1,
         (nodeInsert cap (buildTree T cap es) e).2.1, false) := by
  have hw := buildTree_wf hcap es
  obtain ⟨-, hpos, hmem, hnmem⟩ :=
    nodeInsert_spec hcap (buildTree T cap es) none none true e hw trivial trivial
  refine ⟨hpos, hmem, ?_, ?_⟩
  · intro hnm
    refine ⟨(hnmem hnm).1, ?_⟩
    have := count_nodeInsert hcap hw (e := e) trivial trivial
    rw [if_neg hnm] at this
    exact this
  · exact nodeInsert_idem hcap (buildTree T cap es) none none true e hw trivial trivial

theorem claim_C2_witness :
    (elemAt (nodeInsert 1 (buildTree Int 1 []) 5).1
        (nodeInsert 1 (buildTree Int 1 []) 5).2.1.1
        (nodeInsert 1 (buildTree Int 1 []) 5).2.1.2 = some 5) ∧
    ((5 : Int) ∈ inorder (buildTree Int 1 []) →
      (nodeInsert 1 (buildTree Int 1 []) 5).1 = buildTree Int 1 [] ∧
      (nodeInsert 1 (buildTree Int 1 []) 5).2.2 = false) ∧
    ((5 : Int) ∉ inorder (buildTree Int 1 []) →
      (nodeInsert 1 (buildTree Int 1 []) 5).2.2 = true ∧
      count (nodeInsert 1 (buildTree Int 1 []) 5).1 = count (buildTree Int 1 []) + 1) ∧
    nodeInsert 1 (nodeInsert 1 (buildTree Int 1 []) 5).1 5
      = ((nodeInsert 1 (buildTree Int 1 []) 5).1,
         (nodeInsert 1 (buildTree Int 1 []) 5).2.1, false) :=
  claim_C2_insert_contract 1 (by decide) [] 5

/-- C3: the spec says `find(x)` either returns a position holding `x` or the
end sentinel.  In the source, `nodeFind` evaluates `(*itPos) == elem` before
checking `itPos != val.end()`: on the capacity-1 tree holding only `1`,
`find(2)` computes `itPos = lower_bound(val, 2) = val.end()` and dereferences
one past the last element (modelled by `none`) instead of reaching the
end-sentinel branch. -/
theorem claim_C3_find_deref_past_end :
    nodeFind (buildTree Int 1 [1]) 2 = none := by decide

/-- C4: the claim says the search point `p` is bounds-checked before the
element at `p` is compared, so no one-past-the-end access occurs.  In both
overloads the comparison `(*itPos) == elem` precedes any bounds check: on the
capacity-2 tree holding `1, 3`, the read-only `find(5)` reaches
`itPos = val.end()` and reads one past the last buffer element (modelled by
`none`) instead of falling through to the child-slot/end-sentinel branches. -/
theorem claim_C4_cfind_deref_past_end :
    cNodeFind (buildTree Int 2 [1, 3]) 5 = none := by decide

/-- C5: on the capacity-2 tree holding `1, 2, 3` (N = 3), stepping forward
from `begin()` exactly N times does reach `end()`, but the first backward step
from `end()` is already undefined: `operator--` executes `T temp = (*pos)`
with `pos == val.end()`, a read one past the last element (modelled by
`none`), so stepping backward from `end()` N times cannot reach `begin()`. -/
theorem claim_C5_backward_from_end_undefined :
    incIterN (buildTree Int 2 [1, 2, 3]) (count (buildTree Int 2 [1, 2, 3]))
        (beginPos (buildTree Int 2 [1, 2, 3]))
      = some (endPos (buildTree Int 2 [1, 2, 3])) ∧
    decIter (buildTree Int 2 [1, 2, 3]) (endPos (buildTree Int 2 [1, 2, 3]))
      = none := by decide

/-- C6: the claim says the stream output of the capacity-3 tree built from
`5, 3, 8, 1, 4, 7, 2, 6` is `"1 2 3 4 5 6 7 8"`.  The source's `operator<<`
prints `*it` for `it = cbegin()` and then restarts the loop at `cbegin()`
without having advanced `it`, printing the first element a second time: the
output is `"1 1 2 3 4 5 6 7 8"`. -/
theorem claim_C6_dump_repeats_first_element :
    dump (buildTree Int 3 [5, 3, 8, 1, 4, 7, 2, 6]) = "1 1 2 3 4 5 6 7 8" := by
  decide

/-- C8: between a mutable and a read-only position (in either order), the
`==`/`!=` operators hold exactly when the two positions name the same node
(path) and the same index, whichever variant each side is — given that both
positions point into nodes whose buffers hold elements (as every position
obtained from the API on a non-empty tree does). -/
theorem claim_C8_mixed_equality {T : Type} {root : BNode T}
    {pa pb : List Nat} (ia ib : Nat) {na nb : BNode T}
    (ha : nodeAt pa root = some na) (hva : na.val ≠ [])
    (hb : nodeAt pb root = some nb) (hvb : nb.val ≠ []) :
    (iterEqMC root (pa, ia) (pb, ib) = true ↔ pa = pb ∧ ia = ib) ∧
    (iterEqCM root (pa, ia) (pb, ib) = true ↔ pa = pb ∧ ia = ib) ∧
    (iterNeMC root (pa, ia) (pb, ib) = true ↔ ¬(pa = pb ∧ ia = ib)) ∧
    (iterNeCM root (pa, ia) (pb, ib) = true ↔ ¬(pa = pb ∧ ia = ib)) := by
  have h1 : iterPtrEq root (pa, ia) (pb, ib) = true ↔ pa = pb ∧ ia = ib := by
    unfold iterPtrEq
    rw [iterPtr_some ia ha hva, iterPtr_some ib hb hvb]
    simp [Prod.ext_iff]
  have h2 : (!iterPtrEq root (pa, ia) (pb, ib)) = true ↔ ¬(pa = pb ∧ ia = ib) := by
    rw [← h1]
    cases iterPtrEq root (pa, ia) (pb, ib) with
    | false => simp
    | true => simp
  exact ⟨h1, h1, h2, h2⟩

theorem claim_C8_witness :
    (iterEqMC (buildTree Int 1 [1, 2]) (([] : List Nat), 0) ([1], 0) = true
      ↔ ([] : List Nat) = [1] ∧ 0 = 0) ∧
    (iterEqCM (buildTree Int 1 [1, 2]) (([] : List Nat), 0) ([1], 0) = true
      ↔ ([] : List Nat) = [1] ∧ 0 = 0) ∧
    (iterNeMC (buildTree Int 1 [1, 2]) (([] : List Nat), 0) ([1], 0) = true
      ↔ ¬(([] : List Nat) = [1] ∧ 0 = 0)) ∧
    (iterNeCM (buildTree Int 1 [1, 2]) (([] : List Nat), 0) ([1], 0) = true
      ↔ ¬(([] : List Nat) = [1] ∧ 0 = 0)) :=
  @claim_C8_mixed_equality Int (buildTree Int 1 [1, 2]) [] [1] 0 0
    (buildTree Int 1 [1, 2]) (BNode.mk [2] [none, none])
    rfl (by decide) rfl (by decide)

/-- C9: in any tree reachable by insertions (capacity ≥ 1), a node that has a
child holds exactly `maxNodeElems` elements — children are only ever created
under already-full nodes, so in particular every non-root node with children
is full. -/
theorem claim_C9_children_only_when_full {T : Type} [LinearOrder T] (cap : Nat)
    (hcap : 1 ≤ cap) (es : List T) (p : List Nat) (n : BNode T)
    (hnode : nodeAt p (buildTree T cap es) = some n)
    (i : Nat) (hchild : (childAt n.children i).isSome = true) :
    n.val.length = cap := by
  cases n with
  | mk vs cs =>
    obtain ⟨m, hm⟩ := Option.isSome_iff_exists.mp hchild
    have hg : cs.get? i = some (some m) := by
      have hj : (cs.get? i).join = some m := hm
      cases hgi : cs.get? i with
      | none =>
        rw [hgi] at hj
        simp at hj
      | some co =>
        rw [hgi] at hj
        have hco : co = some m := by simpa using hj
        rw [hco]
    obtain ⟨lo2, hi2, hwn⟩ := wf_nodeAt p (buildTree T cap es) _ none none true
      (buildTree_wf hcap es) hnode
    exact (wf_full_of_child hwn hg).1

theorem claim_C9_witness : (buildTree Int 1 [3, 4]).val.length = 1 :=
  claim_C9_children_only_when_full 1 (by decide) [3, 4] [] (buildTree Int 1 [3, 4])
    rfl 1 (by decide)

/-- C10: on a tree on which nothing was ever inserted (empty root, no
children), `begin()` equals `end()`, `cbegin()` equals `cend()`, the two
compare equal as iterators, and the stream output is empty. -/
theorem claim_C10_empty_tree_begin_eq_end {T : Type} [LinearOrder T] [ToString T]
    (cap : Nat) :
    beginPos (mkNode T cap) = endPos (mkNode T cap) ∧
    cBeginPos (mkNode T cap) = cEndPos (mkNode T cap) ∧
    iterEqMM (mkNode T cap) (beginPos (mkNode T cap)) (endPos (mkNode T cap)) = true ∧
    dump (mkNode T cap) = "" := by
  have hmk : mkNode T cap = .mk [] (none :: List.replicate cap none) := by
    rw [mkNode, List.replicate_succ]
  have hdesc : descendLeft (mkNode T cap) = [] := by
    rw [hmk]
    rfl
  have hend : endPath (mkNode T cap) = [] := by
    rw [hmk]
    rfl
  have hbp : beginPos (mkNode T cap) = ([], 0) := by
    rw [beginPos, hdesc]
  have hep : endPos (mkNode T cap) = ([], 0) := by
    rw [endPos, hend]
    rw [show lenAt (mkNode T cap) [] = (mkNode T cap).val.length from rfl, hmk]
    rfl
  have hpe : iterPtrEq (mkNode T cap) ([], 0) ([], 0) = true := by
    unfold iterPtrEq
    simp
  have hcnt : count (mkNode T cap) = 0 := by
    rw [count, hmk]
    rfl
  refine ⟨by rw [hbp, hep], ?_, ?_, ?_⟩
  · show beginPos (mkNode T cap) = endPos (mkNode T cap)
    rw [hbp, hep]
  · show iterPtrEq (mkNode T cap) (beginPos (mkNode T cap)) (endPos (mkNode T cap)) = true
    rw [hbp, hep, hpe]
  · unfold dump
    rw [show cBeginPos (mkNode T cap) = beginPos (mkNode T cap) from rfl,
      show cEndPos (mkNode T cap) = endPos (mkNode T cap) from rfl, hbp, hep,
      if_pos hpe, hcnt]
    rfl

/-! ### Heap model: basic lemmas -/

theorem hWrite_next {T : Type} (h : Heap T) (a : Nat) (r : NodeRec T) :
    (hWrite h a r).next = h.next := rfl

theorem hWrite_mem_self {T : Type} (h : Heap T) (a : Nat) (r : NodeRec T) :
    (hWrite h a r).mem a = r := by
  show (if a = a then r else h.mem a) = r
  simp

theorem hWrite_mem_ne {T : Type} (h : Heap T) (a : Nat) (r : NodeRec T) {b : Nat}
    (hb : b ≠ a) : (hWrite h a r).mem b = h.mem b := by
  show (if b = a then r else h.mem b) = h.mem b
  simp [hb]

theorem hAlloc_next {T : Type} (h : Heap T) (r : NodeRec T) :
    (hAlloc h r).1.next = h.next + 1 := rfl

theorem hAlloc_addr {T : Type} (h : Heap T) (r : NodeRec T) :
    (hAlloc h r).2 = h.next := rfl

theorem hAlloc_mem_self {T : Type} (h : Heap T) (r : NodeRec T) :
    (hAlloc h r).1.mem h.next = r := by
  show (if h.next = h.next then r else h.mem h.next) = r
  simp

theorem hAlloc_mem_ne {T : Type} (h : Heap T) (r : NodeRec T) {b : Nat}
    (hb : b ≠ h.next) : (hAlloc h r).1.mem b = h.mem b := by
  show (if b = h.next then r else h.mem b) = h.mem b
  simp [hb]

theorem set_append_length {A : Type} : ∀ (xs : List A) (y z : A) (ys : List A),
    (xs ++ y :: ys).set xs.length z = xs ++ z :: ys := by
  intro xs y z ys
  induction xs with
  | nil => rfl
  | cons x xs ih => simpa using ih

theorem reprKids_length {T : Type} {h : Heap T} :
    ∀ (cs : List (Option (BNode T))) (ks : List (Option Nat)),
      reprAt.reprKids h ks cs → ks.length = cs.length := by
  intro cs
  induction cs with
  | nil =>
    intro ks hk
    cases ks with
    | nil => rfl
    | cons k ks => cases k <;> exact (hk : False).elim
  | cons c cs ih =>
    intro ks hk
    cases ks with
    | nil => exact (hk : False).elim
    | cons k ks =>
      cases k with
      | none =>
        cases c with
        | none => simpa using ih ks hk
        | some m => exact (hk : False).elim
      | some b =>
        cases c with
        | none => exact (hk : False).elim
        | some m => simpa using ih ks hk.2


/-- Heap frame rule: a representation only depends on the records at its own
addresses. -/
theorem reprAt_frame {T : Type} {h h2 : Heap T} :
    ∀ (s : BNode T) (a : Nat), reprAt h a s →
      (∀ b ∈ addrsAt h a s, h2.mem b = h.mem b) →
      reprAt h2 a s ∧ addrsAt h2 a s = addrsAt h a s := by
  refine bnode_ind ?_
  intro vs cs ih a hr hf
  obtain ⟨hval, hkids⟩ := hr
  have hma : h2.mem a = h.mem a := hf a (List.mem_cons_self _ _)
  have go : ∀ (cs2 : List (Option (BNode T))), (∀ c ∈ cs2, c ∈ cs) →
      ∀ (ks : List (Option Nat)), reprAt.reprKids h ks cs2 →
        (∀ b ∈ addrsAt.addrsKids h ks cs2, h2.mem b = h.mem b) →
        reprAt.reprKids h2 ks cs2 ∧
          addrsAt.addrsKids h2 ks cs2 = addrsAt.addrsKids h ks cs2 := by
    intro cs2
    induction cs2 with
    | nil =>
      intro _ ks hk _
      cases ks with
      | nil => exact ⟨trivial, rfl⟩
      | cons k ks => cases k <;> exact (hk : False).elim
    | cons c cs2 ihc =>
      intro hsub ks hk hf2
      cases ks with
      | nil => exact (hk : False).elim
      | cons k ks =>
        cases k with
        | none =>
          cases c with
          | none =>
            have := ihc (fun c2 hc2 => hsub c2 (List.mem_cons_of_mem _ hc2)) ks hk
              (fun b hb => hf2 b hb)
            exact ⟨this.1, this.2⟩
          | some m => exact (hk : False).elim
        | some b =>
          cases c with
          | none => exact (hk : False).elim
          | some m =>
            obtain ⟨hrm, hkrest⟩ := hk
            have hfm : ∀ bb ∈ addrsAt h b m, h2.mem bb = h.mem bb := by
              intro bb hbb
              refine hf2 bb ?_
              show bb ∈ addrsAt h b m ++ addrsAt.addrsKids h ks cs2
              exact List.mem_append_left _ hbb
            have hnode := ih (some m) (hsub _ (List.mem_cons_self _ _)) m rfl b hrm hfm
            have hrest := ihc (fun c2 hc2 => hsub c2 (List.mem_cons_of_mem _ hc2)) ks
              hkrest (fun b2 hb2 => hf2 b2 (by
                show b2 ∈ addrsAt h b m ++ addrsAt.addrsKids h ks cs2
                exact List.mem_append_right _ hb2))
            refine ⟨⟨hnode.1, hrest.1⟩, ?_⟩
            show addrsAt h2 b m ++ addrsAt.addrsKids h2 ks cs2
              = addrsAt h b m ++ addrsAt.addrsKids h ks cs2
            rw [hnode.2, hrest.2]
  have hkframe : ∀ b ∈ addrsAt.addrsKids h (h.mem a).kids cs, h2.mem b = h.mem b :=
    fun b hb => hf b (List.mem_cons_of_mem _ hb)
  have hgo := go cs (fun _ hc => hc) (h.mem a).kids hkids hkframe
  constructor
  · show (h2.mem a).val = vs ∧ reprAt.reprKids h2 (h2.mem a).kids cs
    rw [hma]
    exact ⟨hval, hgo.1⟩
  · show a :: addrsAt.addrsKids h2 (h2.mem a).kids cs
      = a :: addrsAt.addrsKids h (h.mem a).kids cs
    rw [hma, hgo.2]

/-- Kid-list version of the frame rule. -/
theorem reprKids_frame {T : Type} {h h2 : Heap T} :
    ∀ (cs : List (Option (BNode T))) (ks : List (Option Nat)),
      reprAt.reprKids h ks cs →
      (∀ b ∈ addrsAt.addrsKids h ks cs, h2.mem b = h.mem b) →
      reprAt.reprKids h2 ks cs ∧
        addrsAt.addrsKids h2 ks cs = addrsAt.addrsKids h ks cs := by
  intro cs
  induction cs with
  | nil =>
    intro ks hk _
    cases ks with
    | nil => exact ⟨trivial, rfl⟩
    | cons k ks => cases k <;> exact (hk : False).elim
  | cons c cs ihc =>
    intro ks hk hf2
    cases ks with
    | nil => exact (hk : False).elim
    | cons k ks =>
      cases k with
      | none =>
        cases c with
        | none =>
          have := ihc ks hk (fun b hb => hf2 b hb)
          exact ⟨this.1, this.2⟩
        | some m => exact (hk : False).elim
      | some b =>
        cases c with
        | none => exact (hk : False).elim
        | some m =>
          obtain ⟨hrm, hkrest⟩ := hk
          have hfm : ∀ bb ∈ addrsAt h b m, h2.mem bb = h.mem bb := by
            intro bb hbb
            refine hf2 bb ?_
            show bb ∈ addrsAt h b m ++ addrsAt.addrsKids h ks cs
            exact List.mem_append_left _ hbb
          have hnode := reprAt_frame m b hrm hfm
          have hrest := ihc ks hkrest (fun b2 hb2 => hf2 b2 (by
            show b2 ∈ addrsAt h b m ++ addrsAt.addrsKids h ks cs
            exact List.mem_append_right _ hb2))
          refine ⟨⟨hnode.1, hrest.1⟩, ?_⟩
          show addrsAt h2 b m ++ addrsAt.addrsKids h2 ks cs
            = addrsAt h b m ++ addrsAt.addrsKids h ks cs
          rw [hnode.2, hrest.2]

/-- Specification of the child-copy loop of `Node`'s copy constructor.
Parameterised by the copy specification of the child subtrees (discharged by
`copyH_spec`). -/
theorem copyKids_spec {T : Type} :
    ∀ (cs2 : List (Option (BNode T))),
      (∀ c ∈ cs2, ∀ m, c = some m → ∀ (h : Heap T) (b : Nat),
        reprAt h b m → (∀ bb ∈ addrsAt h b m, bb < h.next) →
        (copyH h b m).2 = h.next ∧ h.next < (copyH h b m).1.next ∧
        (∀ bb, bb < h.next → (copyH h b m).1.mem bb = h.mem bb) ∧
        reprAt (copyH h b m).1 (copyH h b m).2 m ∧
        (∀ bb ∈ addrsAt (copyH h b m).1 (copyH h b m).2 m,
          h.next ≤ bb ∧ bb < (copyH h b m).1.next)) →
    ∀ (ks : List (Option Nat)) (i : Nat) (hcur : Heap T) (a2 : Nat)
      (kspre : List (Option Nat)) (sval : List T),
      reprAt.reprKids hcur ks cs2 →
      (∀ b ∈ addrsAt.addrsKids hcur ks cs2, b < a2) →
      a2 < hcur.next →
      (hcur.mem a2).val = sval →
      (hcur.mem a2).kids = kspre ++ List.replicate cs2.length none →
      kspre.length = i →
      (copyH.copyKids hcur a2 i ks cs2).2 = a2 ∧
      hcur.next ≤ (copyH.copyKids hcur a2 i ks cs2).1.next ∧
      (∀ b, b < hcur.next → b ≠ a2 →
        (copyH.copyKids hcur a2 i ks cs2).1.mem b = hcur.mem b) ∧
      ((copyH.copyKids hcur a2 i ks cs2).1.mem a2).val = sval ∧
      ∃ ks2, ((copyH.copyKids hcur a2 i ks cs2).1.mem a2).kids = kspre ++ ks2 ∧
        reprAt.reprKids (copyH.copyKids hcur a2 i ks cs2).1 ks2 cs2 ∧
        (∀ b ∈ addrsAt.addrsKids (copyH.copyKids hcur a2 i ks cs2).1 ks2 cs2,
          hcur.next ≤ b ∧ b < (copyH.copyKids hcur a2 i ks cs2).1.next) := by
  intro cs2
  induction cs2 with
  | nil =>
    intro _ ks i hcur a2 kspre sval hk _ _ hv hkd _
    cases ks with
    | nil =>
      refine ⟨rfl, le_rfl, fun b _ _ => rfl, hv, [], ?_, trivial, ?_⟩
      · simpa using hkd
      · intro b hb
        exact absurd hb (by simp [addrsAt.addrsKids])
    | cons k ks => cases k <;> exact (hk : False).elim
  | cons c cs2 ihc =>
    intro hih ks i hcur a2 kspre sval hk hbound ha2next hv hkd hpre
    cases ks with
    | nil => exact (hk : False).elim
    | cons k ks =>
      cases k with
      | none =>
        cases c with
        | some m => exact (hk : False).elim
        | none =>
          have heq : copyH.copyKids hcur a2 i (none :: ks) ((none : Option (BNode T)) :: cs2)
              = copyH.copyKids hcur a2 (i + 1) ks cs2 := rfl
          rw [heq]
          have hkd2 : (hcur.mem a2).kids
              = (kspre ++ [none]) ++ List.replicate cs2.length none := by
            rw [hkd]
            simp [List.replicate_succ]
          obtain ⟨hr1, hr2, hr3, hr4, ks2, hk5a, hk5b, hk5c⟩ :=
            ihc (fun c2 hc2 => hih c2 (List.mem_cons_of_mem _ hc2)) ks (i + 1) hcur a2
              (kspre ++ [none]) sval hk (fun b hb => hbound b hb) ha2next hv hkd2
              (by simp [hpre])
          refine ⟨hr1, hr2, hr3, hr4, none :: ks2, ?_, hk5b, ?_⟩
          · rw [hk5a]
            simp
          · intro b hb
            exact hk5c b hb
      | some b =>
        cases c with
        | none => exact (hk : False).elim
        | some m =>
          obtain ⟨hrm, hkrest⟩ := hk
          have heq : copyH.copyKids hcur a2 i (some b :: ks) (some m :: cs2)
              = copyH.copyKids
                  (hWrite (copyH hcur b m).1 a2
                    ⟨((copyH hcur b m).1.mem a2).val,
                     ((copyH hcur b m).1.mem a2).kids.set i (some (copyH hcur b m).2)⟩)
                  a2 (i + 1) ks cs2 := rfl
          rw [heq]
          have hbm : ∀ bb ∈ addrsAt hcur b m, bb < hcur.next := by
            intro bb hbb
            refine lt_trans (hbound bb ?_) ha2next
            show bb ∈ addrsAt hcur b m ++ addrsAt.addrsKids hcur ks cs2
            exact List.mem_append_left _ hbb
          obtain ⟨hc1, hc2, hc3, hc4, hc5⟩ :=
            hih (some m) (List.mem_cons_self _ _) m rfl hcur b hrm hbm
          have hmemr1a2 : (copyH hcur b m).1.mem a2 = hcur.mem a2 := hc3 a2 ha2next
          -- facts about the written node
          have h3val : ((hWrite (copyH hcur b m).1 a2
              ⟨((copyH hcur b m).1.mem a2).val,
               ((copyH hcur b m).1.mem a2).kids.set i (some (copyH hcur b m).2)⟩).mem a2).val
              = sval := by
            rw [hWrite_mem_self, hmemr1a2, hv]
          have h3kids : ((hWrite (copyH hcur b m).1 a2
              ⟨((copyH hcur b m).1.mem a2).val,
               ((copyH hcur b m).1.mem a2).kids.set i (some (copyH hcur b m).2)⟩).mem a2).kids
              = (kspre ++ [some (copyH hcur b m).2]) ++ List.replicate cs2.length none := by
            rw [hWrite_mem_self]
            show ((copyH hcur b m).1.mem a2).kids.set i (some (copyH hcur b m).2) = _
            rw [hmemr1a2, hkd]
            simp only [List.length_cons, List.replicate_succ]
            rw [← hpre, set_append_length]
            simp
          have h3frame : ∀ bb ∈ addrsAt.addrsKids hcur ks cs2,
              (hWrite (copyH hcur b m).1 a2
                ⟨((copyH hcur b m).1.mem a2).val,
                 ((copyH hcur b m).1.mem a2).kids.set i (some (copyH hcur b m).2)⟩).mem bb
              = hcur.mem bb := by
            intro bb hbb
            have hbba2 : bb ≠ a2 := Nat.ne_of_lt (hbound bb (by
              show bb ∈ addrsAt hcur b m ++ addrsAt.addrsKids hcur ks cs2
              exact List.mem_append_right _ hbb))
            rw [hWrite_mem_ne _ _ _ hbba2]
            exact hc3 bb (lt_trans (hbound bb (by
              show bb ∈ addrsAt hcur b m ++ addrsAt.addrsKids hcur ks cs2
              exact List.mem_append_right _ hbb)) ha2next)
          obtain ⟨hk3, haddr3⟩ := reprKids_frame cs2 ks hkrest h3frame
          obtain ⟨hr1, hr2, hr3, hr4, ks2, hk5a, hk5b, hk5c⟩ :=
            ihc (fun c2 hc2 => hih c2 (List.mem_cons_of_mem _ hc2)) ks (i + 1)
              (hWrite (copyH hcur b m).1 a2
                ⟨((copyH hcur b m).1.mem a2).val,
                 ((copyH hcur b m).1.mem a2).kids.set i (some (copyH hcur b m).2)⟩)
              a2 (kspre ++ [some (copyH hcur b m).2]) sval hk3
              (by
                rw [haddr3]
                exact fun b2 hb2 => hbound b2 (by
                  show b2 ∈ addrsAt hcur b m ++ addrsAt.addrsKids hcur ks cs2
                  exact List.mem_append_right _ hb2))
              (lt_trans ha2next hc2) h3val h3kids (by simp [hpre])
          have hwnext : (hWrite (copyH hcur b m).1 a2
              ⟨((copyH hcur b m).1.mem a2).val,
               ((copyH hcur b m).1.mem a2).kids.set i (some (copyH hcur b m).2)⟩).next
              = (copyH hcur b m).1.next := rfl
          refine ⟨hr1, ?_, ?_, hr4, some (copyH hcur b m).2 :: ks2, ?_, ?_, ?_⟩
          · rw [hwnext] at hr2
            exact le_trans (le_of_lt hc2) hr2
          · intro b2 hb2 hb2a2
            rw [hr3 b2 (by rw [hwnext]; exact lt_trans hb2 hc2) hb2a2,
              hWrite_mem_ne _ _ _ hb2a2, hc3 b2 hb2]
          · rw [hk5a]
            simp
          · -- the copied child stays represented through the later writes
            have hstep1 : ∀ bb ∈ addrsAt (copyH hcur b m).1 (copyH hcur b m).2 m,
                (hWrite (copyH hcur b m).1 a2
                  ⟨((copyH hcur b m).1.mem a2).val,
                   ((copyH hcur b m).1.mem a2).kids.set i (some (copyH hcur b m).2)⟩).mem bb
                = (copyH hcur b m).1.mem bb := by
              intro bb hbb
              exact hWrite_mem_ne _ _ _ (by
                have := (hc5 bb hbb).1
                omega)
            obtain ⟨hrep3, haddrs3⟩ := reprAt_frame m (copyH hcur b m).2 hc4 hstep1
            have hstep2 : ∀ bb ∈ addrsAt (hWrite (copyH hcur b m).1 a2
                  ⟨((copyH hcur b m).1.mem a2).val,
                   ((copyH hcur b m).1.mem a2).kids.set i
                     (some (copyH hcur b m).2)⟩) (copyH hcur b m).2 m,
                (copyH.copyKids (hWrite (copyH hcur b m).1 a2
                  ⟨((copyH hcur b m).1.mem a2).val,
                   ((copyH hcur b m).1.mem a2).kids.set i
                     (some (copyH hcur b m).2)⟩) a2 (i + 1) ks cs2).1.mem bb
                = (hWrite (copyH hcur b m).1 a2
                  ⟨((copyH hcur b m).1.mem a2).val,
                   ((copyH hcur b m).1.mem a2).kids.set i
                     (some (copyH hcur b m).2)⟩).mem bb := by
              intro bb hbb
              rw [haddrs3] at hbb
              refine hr3 bb ?_ ?_
              · rw [hwnext]
                exact (hc5 bb hbb).2
              · have := (hc5 bb hbb).1
                omega
            obtain ⟨hrep4, haddrs4⟩ := reprAt_frame m (copyH hcur b m).2 hrep3 hstep2
            exact ⟨hrep4, hk5b⟩
          · intro b2 hb2
            have hsplit : b2 ∈ addrsAt (copyH.copyKids (hWrite (copyH hcur b m).1 a2
                  ⟨((copyH hcur b m).1.mem a2).val,
                   ((copyH hcur b m).1.mem a2).kids.set i
                     (some (copyH hcur b m).2)⟩) a2 (i + 1) ks cs2).1
                  (copyH hcur b m).2 m
                ∨ b2 ∈ addrsAt.addrsKids (copyH.copyKids (hWrite (copyH hcur b m).1 a2
                  ⟨((copyH hcur b m).1.mem a2).val,
                   ((copyH hcur b m).1.mem a2).kids.set i
                     (some (copyH hcur b m).2)⟩) a2 (i + 1) ks cs2).1 ks2 cs2 := by
              have : b2 ∈ addrsAt _ (copyH hcur b m).2 m ++ addrsAt.addrsKids _ ks2 cs2 := hb2
              exact List.mem_append.mp this
            cases hsplit with
            | inl hin =>
              -- addresses of the copied child, unchanged through both steps
              have hstep1 : ∀ bb ∈ addrsAt (copyH hcur b m).1 (copyH hcur b m).2 m,
                  (hWrite (copyH hcur b m).1 a2
                    ⟨((copyH hcur b m).1.mem a2).val,
                     ((copyH hcur b m).1.mem a2).kids.set i (some (copyH hcur b m).2)⟩).mem bb
                  = (copyH hcur b m).1.mem bb := by
                intro bb hbb
                exact hWrite_mem_ne _ _ _ (by
                  have := (hc5 bb hbb).1
                  omega)
              obtain ⟨hrep3, haddrs3⟩ := reprAt_frame m (copyH hcur b m).2 hc4 hstep1
              have hstep2 : ∀ bb ∈ addrsAt (hWrite (copyH hcur b m).1 a2
                    ⟨((copyH hcur b m).1.mem a2).val,
                     ((copyH hcur b m).1.mem a2).kids.set i
                       (some (copyH hcur b m).2)⟩) (copyH hcur b m).2 m,
                  (copyH.copyKids (hWrite (copyH hcur b m).1 a2
                    ⟨((copyH hcur b m).1.mem a2).val,
                     ((copyH hcur b m).1.mem a2).kids.set i
                       (some (copyH hcur b m).2)⟩) a2 (i + 1) ks cs2).1.mem bb
                  = (hWrite (copyH hcur b m).1 a2
                    ⟨((copyH hcur b m).1.mem a2).val,
                     ((copyH hcur b m).1.mem a2).kids.set i
                       (some (copyH hcur b m).2)⟩).mem bb := by
                intro bb hbb
                rw [haddrs3] at hbb
                refine hr3 bb ?_ ?_
                · rw [hwnext]
                  exact (hc5 bb hbb).2
                · have := (hc5 bb hbb).1
                  omega
              obtain ⟨hrep4, haddrs4⟩ := reprAt_frame m (copyH hcur b m).2 hrep3 hstep2
              rw [haddrs4, haddrs3] at hin
              have hbb := hc5 b2 hin
              constructor
              · exact hbb.1
              · have h1 : (copyH hcur b m).1.next
                    ≤ (copyH.copyKids (hWrite (copyH hcur b m).1 a2
                      ⟨((copyH hcur b m).1.mem a2).val,
                       ((copyH hcur b m).1.mem a2).kids.set i
                         (some (copyH hcur b m).2)⟩) a2 (i + 1) ks cs2).1.next := by
                  rw [← hwnext]
                  exact hr2
                omega
            | inr hin =>
              have := hk5c b2 hin
              rw [hwnext] at this
              exact ⟨le_trans (le_of_lt hc2) this.1, this.2⟩

/-- `Node`'s copy constructor produces a deep clone at the first fresh
address: no existing record is written, the clone represents the same value
tree, and every address of the clone lies in the freshly allocated range. -/
theorem copyH_spec {T : Type} :
    ∀ (s : BNode T) (h : Heap T) (a : Nat),
      reprAt h a s → (∀ b ∈ addrsAt h a s, b < h.next) →
      (copyH h a s).2 = h.next ∧
      h.next < (copyH h a s).1.next ∧
      (∀ b, b < h.next → (copyH h a s).1.mem b = h.mem b) ∧
      reprAt (copyH h a s).1 (copyH h a s).2 s ∧
      (∀ b ∈ addrsAt (copyH h a s).1 (copyH h a s).2 s,
        h.next ≤ b ∧ b < (copyH h a s).1.next) := by
  refine bnode_ind ?_
  intro vs cs ih h a hr hbelow
  obtain ⟨hval, hkids⟩ := hr
  have hsrclen : (h.mem a).kids.length = cs.length := reprKids_length cs _ hkids
  have heq : copyH h a (.mk vs cs)
      = copyH.copyKids
          (hAlloc h ⟨(h.mem a).val, List.replicate (h.mem a).kids.length none⟩).1
          h.next 0 (h.mem a).kids cs := rfl
  rw [heq]
  have hbelowk : ∀ b ∈ addrsAt.addrsKids h (h.mem a).kids cs, b < h.next := by
    intro b hb
    refine hbelow b ?_
    show b ∈ a :: addrsAt.addrsKids h (h.mem a).kids cs
    exact List.mem_cons_of_mem _ hb
  have hfr : ∀ b ∈ addrsAt.addrsKids h (h.mem a).kids cs,
      (hAlloc h ⟨(h.mem a).val, List.replicate (h.mem a).kids.length none⟩).1.mem b
      = h.mem b := by
    intro b hb
    exact hAlloc_mem_ne _ _ (Nat.ne_of_lt (hbelowk b hb))
  obtain ⟨hk1, haddr1⟩ := reprKids_frame cs (h.mem a).kids hkids hfr
  obtain ⟨hr1, hr2, hr3, hr4, ks2, hk5a, hk5b, hk5c⟩ :=
    copyKids_spec cs (fun c hc m hm h2 b hrb hbb => ih c hc m hm h2 b hrb hbb)
      (h.mem a).kids 0
      (hAlloc h ⟨(h.mem a).val, List.replicate (h.mem a).kids.length none⟩).1
      h.next [] vs hk1
      (by
        rw [haddr1]
        exact hbelowk)
      (by
        rw [hAlloc_next]
        omega)
      (by
        rw [show (hAlloc h ⟨(h.mem a).val, List.replicate (h.mem a).kids.length
            none⟩).1.mem h.next = ⟨(h.mem a).val, List.replicate (h.mem a).kids.length
            none⟩ from hAlloc_mem_self _ _]
        exact hval)
      (by
        rw [show (hAlloc h ⟨(h.mem a).val, List.replicate (h.mem a).kids.length
            none⟩).1.mem h.next = ⟨(h.mem a).val, List.replicate (h.mem a).kids.length
            none⟩ from hAlloc_mem_self _ _]
        show List.replicate (h.mem a).kids.length none = _
        rw [hsrclen]
        simp)
      rfl
  have hnext1 : (hAlloc h ⟨(h.mem a).val,
      List.replicate (h.mem a).kids.length none⟩).1.next = h.next + 1 := hAlloc_next _ _
  refine ⟨hr1, ?_, ?_, ?_, ?_⟩
  · rw [hnext1] at hr2
    omega
  · intro b hb
    rw [hr3 b (by omega) (Nat.ne_of_lt hb)]
    exact hAlloc_mem_ne _ _ (Nat.ne_of_lt hb)
  · show ((copyH.copyKids (hAlloc h ⟨(h.mem a).val,
        List.replicate (h.mem a).kids.length none⟩).1 h.next 0 (h.mem a).kids cs).1.mem
          (copyH.copyKids (hAlloc h ⟨(h.mem a).val,
        List.replicate (h.mem a).kids.length none⟩).1 h.next 0 (h.mem a).kids cs).2).val
        = vs ∧
      reprAt.reprKids (copyH.copyKids (hAlloc h ⟨(h.mem a).val,
        List.replicate (h.mem a).kids.length none⟩).1 h.next 0 (h.mem a).kids cs).1
        ((copyH.copyKids (hAlloc h ⟨(h.mem a).val,
        List.replicate (h.mem a).kids.length none⟩).1 h.next 0 (h.mem a).kids cs).1.mem
          (copyH.copyKids (hAlloc h ⟨(h.mem a).val,
        List.replicate (h.mem a).kids.length none⟩).1 h.next 0 (h.mem a).kids cs).2).kids cs
    rw [hr1]
    constructor
    · exact hr4
    · rw [hk5a]
      simpa using hk5b
  · intro b hb
    rw [hr1] at hb
    have hb2 : b ∈ h.next :: addrsAt.addrsKids
        (copyH.copyKids (hAlloc h ⟨(h.mem a).val,
          List.replicate (h.mem a).kids.length none⟩).1 h.next 0 (h.mem a).kids cs).1
        ((copyH.copyKids (hAlloc h ⟨(h.mem a).val,
          List.replicate (h.mem a).kids.length none⟩).1 h.next 0
            (h.mem a).kids cs).1.mem h.next).kids cs := hb
    rw [hk5a] at hb2
    simp only [List.nil_append] at hb2
    cases List.mem_cons.mp hb2 with
    | inl hbh =>
      subst hbh
      refine ⟨le_rfl, ?_⟩
      rw [hnext1] at hr2
      omega
    | inr hbt =>
      have := hk5c b hbt
      rw [hnext1] at this
      exact ⟨by omega, this.2⟩

/-- `nodeInsert` on the heap allocates only fresh addresses and writes only
inside the node graph it was called on: every record outside that graph is
untouched. -/
theorem insertH_spec {T : Type} [LinearOrder T] {cap : Nat} :
    ∀ (s : BNode T) (h : Heap T) (a : Nat) (e : T),
      reprAt h a s → (∀ b ∈ addrsAt h a s, b < h.next) →
      h.next ≤ (insertH cap h a s e).next ∧
      (∀ b, b < h.next → b ∉ addrsAt h a s →
        (insertH cap h a s e).mem b = h.mem b) := by
  refine bnode_ind ?_
  intro vs cs ih h a e hr hbelow
  obtain ⟨hval, hkids⟩ := hr
  have hmemself : a ∈ addrsAt h a (.mk vs cs) := by
    show a ∈ a :: addrsAt.addrsKids h (h.mem a).kids cs
    exact List.mem_cons_self _ _
  have heq : insertH cap h a (.mk vs cs) e
      = (if (h.mem a).val = [] then hWrite h a ⟨[e], (h.mem a).kids⟩
         else if lowerBound (h.mem a).val e < (h.mem a).val.length ∧
             (h.mem a).val.get? (lowerBound (h.mem a).val e) = some e then h
         else if (h.mem a).val.length < cap then
           hWrite h a ⟨(h.mem a).val.insertIdx (lowerBound (h.mem a).val e) e,
             (h.mem a).kids⟩
         else insertH.insKid cap h a e (lowerBound (h.mem a).val e)
           (lowerBound (h.mem a).val e) (h.mem a).kids cs) := rfl
  rw [heq]
  split_ifs with h1 h2 h3
  · exact ⟨le_rfl, fun b _ hb =>
      hWrite_mem_ne _ _ _ (fun hba => hb (hba ▸ hmemself))⟩
  · exact ⟨le_rfl, fun _ _ _ => rfl⟩
  · exact ⟨le_rfl, fun b _ hb =>
      hWrite_mem_ne _ _ _ (fun hba => hb (hba ▸ hmemself))⟩
  · have go : ∀ (cs2 : List (Option (BNode T))), (∀ c ∈ cs2, c ∈ cs) →
        ∀ (ks : List (Option Nat)) (k pos : Nat),
          reprAt.reprKids h ks cs2 →
          (∀ b ∈ addrsAt.addrsKids h ks cs2, b < h.next) →
          h.next ≤ (insertH.insKid cap h a e pos k ks cs2).next ∧
          (∀ b, b < h.next → b ≠ a → b ∉ addrsAt.addrsKids h ks cs2 →
            (insertH.insKid cap h a e pos k ks cs2).mem b = h.mem b) := by
      intro cs2
      induction cs2 with
      | nil =>
        intro _ ks k pos hk _
        cases ks with
        | nil => cases k <;> exact ⟨le_rfl, fun _ _ _ _ => rfl⟩
        | cons x ks => cases x <;> cases k <;> exact (hk : False).elim
      | cons c cs2 ihc =>
        intro hsub ks k pos hk hbnd
        cases ks with
        | nil => exact (hk : False).elim
        | cons x ks =>
          cases k with
          | zero =>
            cases x with
            | some b =>
              cases c with
              | none => exact (hk : False).elim
              | some m =>
                obtain ⟨hrm, -⟩ := hk
                have hbm : ∀ bb ∈ addrsAt h b m, bb < h.next := by
                  intro bb hbb
                  refine hbnd bb ?_
                  show bb ∈ addrsAt h b m ++ addrsAt.addrsKids h ks cs2
                  exact List.mem_append_left _ hbb
                have hins := ih (some m) (hsub _ (List.mem_cons_self _ _)) m rfl
                  h b e hrm hbm
                refine ⟨hins.1, ?_⟩
                intro b2 hb2 _ hb2n
                refine hins.2 b2 hb2 ?_
                intro hin
                exact hb2n (by
                  show b2 ∈ addrsAt h b m ++ addrsAt.addrsKids h ks cs2
                  exact List.mem_append_left _ hin)
            | none =>
              have heq2 : insertH.insKid cap h a e pos 0 (none :: ks) (c :: cs2)
                  = hWrite (hAlloc h ⟨[e], List.replicate (cap + 1) none⟩).1 a
                      ⟨((hAlloc h ⟨[e], List.replicate (cap + 1) none⟩).1.mem a).val,
                       ((hAlloc h ⟨[e], List.replicate (cap + 1) none⟩).1.mem a).kids.set
                         pos (some (hAlloc h ⟨[e],
                           List.replicate (cap + 1) none⟩).2)⟩ := rfl
              rw [heq2]
              constructor
              · rw [hWrite_next, hAlloc_next]
                omega
              · intro b2 hb2 hb2a _
                rw [hWrite_mem_ne _ _ _ hb2a]
                exact hAlloc_mem_ne _ _ (Nat.ne_of_lt hb2)
          | succ k2 =>
            have htail : reprAt.reprKids h ks cs2 ∧
                (∀ b2 ∈ addrsAt.addrsKids h ks cs2,
                  b2 ∈ addrsAt.addrsKids h (x :: ks) (c :: cs2)) := by
              cases x with
              | none =>
                cases c with
                | none => exact ⟨hk, fun b2 hb2 => hb2⟩
                | some m => exact (hk : False).elim
              | some b =>
                cases c with
                | none => exact (hk : False).elim
                | some m =>
                  refine ⟨hk.2, ?_⟩
                  intro b2 hb2
                  show b2 ∈ addrsAt h b m ++ addrsAt.addrsKids h ks cs2
                  exact List.mem_append_right _ hb2
            have heq3 : insertH.insKid cap h a e pos (k2 + 1) (x :: ks) (c :: cs2)
                = insertH.insKid cap h a e pos k2 ks cs2 := rfl
            rw [heq3]
            have := ihc (fun c2 hc2 => hsub c2 (List.mem_cons_of_mem _ hc2)) ks k2 pos
              htail.1 (fun b2 hb2 => hbnd b2 (htail.2 b2 hb2))
            refine ⟨this.1, ?_⟩
            intro b2 hb2 hb2a hb2n
            exact this.2 b2 hb2 hb2a (fun hin => hb2n (htail.2 b2 hin))
    have hgo := go cs (fun _ hc => hc) (h.mem a).kids (lowerBound (h.mem a).val e)
      (lowerBound (h.mem a).val e) hkids
      (fun b hb => hbelow b (by
        show b ∈ a :: addrsAt.addrsKids h (h.mem a).kids cs
        exact List.mem_cons_of_mem _ hb))
    refine ⟨hgo.1, ?_⟩
    intro b hb hbn
    have hb2 : b ∉ a :: addrsAt.addrsKids h (h.mem a).kids cs := hbn
    rw [List.mem_cons] at hb2
    push_neg at hb2
    exact hgo.2 b hb hb2.1 hb2.2

/-- C7: copy construction (and copy assignment, which copies through the same
`Node` copy constructor) yields an independent deep clone: no heap address is
shared between the original's node graph and the copy's, inserting into the
copy leaves every record of the original untouched (so the original still
represents — and traverses as — the same value tree), and inserting into the
original likewise leaves the copy intact. -/
theorem claim_C7_copy_independence {T : Type} [LinearOrder T] (cap : Nat)
    (h : Heap T) (a : Nat) (s : BNode T) (e e2 : T)
    (hrepr : reprAt h a s) (hbelow : ∀ b ∈ addrsAt h a s, b < h.next) :
    (∀ b ∈ addrsAt (copyH h a s).1 (copyH h a s).2 s,
      ∀ b2 ∈ addrsAt (copyH h a s).1 a s, b ≠ b2) ∧
    reprAt (insertH cap (copyH h a s).1 (copyH h a s).2 s e) a s ∧
    reprAt (insertH cap (copyH h a s).1 a s e2) (copyH h a s).2 s := by
  obtain ⟨hc1, hc2, hc3, hc4, hc5⟩ := copyH_spec s h a hrepr hbelow
  have hforig : ∀ b ∈ addrsAt h a s, (copyH h a s).1.mem b = h.mem b :=
    fun b hb => hc3 b (hbelow b hb)
  obtain ⟨horig, haddrorig⟩ := reprAt_frame s a hrepr hforig
  refine ⟨?_, ?_, ?_⟩
  · intro b hb b2 hb2
    rw [haddrorig] at hb2
    have h1 := (hc5 b hb).1
    have h2 := hbelow b2 hb2
    omega
  · obtain ⟨hi1, hi2⟩ := insertH_spec s (copyH h a s).1 (copyH h a s).2 e hc4
      (fun b hb => (hc5 b hb).2)
    have hforig2 : ∀ b ∈ addrsAt (copyH h a s).1 a s,
        (insertH cap (copyH h a s).1 (copyH h a s).2 s e).mem b
        = (copyH h a s).1.mem b := by
      intro b hb
      rw [haddrorig] at hb
      refine hi2 b (lt_trans (hbelow b hb) hc2) ?_
      intro hin
      have h3 := (hc5 b hin).1
      have h4 := hbelow b hb
      omega
    exact (reprAt_frame s a horig hforig2).1
  · obtain ⟨hi1, hi2⟩ := insertH_spec s (copyH h a s).1 a e2 horig (by
      rw [haddrorig]
      intro b hb
      exact lt_trans (hbelow b hb) hc2)
    have hfcopy : ∀ b ∈ addrsAt (copyH h a s).1 (copyH h a s).2 s,
        (insertH cap (copyH h a s).1 a s e2).mem b = (copyH h a s).1.mem b := by
      intro b hb
      refine hi2 b (hc5 b hb).2 ?_
      rw [haddrorig]
      intro hin
      have h3 := (hc5 b hb).1
      have h4 := hbelow b hin
      omega
    exact (reprAt_frame s (copyH h a s).2 hc4 hfcopy).1

theorem claim_C7_witness :
    (∀ b ∈ addrsAt (copyH (⟨fun _ => ⟨[1], [none, none]⟩, 1⟩ : Heap Int) 0
        (BNode.mk [1] [none, none])).1
        (copyH (⟨fun _ => ⟨[1], [none, none]⟩, 1⟩ : Heap Int) 0
          (BNode.mk [1] [none, none])).2 (BNode.mk [1] [none, none]),
      ∀ b2 ∈ addrsAt (copyH (⟨fun _ => ⟨[1], [none, none]⟩, 1⟩ : Heap Int) 0
        (BNode.mk [1] [none, none])).1 0 (BNode.mk [1] [none, none]), b ≠ b2) ∧
    reprAt (insertH 1 (copyH (⟨fun _ => ⟨[1], [none, none]⟩, 1⟩ : Heap Int) 0
        (BNode.mk [1] [none, none])).1
      (copyH (⟨fun _ => ⟨[1], [none, none]⟩, 1⟩ : Heap Int) 0
        (BNode.mk [1] [none, none])).2 (BNode.mk [1] [none, none]) 2) 0
      (BNode.mk [1] [none, none]) ∧
    reprAt (insertH 1 (copyH (⟨fun _ => ⟨[1], [none, none]⟩, 1⟩ : Heap Int) 0
        (BNode.mk [1] [none, none])).1 0 (BNode.mk [1] [none, none]) 3)
      (copyH (⟨fun _ => ⟨[1], [none, none]⟩, 1⟩ : Heap Int) 0
        (BNode.mk [1] [none, none])).2 (BNode.mk [1] [none, none]) :=
  claim_C7_copy_independence 1 (⟨fun _ => ⟨[1], [none, none]⟩, 1⟩ : Heap Int) 0
    (BNode.mk [1] [none, none]) 2 3 ⟨rfl, trivial⟩
    (by
      intro b hb
      have hb2 : b ∈ [0] := hb
      simp at hb2
      subst hb2
      show (0 : Nat) < 1
      omega)
